import Mathlib

/-!
Shallow embedding of `src/streamlit_app.py` (TikTok tracking-tag updater).

The Python program consists of four pure helpers and one pipeline:
  * `update_click_url`   (URL Rewriter, lines 7-51),
  * `extract_impression_url` (Impression Extractor, lines 53-63),
  * `find_tracker_column`    (Column Resolver, lines 65-79),
  * `process_files`          (Join & Project Pipeline, lines 81-180).

Python standard-library behaviour that the program relies on is embedded
faithfully below: `urllib.parse.urlparse` / `parse_qs` / `urlencode` /
`urlunparse` (including percent-encoding of the UTF-8 bytes of a character
and best-effort percent-decoding with U+FFFD replacement), Python string
methods (`str.strip`, `str.lower`, `str.endswith`, substring `in`), the
`re.search(r'["\x27](.*?)["\x27]', s)` call (leftmost, lazy, `.` not
matching a newline), and the relevant fragment of `pandas` (left merge
with `left_on`/`right_on`, suffixing of overlapping column names, the
coalescing of identically named key columns, row-wise `apply`, column
assignment and `drop`).  Machine-level details that the claims do not
touch (NFKC validation of non-ASCII authorities, numeric dtypes) are
noted where they are abstracted.  Cells of a table are `Option String`
(`none` is pandas `NaN`); Python exceptions are an explicit `Except`.
-/

/-! ### Python string primitives -/

/-- The apostrophe character (spelled via its code point). -/
def aposChar : Char := Char.ofNat 39

/-- The apostrophe as a one-character string. -/
def aposStr : String := String.mk [aposChar]

/-- Python `str.lower` (ASCII case mapping; the program only lowercases
column headers and keywords). -/
def pyLower (s : String) : String := String.mk (s.data.map Char.toLower)

/-- Does the pattern occur at the head of the haystack? -/
def leadsWith : List Char → List Char → Bool
  | [], _ => true
  | _ :: _, [] => false
  | p :: ps, h :: hs => p == h && leadsWith ps hs

/-- Substring occurrence on character lists (Python `p in s`). -/
def occursIn (p : List Char) : List Char → Bool
  | [] => leadsWith p []
  | h :: hs => leadsWith p (h :: hs) || occursIn p hs

/-- Python substring containment `p in s`. -/
def strIn (p s : String) : Bool := occursIn p.data s.data

/-- Python `s.endswith(suffix)`. -/
def strEndsWith (s suf : String) : Bool := leadsWith suf.data.reverse s.data.reverse

/-- Characters removed by Python `str.strip()` with no argument. -/
def isPySpace (c : Char) : Bool :=
  c == ' ' || c == '\t' || c == '\n' || c == '\r' || c == '\x0b' || c == '\x0c'

/-- Python `str.strip()`. -/
def pyStrip (s : String) : String :=
  String.mk (((s.data.dropWhile isPySpace).reverse.dropWhile isPySpace).reverse)

/-! ### Column Resolver (`find_tracker_column`, lines 65-79) -/

/-- The `match_count` loop body: how many of the keywords occur
(case-insensitively) in the already-lowercased column name. -/
def keywordCount (keywords : List String) (colLower : String) : Nat :=
  match keywords with
  | [] => 0
  | k :: ks => (if strIn (pyLower k) colLower then 1 else 0) + keywordCount ks colLower

/-- `find_tracker_column(df, keywords, required_for_match)`: first column
whose lowercased name contains at least `required` of the keywords;
`None` when no column qualifies.  (The DataFrame argument is represented
by its column list, the only part the function reads.) -/
def find_tracker_column (cols : List String) (keywords : List String) (required : Nat) :
    Option String :=
  match cols with
  | [] => none
  | col :: rest =>
    if required ≤ keywordCount keywords (pyLower col) then some col
    else find_tracker_column rest keywords required

/-! ### Impression Extractor (`extract_impression_url`, lines 53-63)

`re.search(r'["\x27](.*?)["\x27]', s)`: leftmost opening quote (single or
double, independently), then the lazy `(.*?)` runs to the nearest closing
quote (again either kind); `.` does not match a newline, so a match
attempt fails when a newline comes before the next quote, and the engine
retries from a later opening quote. -/

/-- Is the character one of the two quote characters of the regex class? -/
def isQuoteChar (c : Char) : Bool := c == '"' || c == aposChar

/-- Lazy completion of a match whose opening quote was just consumed:
content up to the nearest quote character, failing on newline or end. -/
def quotedFrom : List Char → Option (List Char)
  | [] => none
  | c :: rest =>
    if isQuoteChar c then some []
    else if c == '\n' then none
    else (quotedFrom rest).map (c :: ·)

/-- Leftmost successful match of the regex (its group 1). -/
def firstQuoted : List Char → Option (List Char)
  | [] => none
  | c :: rest =>
    if isQuoteChar c then
      match quotedFrom rest with
      | some content => some content
      | none => firstQuoted rest
    else firstQuoted rest

/-- `extract_impression_url(impression_tracker_string)`. -/
def extract_impression_url : Option String → Option String
  | none => none
  | some s => (firstQuoted s.data).map String.mk

/-! ### `urllib.parse` primitives -/

/-- ASCII letter. -/
def isAsciiAlphaCh (c : Char) : Bool :=
  (65 ≤ c.toNat && c.toNat ≤ 90) || (97 ≤ c.toNat && c.toNat ≤ 122)

/-- ASCII digit. -/
def isAsciiDigitCh (c : Char) : Bool := 48 ≤ c.toNat && c.toNat ≤ 57

/-- `urllib.parse.scheme_chars`. -/
def isSchemeChar (c : Char) : Bool :=
  isAsciiAlphaCh c || isAsciiDigitCh c || c == '+' || c == '-' || c == '.'

/-- The always-safe characters of `urllib.parse.quote` (letters, digits,
`_.-~`); `urlencode` passes `safe=''` so nothing else is safe. -/
def isSafeChar (c : Char) : Bool :=
  isAsciiAlphaCh c || isAsciiDigitCh c || c == '_' || c == '.' || c == '-' || c == '~'

/-- UTF-8 encoding of one character, as byte values. -/
def utf8Bytes (c : Char) : List Nat :=
  let n := c.toNat
  if n < 0x80 then [n]
  else if n < 0x800 then [0xC0 + n / 64, 0x80 + n % 64]
  else if n < 0x10000 then [0xE0 + n / 4096, 0x80 + n / 64 % 64, 0x80 + n % 64]
  else [0xF0 + n / 262144, 0x80 + n / 4096 % 64, 0x80 + n / 64 % 64, 0x80 + n % 64]

/-- Value of one hexadecimal digit (both cases accepted, as in
`urllib.parse._hextobyte`). -/
def hexDigitVal (c : Char) : Option Nat :=
  if 48 ≤ c.toNat ∧ c.toNat ≤ 57 then some (c.toNat - 48)
  else if 65 ≤ c.toNat ∧ c.toNat ≤ 70 then some (c.toNat - 55)
  else if 97 ≤ c.toNat ∧ c.toNat ≤ 102 then some (c.toNat - 87)
  else none

/-- Upper-case hexadecimal digit, as emitted by `quote`. -/
def hexDigitUpper (n : Nat) : Char :=
  if n < 10 then Char.ofNat (48 + n) else Char.ofNat (55 + n)

/-- `%XX` encoding of one byte. -/
def pctEncodeByte (b : Nat) : List Char :=
  ['%', hexDigitUpper (b / 16), hexDigitUpper (b % 16)]

/-- `quote_plus` on one character (with `safe=''`): space becomes `+`,
safe characters stay, anything else percent-encodes its UTF-8 bytes. -/
def quotePlusChar (c : Char) : List Char :=
  if c == ' ' then ['+']
  else if isSafeChar c then [c]
  else ((utf8Bytes c).map pctEncodeByte).flatten

/-- `urllib.parse.quote_plus(s, safe='')`. -/
def quote_plus (s : String) : String := String.mk ((s.data.map quotePlusChar).flatten)

/-- Token stream of `unquote`: literal characters interleaved with the
bytes recovered from valid `%XX` escapes. -/
inductive QTok where
  | ch (c : Char)
  | byte (b : Nat)
  deriving DecidableEq

/-- Percent-decoding pass of `unquote`: a `%` followed by two hex digits
yields a byte, any other `%` stays literal. -/
def pctTokens : List Char → List QTok
  | [] => []
  | '%' :: a :: b :: rest2 =>
    match hexDigitVal a, hexDigitVal b with
    | some ha, some hb => QTok.byte (16 * ha + hb) :: pctTokens rest2
    | _, _ => QTok.ch '%' :: pctTokens (a :: b :: rest2)
  | '%' :: rest => QTok.ch '%' :: pctTokens rest
  | c :: rest => QTok.ch c :: pctTokens rest

/-- One continuation byte. -/
def isCont (b : Nat) : Bool := 0x80 ≤ b && b ≤ 0xBF

/-- Accepted ranges of the first continuation byte of a three-byte
sequence (rejecting overlong forms and surrogates, as CPython does). -/
def cont3First (b b1 : Nat) : Bool :=
  if b == 0xE0 then 0xA0 ≤ b1 && b1 ≤ 0xBF
  else if b == 0xED then 0x80 ≤ b1 && b1 ≤ 0x9F
  else isCont b1

/-- Accepted ranges of the first continuation byte of a four-byte
sequence. -/
def cont4First (b b1 : Nat) : Bool :=
  if b == 0xF0 then 0x90 ≤ b1 && b1 ≤ 0xBF
  else if b == 0xF4 then 0x80 ≤ b1 && b1 ≤ 0x8F
  else isCont b1

/-- U+FFFD, the replacement character of `errors='replace'`. -/
def replChar : Char := Char.ofNat 0xFFFD

/-- Decode one UTF-8 sequence whose lead byte is `b`: the resulting
character (U+FFFD on error) and the tokens left after the sequence. -/
def decodeStep (b : Nat) (rest : List QTok) : Char × List QTok :=
  if b < 0x80 then (Char.ofNat b, rest)
  else if b < 0xC2 then (replChar, rest)
  else if b < 0xE0 then
    match rest with
    | QTok.byte b1 :: rest1 =>
      if isCont b1 then (Char.ofNat ((b - 0xC0) * 64 + (b1 - 0x80)), rest1)
      else (replChar, rest)
    | _ => (replChar, rest)
  else if b < 0xF0 then
    match rest with
    | QTok.byte b1 :: QTok.byte b2 :: rest2 =>
      if cont3First b b1 && isCont b2 then
        (Char.ofNat ((b - 0xE0) * 4096 + (b1 - 0x80) * 64 + (b2 - 0x80)), rest2)
      else (replChar, rest)
    | _ => (replChar, rest)
  else if b < 0xF5 then
    match rest with
    | QTok.byte b1 :: QTok.byte b2 :: QTok.byte b3 :: rest3 =>
      if cont4First b b1 && isCont b2 && isCont b3 then
        (Char.ofNat ((b - 0xF0) * 262144 + (b1 - 0x80) * 4096 + (b2 - 0x80) * 64 + (b3 - 0x80)),
          rest3)
      else (replChar, rest)
    | _ => (replChar, rest)
  else (replChar, rest)

/-- Decode the token stream with explicit fuel (structural recursion, so
that the kernel can evaluate it; the fuel never runs out because every
step consumes at least one token). -/
def decodeQTokensF : Nat → List QTok → List Char
  | 0, _ => []
  | _ + 1, [] => []
  | fuel + 1, QTok.ch c :: rest => c :: decodeQTokensF fuel rest
  | fuel + 1, QTok.byte b :: rest =>
    (decodeStep b rest).1 :: decodeQTokensF fuel (decodeStep b rest).2

/-- Decode the token stream: literal characters pass through, byte runs
are decoded as UTF-8 with replacement on error. -/
def decodeQTokens (l : List QTok) : List Char := decodeQTokensF l.length l

/-- The `+` → space step of `unquote_plus` / `parse_qsl`. -/
def plusToSpace (l : List Char) : List Char :=
  l.map (fun c => if c == '+' then ' ' else c)

/-- `unquote_plus(s)` (equivalently the `replace('+', ' ')` followed by
`unquote` that `parse_qsl` performs on names and values). -/
def unquote_plus (s : String) : String :=
  String.mk (decodeQTokens (pctTokens (plusToSpace s.data)))

/-- Split a character list at every occurrence of `sep`
(Python `str.split(sep)` for a one-character separator). -/
def splitListOn (sep : Char) : List Char → List (List Char)
  | [] => [[]]
  | c :: rest =>
    if c == sep then [] :: splitListOn sep rest
    else
      match splitListOn sep rest with
      | [] => [[c]]
      | g :: gs => (c :: g) :: gs

/-- Split at the first occurrence of `sep`, if any. -/
def splitAtFirst (sep : Char) : List Char → Option (List Char × List Char)
  | [] => none
  | c :: rest =>
    if c == sep then some ([], rest)
    else
      match splitAtFirst sep rest with
      | none => none
      | some (a, b) => some (c :: a, b)

/-- Split at the last occurrence of `sep`, if any. -/
def splitAtLast (sep : Char) (l : List Char) : Option (List Char × List Char) :=
  match splitAtFirst sep l.reverse with
  | none => none
  | some (a, b) => some (b.reverse, a.reverse)

/-- One `name=value` piece of `parse_qsl` (with the default
`keep_blank_values=False`): pieces without `=`, with an empty value, or
empty pieces are skipped; names and values are plus/percent decoded. -/
def parsePiece (piece : List Char) : Option (String × String) :=
  if piece = [] then none
  else
    match splitAtFirst '=' piece with
    | none => none
    | some (n, v) =>
      if v = [] then none
      else some (unquote_plus (String.mk n), unquote_plus (String.mk v))

/-- `urllib.parse.parse_qsl(qs)` with default arguments. -/
def parse_qsl (qs : String) : List (String × String) :=
  if qs = "" then [] else (splitListOn '&' qs.data).filterMap parsePiece

/-- Add one pair to the insertion-ordered multi-dict that `parse_qs`
builds: an existing key gets the value appended, a new key is appended
at the end. -/
def qsAdd (d : List (String × List String)) (k v : String) : List (String × List String) :=
  match d with
  | [] => [(k, [v])]
  | (k0, vs) :: rest => if k0 = k then (k0, vs ++ [v]) :: rest else (k0, vs) :: qsAdd rest k v

/-- `urllib.parse.parse_qs(qs)` with default arguments, as an ordered
association list (Python dicts preserve insertion order). -/
def parse_qs (qs : String) : List (String × List String) :=
  (parse_qsl qs).foldl (fun d kv => qsAdd d kv.1 kv.2) []

/-- Join pieces with a separator. -/
def joinWith (sep : List Char) : List (List Char) → List Char
  | [] => []
  | [x] => x
  | x :: xs => x ++ sep ++ joinWith sep xs

/-- `urllib.parse.urlencode(query, doseq=True)`: one `key=value` pair per
list element, keys in dict order, `quote_plus` on both sides. -/
def urlencode (d : List (String × List String)) : String :=
  String.mk (joinWith ['&']
    ((d.map (fun kv => kv.2.map
      (fun v => (quote_plus kv.1).data ++ '=' :: (quote_plus v).data))).flatten))

/-! ### `urlparse` / `urlunparse` -/

/-- The six components of `ParseResult` (path and params separated, as
`urlparse` does). -/
structure UrlParts where
  scheme : String
  netloc : String
  path : String
  params : String
  query : String
  fragment : String
  deriving DecidableEq

/-- `_WHATWG_C0_CONTROL_OR_SPACE`, left-stripped by `urlsplit`. -/
def isC0OrSpace (c : Char) : Bool := c.toNat ≤ 0x20

/-- `_UNSAFE_URL_BYTES_TO_REMOVE`, removed everywhere by `urlsplit`. -/
def removeTabCrLf (l : List Char) : List Char :=
  l.filter (fun c => !(c == '\t' || c == '\r' || c == '\n'))

/-- Scheme recognition of `urlsplit`: the text before the first `:`
qualifies when it is nonempty, starts with an ASCII letter and consists
of scheme characters; it is lowercased.  Otherwise no scheme. -/
def splitScheme (l : List Char) : String × List Char :=
  match splitAtFirst ':' l with
  | none => ("", l)
  | some (pre, post) =>
    match pre with
    | [] => ("", l)
    | c0 :: _ =>
      if isAsciiAlphaCh c0 && pre.all isSchemeChar then (pyLower (String.mk pre), post)
      else ("", l)

/-- Netloc delimiters (`_splitnetloc` stops at the first of them). -/
def isNetlocEnd (c : Char) : Bool := c == '/' || c == '?' || c == '#'

/-- Netloc extraction: only when the remainder starts with `//`. -/
def netlocSplit (l : List Char) : String × List Char :=
  match l with
  | '/' :: '/' :: rest =>
    (String.mk (rest.takeWhile (fun c => !isNetlocEnd c)),
      rest.dropWhile (fun c => !isNetlocEnd c))
  | _ => ("", l)

/-- `_splitparams`: split at the first `;` that occurs after the last
`/` (or anywhere when there is no `/`); no such `;` means no params. -/
def splitParams (l : List Char) : List Char × List Char :=
  match splitAtLast '/' l with
  | some (bef, aft) =>
    match splitAtFirst ';' aft with
    | some (a1, a2) => (bef ++ '/' :: a1, a2)
    | none => (l, [])
  | none =>
    match splitAtFirst ';' l with
    | some (a, b) => (a, b)
    | none => (l, [])

/-- `urllib.parse.urlparse(url)`.  The boolean is true when `urlsplit`
would raise `ValueError("Invalid IPv6 URL")` (a `[` or `]` bracket in
the netloc without its partner).  Two further `ValueError` sites of
`urlsplit` can only fire on netlocs outside that boolean and are not
modelled: `_check_bracketed_host` rejects a balanced-bracket host that
is not an IPv6/IPvFuture address (it needs a full IP-address parser),
and `_checknetloc` rejects a non-ASCII netloc that NFKC normalization
changes (it needs Unicode normalization).  Both require a bracket or a
non-ASCII character in the netloc, so theorems that assert the absence
of exceptions restrict to bracket-free all-ASCII netlocs, where CPython
raises none of the three. -/
def urlparsePy (s : String) : UrlParts × Bool :=
  let l := removeTabCrLf (s.data.dropWhile isC0OrSpace)
  let sr := splitScheme l
  let nr := netlocSplit sr.2
  let netloc := nr.1
  let bad := (netloc.data.contains '[') != (netloc.data.contains ']')
  let fr := match splitAtFirst '#' nr.2 with | some ab => ab | none => (nr.2, [])
  let qr := match splitAtFirst '?' fr.1 with | some ab => ab | none => (fr.1, [])
  let pp := splitParams qr.1
  (⟨sr.1, netloc, String.mk pp.1, String.mk pp.2, String.mk qr.2, String.mk fr.2⟩, bad)

/-- `urllib.parse.urlunparse` (via `urlunsplit`), applied to a
`ParseResult` whose query was replaced.  This is the `urlunsplit` of
CPython up to 3.11.3, which prepends `//` when the netloc is nonempty
or the path starts with `//`; later versions instead consult
`uses_netloc`, which can differ only on empty-netloc corner inputs
(a `//`-leading path without an authority). -/
def assembleUrl (u : UrlParts) : String :=
  let pp := if u.params.data = [] then u.path.data else u.path.data ++ ';' :: u.params.data
  let withNl :=
    if u.netloc.data ≠ [] ∨ pp.take 2 = ['/', '/'] then
      '/' :: '/' :: u.netloc.data ++ (if pp ≠ [] ∧ pp.head? ≠ some '/' then '/' :: pp else pp)
    else pp
  let withScheme := if u.scheme.data ≠ [] then u.scheme.data ++ ':' :: withNl else withNl
  let withQuery := if u.query.data ≠ [] then withScheme ++ '?' :: u.query.data else withScheme
  String.mk (if u.fragment.data ≠ [] then withQuery ++ '#' :: u.fragment.data else withQuery)

/-! ### URL Rewriter (`update_click_url`, lines 7-51) -/

/-- Python exceptions that the program can raise. -/
inductive PyErr where
  | keyError (k : String)
  | valueError (msg : String)
  | indexError (msg : String)
  deriving DecidableEq

/-- `params_to_add` (lines 25-32), in dict insertion order. -/
def params_to_add (campaign_name : String) : List (String × String) :=
  [("utm_source", "tiktok"), ("utm_medium", "paid"), ("utm_campaign", campaign_name),
   ("tf_source", "tiktok"), ("tf_medium", "paid_social"), ("tf_campaign", campaign_name)]

/-- Dict lookup on the ordered association list. -/
def qpLookup (d : List (String × List String)) (k : String) : Option (List String) :=
  match d with
  | [] => none
  | (k0, vs) :: rest => if k0 = k then some vs else qpLookup rest k

/-- Dict assignment: an existing key keeps its position, a new key is
appended at the end. -/
def qpSet (d : List (String × List String)) (k : String) (vs : List String) :
    List (String × List String) :=
  match d with
  | [] => [(k, vs)]
  | (k0, vs0) :: rest => if k0 = k then (k0, vs) :: rest else (k0, vs0) :: qpSet rest k vs

/-- The four keys of the second branch of the update loop (line 39). -/
def fixedKeys : List String := ["utm_source", "utm_medium", "tf_source", "tf_medium"]

/-- One iteration of the loop of lines 35-43.  `query_params[key][0]` on
parser output is always defined (`parse_qs` never produces an empty
value list); `headD` stands for that subscript here, and the `Except`
variant below raises where Python would. -/
def updateParamStep (qp : List (String × List String)) (kv : String × String) :
    List (String × List String) :=
  match qpLookup qp kv.1 with
  | none => qpSet qp kv.1 [kv.2]
  | some vs =>
    if vs.headD "" ≠ kv.2 ∧ kv.1 ∈ fixedKeys then qpSet qp kv.1 [kv.2]
    else if (kv.1 = "utm_campaign" ∨ kv.1 = "tf_campaign") ∧ vs.headD "" ≠ kv.2 then
      qpSet qp kv.1 [kv.2]
    else qp

/-- The whole update loop. -/
def updateParams (qp : List (String × List String)) (campaign_name : String) :
    List (String × List String) :=
  (params_to_add campaign_name).foldl updateParamStep qp

/-- The update loop with Python's `IndexError` on an empty value list
made explicit. -/
def updateParamStepE (qp : List (String × List String)) (kv : String × String) :
    Except PyErr (List (String × List String)) :=
  match qpLookup qp kv.1 with
  | none => .ok (qpSet qp kv.1 [kv.2])
  | some [] => .error (.indexError "list index out of range")
  | some (v0 :: _) =>
    if v0 ≠ kv.2 ∧ kv.1 ∈ fixedKeys then .ok (qpSet qp kv.1 [kv.2])
    else if (kv.1 = "utm_campaign" ∨ kv.1 = "tf_campaign") ∧ v0 ≠ kv.2 then
      .ok (qpSet qp kv.1 [kv.2])
    else .ok qp

/-- `update_click_url(original_url, click_tracker, campaign_name)` as a
total function (the value Python computes whenever it does not raise).
`None`/`NaN` arguments are `none`. -/
def update_click_url (original_url click_tracker : Option String)
    (campaign_name : String) : String :=
  let original := match original_url with | none => "" | some s => s
  let updated := match click_tracker with | none => original | some t => t ++ original
  let parts := (urlparsePy updated).1
  let qp := parse_qs parts.query
  assembleUrl { parts with query := urlencode (updateParams qp campaign_name) }

/-- `update_click_url` with Python's exception behaviour: `urlparse`
raises on an unbalanced bracket in the netloc, and the subscript
`query_params[key][0]` raises on an empty value list.  The two
`urlsplit` raise sites that `urlparsePy` leaves outside its boolean
(balanced-bracket non-IP hosts, NFKC-changing non-ASCII netlocs) are
outside this embedding too: its `.ok` cases are asserted only on
bracket-free all-ASCII netlocs, where they coincide with the program. -/
def update_click_urlE (original_url click_tracker : Option String)
    (campaign_name : String) : Except PyErr String :=
  let original := match original_url with | none => "" | some s => s
  let updated := match click_tracker with | none => original | some t => t ++ original
  let pb := urlparsePy updated
  if pb.2 then .error (.valueError "Invalid IPv6 URL")
  else do
    let qp := parse_qs pb.1.query
    let qp2 ← (params_to_add campaign_name).foldlM updateParamStepE qp
    pure (assembleUrl { pb.1 with query := urlencode qp2 })

/-! ### The pandas fragment and the pipeline (`process_files`, lines 81-180)

A DataFrame is a column-name list plus rows of cells; a cell is
`Option String` (`none` is `NaN`).  Reading of the uploaded file is
abstracted: `process_files` receives the file name (which selects the
parse path, lines 89-106) and the table that reading would produce.
`pd.merge(..., how='left', left_on=..., right_on=..., suffixes=...)`
is modelled as pandas implements it: a right-hand key column whose name
equals its left-hand partner is dropped from the result, the remaining
column names present on both sides get the suffixes, every left row is
kept (one output row per matching right row, or one null-extended row),
and `NaN` keys match nothing. -/

instance {ε α : Type} [DecidableEq ε] [DecidableEq α] : DecidableEq (Except ε α) := fun x y =>
  match x, y with
  | .ok a, .ok b =>
    if h : a = b then isTrue (by rw [h]) else isFalse (by intro hc; cases hc; exact h rfl)
  | .error a, .error b =>
    if h : a = b then isTrue (by rw [h]) else isFalse (by intro hc; cases hc; exact h rfl)
  | .ok _, .error _ => isFalse (by intro hc; cases hc)
  | .error _, .ok _ => isFalse (by intro hc; cases hc)

/-- A pandas DataFrame. -/
structure DF where
  cols : List String
  rows : List (List (Option String))
  deriving DecidableEq

/-- First position of a column label. -/
def colIdx (cols : List String) (name : String) : Option Nat :=
  cols.findIdx? (· = name)

/-- Cell of a row under a column label (first occurrence), `none` when
the label is missing or the row is short. -/
def cellAt (cols : List String) (row : List (Option String)) (name : String) :
    Option String :=
  match colIdx cols name with
  | none => none
  | some i => row.getD i none

/-- `str(cell)` as pandas `astype(str)` renders it: `NaN` becomes the
string `"nan"`.  (The subsequent `fillna('')` of lines 116-123 is a
no-op, since no `NaN` survives `astype(str)`.) -/
def cellToStr : Option String → String
  | none => "nan"
  | some s => s

/-- `df.columns.str.strip()` (lines 111-112). -/
def stripCols (df : DF) : DF := { df with cols := df.cols.map pyStrip }

/-- `df[col] = df[col].astype(str).fillna('')` (lines 116-123): raises
`KeyError` when the column is absent, otherwise stringifies it. -/
def normalizeKeyCol (df : DF) (name : String) : Except PyErr DF :=
  match colIdx df.cols name with
  | none => .error (.keyError name)
  | some i =>
    .ok { df with rows := df.rows.map (fun r => r.set i (some (cellToStr (r.getD i none)))) }

/-- `df[[n1, ..., nk]]` column selection. -/
def selectCols (df : DF) (names : List String) : DF :=
  { cols := names, rows := df.rows.map (fun r => names.map (fun n => cellAt df.cols r n)) }

/-- Key comparison of the merge: `NaN` matches nothing. -/
def cellEq : Option String → Option String → Bool
  | some a, some b => a == b
  | _, _ => false

/-- `pd.merge(l, r, left_on=lOn, right_on=rOn, how='left',
suffixes=('_tiktok', '_tag'))`.  A right key column whose name equals
its left partner is coalesced; pandas drops the right copy when the
left frame has rows and the left copy when it is empty
(`if len(left) > 0: right_drop.append(rk) else: left_drop.append(lk)`
in `_get_merge_keys`), and the suffixes then apply to the names the two
frames still share after those drops. -/
def mergeLeftTT (l r : DF) (lOn rOn : List String) : DF :=
  let shared := (lOn.zip rOn).filterMap (fun ab => if ab.1 = ab.2 then some ab.2 else none)
  let lKeep := if l.rows = [] then l.cols.filter (fun c => ¬ c ∈ shared) else l.cols
  let rKeep := if l.rows = [] then r.cols else r.cols.filter (fun c => ¬ c ∈ shared)
  let lOut := lKeep.map (fun c => if c ∈ rKeep then c ++ "_tiktok" else c)
  let rOut := rKeep.map (fun c => if c ∈ lKeep then c ++ "_tag" else c)
  let rows := (l.rows.map (fun lrow =>
    let ms := r.rows.filter
      (fun rrow => (lOn.zip rOn).all (fun ab => cellEq (cellAt l.cols lrow ab.1) (cellAt r.cols rrow ab.2)))
    match ms with
    | [] => [lrow ++ rKeep.map (fun _ => (none : Option String))]
    | _ :: _ => ms.map (fun rrow => lrow ++ rKeep.map (fun n => cellAt r.cols rrow n)))).flatten
  ⟨lOut ++ rOut, rows⟩

/-- `row[name]` inside `DataFrame.apply(..., axis=1)`: `KeyError` when
the merged frame has no such column. -/
def rowGet (cols : List String) (row : List (Option String)) (name : String) :
    Except PyErr (Option String) :=
  match colIdx cols name with
  | none => .error (.keyError name)
  | some i => .ok (row.getD i none)

/-- `df[name] = values` column assignment: an existing column is
replaced in place, a new one is appended on the right. -/
def setCol (df : DF) (name : String) (vals : List (Option String)) : DF :=
  match colIdx df.cols name with
  | some i => { df with rows := (df.rows.zip vals).map (fun rv => rv.1.set i rv.2) }
  | none => { cols := df.cols ++ [name], rows := (df.rows.zip vals).map (fun rv => rv.1 ++ [rv.2]) }

/-- `df.drop(columns=names, errors='ignore')` (all occurrences of each
listed label are removed). -/
def dropColsDF (df : DF) (names : List String) : DF :=
  { cols := df.cols.filter (fun c => ¬ c ∈ names),
    rows := df.rows.map (fun r =>
      ((df.cols.zip r).filter (fun p => ¬ p.1 ∈ names)).map Prod.snd) }

/-- Python `repr` of a list of strings, as an f-string renders
`df_tags.columns.tolist()` (names quoted with apostrophes). -/
def pyListRepr (names : List String) : String :=
  "[" ++ String.mk (joinWith [',', ' '] (names.map (fun c => (aposStr ++ c ++ aposStr).data))) ++ "]"

/-- Message of line 95. -/
def unsupportedTikTokMsg : String :=
  "Unsupported TikTok file format. Please upload a .csv or .xlsx file."

/-- Message of line 106. -/
def unsupportedTagMsg : String :=
  "Unsupported Tag file format. Please upload a .csv or .xlsx file."

/-- Message of lines 131-135. -/
def clickTagErrMsg (cols : List String) : String :=
  "Could not find a " ++ aposStr ++ "Click Tag" ++ aposStr ++ " column in the Tag file. " ++
  "Available columns are: " ++ pyListRepr cols ++ ". " ++
  "Expected a column containing " ++ aposStr ++ "click" ++ aposStr ++ " and " ++ aposStr ++
  "tag" ++ aposStr ++ " (case-insensitive)."

/-- Message of lines 137-141. -/
def impressionTagErrMsg (cols : List String) : String :=
  "Could not find an " ++ aposStr ++ "Impression Tag" ++ aposStr ++ " column in the Tag file. " ++
  "Available columns are: " ++ pyListRepr cols ++ ". " ++
  "Expected a column containing " ++ aposStr ++ "impression" ++ aposStr ++ " and " ++ aposStr ++
  "tag" ++ aposStr ++ " (case-insensitive)."

/-- `str(e)` of an embedded exception: `str` of a `KeyError` renders
just the missing key in quotes, a `ValueError` renders its message. -/
def pyErrMsg : PyErr → String
  | .keyError k => aposStr ++ k ++ aposStr
  | .valueError m => m
  | .indexError m => m

/-- Message of pandas `_set_item_frame_value` when a whole DataFrame is
assigned to one column, raised by lines 156/172 when the row-wise
`apply` on a frame with no rows falls back to returning a copy of that
frame. -/
def dfSetMsg (key : String) : String :=
  "Cannot set a DataFrame with multiple columns to the single column " ++ key

/-- Line 156: `merged_df.apply(lambda row: update_click_url(...), axis=1)`
combined with the `merged_df['Click URL'] = ...` assignment.  On a frame
with rows, the lambda runs on each row left to right.  On a frame with
no rows, pandas first calls the lambda once on a dummy all-`NaN` row
indexed by the columns (`apply_empty_result`): when one of the three
looked-up columns is missing that call raises, the exception is
swallowed, `apply` returns a copy of the whole frame, and the
single-column assignment rejects it with the `dfSetMsg` `ValueError`
(the frame here always has more than one column — the key columns are
validated earlier); when all three columns are present the dummy call
returns a string (`update_click_url` cannot raise there: the dummy
working URL is empty), so `apply` reduces to an empty column and the
assignment succeeds. -/
def applyClick (merged : DF) (click_tracker_col : String) :
    Except PyErr (List (Option String)) :=
  if merged.rows = [] then
    if (colIdx merged.cols "Click URL").isSome &&
        (colIdx merged.cols click_tracker_col).isSome &&
        (colIdx merged.cols "Campaign Name_tiktok").isSome then
      Except.ok []
    else Except.error (.valueError (dfSetMsg "Click URL"))
  else
    merged.rows.mapM (fun row => do
      let u ← rowGet merged.cols row "Click URL"
      let t ← rowGet merged.cols row click_tracker_col
      let cn ← rowGet merged.cols row "Campaign Name_tiktok"
      let s ← update_click_urlE u t (cellToStr cn)
      pure (some s))

/-- Line 172: the `Impression tracking URL` `apply` and assignment, with
the same empty-frame fallback as `applyClick` (here the dummy call can
only raise when the impression-tracker column is missing;
`extract_impression_url` returns `None` on the dummy `NaN` cell). -/
def applyImp (merged : DF) (impression_tracker_col : String) :
    Except PyErr (List (Option String)) :=
  if merged.rows = [] then
    if (colIdx merged.cols impression_tracker_col).isSome then
      Except.ok []
    else Except.error (.valueError (dfSetMsg "Impression tracking URL"))
  else
    merged.rows.mapM (fun row => do
      let t ← rowGet merged.cols row impression_tracker_col
      pure (extract_impression_url t))

/-- `process_files(tiktok_file_buffer, tag_file_buffer)`.  Each uploaded
file is its name plus the table its reading would yield (CSV/Excel
parsing itself, sheet selection and the header-row offset are outside
the embedded logic).  The two `apply`-plus-assignment steps, including
pandas' empty-frame fallback, are `applyClick` and `applyImp`. -/
def process_files (tiktok_name : String) (tiktok_table : DF)
    (tag_name : String) (tag_table : DF) : Except PyErr DF := do
  let df_tiktok ←
    if strEndsWith tiktok_name ".csv" then Except.ok tiktok_table
    else if strEndsWith tiktok_name ".xlsx" then Except.ok tiktok_table
    else Except.error (.valueError unsupportedTikTokMsg)
  let df_tags ←
    if strEndsWith tag_name ".csv" then Except.ok tag_table
    else if strEndsWith tag_name ".xlsx" then Except.ok tag_table
    else Except.error (.valueError unsupportedTagMsg)
  let df_tiktok := stripCols df_tiktok
  let df_tags := stripCols df_tags
  let df_tiktok ← normalizeKeyCol df_tiktok "Campaign Name"
  let df_tiktok ← normalizeKeyCol df_tiktok "Ad Group Name"
  let df_tiktok ← normalizeKeyCol df_tiktok "Ad Name"
  let df_tags ← normalizeKeyCol df_tags "Campaign Name"
  let df_tags ← normalizeKeyCol df_tags "Placement Name"
  let df_tags ← normalizeKeyCol df_tags "Ad Name"
  let click_tracker_col ←
    match find_tracker_column df_tags.cols ["click", "tag"] 2 with
    | some c => Except.ok c
    | none => Except.error (.valueError (clickTagErrMsg df_tags.cols))
  let impression_tracker_col ←
    match find_tracker_column df_tags.cols ["impression", "tag"] 2 with
    | some c => Except.ok c
    | none => Except.error (.valueError (impressionTagErrMsg df_tags.cols))
  let merged := mergeLeftTT df_tiktok
    (selectCols df_tags
      ["Campaign Name", "Placement Name", "Ad Name", click_tracker_col, impression_tracker_col])
    ["Campaign Name", "Ad Group Name", "Ad Name"]
    ["Campaign Name", "Placement Name", "Ad Name"]
  let clickVals ← applyClick merged click_tracker_col
  let merged := setCol merged "Click URL" clickVals
  let impVals ← applyImp merged impression_tracker_col
  let merged := setCol merged "Impression tracking URL" impVals
  let columns_to_drop := merged.cols.filter
    (fun c => strEndsWith c "_tag" ∨ c = click_tracker_col ∨ c = impression_tracker_col ∨
      c = "Placement Name")
  pure (dropColsDF merged columns_to_drop)

/-- The characters that `quote_plus` can emit: safe characters, `+`,
`%`, and the decimal / upper-hex digits of percent escapes. -/
def qencOK (x : Char) : Prop :=
  isSafeChar x = true ∨ x = '+' ∨ x = '%' ∨
    (48 ≤ x.toNat ∧ x.toNat ≤ 57) ∨ (65 ≤ x.toNat ∧ x.toNat ≤ 70)

/-- `urlparsePy` after its initial character cleanup, as a function of
the cleaned character list (definitionally the tail of `urlparsePy`). -/
def urlparseList (l : List Char) : UrlParts × Bool :=
  let sr := splitScheme l
  let nr := netlocSplit sr.2
  let netloc := nr.1
  let bad := (netloc.data.contains '[') != (netloc.data.contains ']')
  let fr := match splitAtFirst '#' nr.2 with | some ab => ab | none => (nr.2, [])
  let qr := match splitAtFirst '?' fr.1 with | some ab => ab | none => (fr.1, [])
  let pp := splitParams qr.1
  (⟨sr.1, netloc, String.mk pp.1, String.mk pp.2, String.mk qr.2, String.mk fr.2⟩, bad)

/-! ### Kernel-evaluation lemmas for the fuelled decoder -/

theorem decodeStep_len (b : Nat) (rest : List QTok) :
    (decodeStep b rest).2.length ≤ rest.length := by
  unfold decodeStep
  rcases rest with _ | ⟨c1 | b1, rest1⟩ <;>
    [skip; skip; rcases rest1 with _ | ⟨c2 | b2, rest2⟩] <;>
    [skip; skip; skip; skip; rcases rest2 with _ | ⟨c3 | b3, rest3⟩] <;>
    (repeat' split) <;> (try simp_all) <;> omega

theorem decodeQTokensF_fuel (fuel1 fuel2 : Nat) (l : List QTok)
    (h1 : l.length ≤ fuel1) (h2 : l.length ≤ fuel2) :
    decodeQTokensF fuel1 l = decodeQTokensF fuel2 l := by
  induction fuel1 generalizing fuel2 l with
  | zero =>
    have : l = [] := List.length_eq_zero.mp (by omega)
    subst this
    cases fuel2 <;> rfl
  | succ f1 ih =>
    cases l with
    | nil => cases fuel2 <;> rfl
    | cons t rest =>
      cases fuel2 with
      | zero => simp at h2
      | succ f2 =>
        cases t with
        | ch c =>
          simp only [decodeQTokensF]
          rw [ih f2 rest (by simp at h1; omega) (by simp at h2; omega)]
        | byte b =>
          simp only [decodeQTokensF]
          have hlen := decodeStep_len b rest
          rw [ih f2 (decodeStep b rest).2 (by simp at h1; omega) (by simp at h2; omega)]

theorem decodeQTokens_nil : decodeQTokens [] = [] := rfl

theorem decodeQTokens_ch (c : Char) (rest : List QTok) :
    decodeQTokens (QTok.ch c :: rest) = c :: decodeQTokens rest := by
  unfold decodeQTokens
  simp only [List.length_cons, decodeQTokensF]

theorem decodeQTokens_byte (b : Nat) (rest : List QTok) :
    decodeQTokens (QTok.byte b :: rest) =
      (decodeStep b rest).1 :: decodeQTokensF (decodeStep b rest).2.length
        (decodeStep b rest).2 := by
  unfold decodeQTokens
  simp only [List.length_cons, decodeQTokensF]
  rw [decodeQTokensF_fuel rest.length (decodeStep b rest).2.length (decodeStep b rest).2
    (decodeStep_len b rest) (le_refl _)]


/-! ### Lemmas about the Column Resolver -/

theorem find_tracker_column_eq_none (cols keywords : List String) (t : Nat) :
    find_tracker_column cols keywords t = none ↔
      ∀ c ∈ cols, keywordCount keywords (pyLower c) < t := by
  induction cols with
  | nil => simp [find_tracker_column]
  | cons col rest ih =>
    by_cases h : t ≤ keywordCount keywords (pyLower col)
    · simp only [find_tracker_column, if_pos h]
      constructor
      · intro hc; exact absurd hc (by simp)
      · intro hall
        exact absurd (hall col (by simp)) (by omega)
    · simp only [find_tracker_column, if_neg h, ih]
      constructor
      · intro hall c hc
        rcases List.mem_cons.mp hc with rfl | hc
        · omega
        · exact hall c hc
      · intro hall c hc
        exact hall c (List.mem_cons_of_mem _ hc)

theorem find_tracker_column_eq_some (cols keywords : List String) (t : Nat) (c : String) :
    find_tracker_column cols keywords t = some c ↔
      ∃ pre post, cols = pre ++ c :: post ∧ t ≤ keywordCount keywords (pyLower c) ∧
        ∀ c' ∈ pre, keywordCount keywords (pyLower c') < t := by
  induction cols with
  | nil =>
    simp only [find_tracker_column]
    constructor
    · intro hc; exact absurd hc (by simp)
    · rintro ⟨pre, post, habs, -⟩
      exact absurd habs (by simp)
  | cons col rest ih =>
    by_cases h : t ≤ keywordCount keywords (pyLower col)
    · simp only [find_tracker_column, if_pos h]
      constructor
      · intro hc
        have hceq : col = c := by simpa using hc
        refine ⟨[], rest, by simp [hceq], by rw [← hceq]; exact h, by simp⟩
      · rintro ⟨pre, post, hdec, hqual, hpre⟩
        cases pre with
        | nil => simp only [List.nil_append, List.cons.injEq] at hdec; simp [hdec.1]
        | cons p ps =>
          exfalso
          have hc : col = p := by simpa using congrArg (·.head?) hdec
          have hlt := hpre p (by simp)
          rw [hc] at h
          omega
    · simp only [find_tracker_column, if_neg h, ih]
      constructor
      · rintro ⟨pre, post, hdec, hqual, hpre⟩
        refine ⟨col :: pre, post, by simp [hdec], hqual, ?_⟩
        intro c' hc'
        rcases List.mem_cons.mp hc' with rfl | hc'
        · omega
        · exact hpre c' hc'
      · rintro ⟨pre, post, hdec, hqual, hpre⟩
        cases pre with
        | nil =>
          exfalso
          have : col = c := by simpa using congrArg (·.head?) hdec
          rw [this] at h; omega
        | cons p ps =>
          have hcol : col = p := by simpa using congrArg (·.head?) hdec
          have htail : rest = ps ++ c :: post := by simpa using congrArg (·.tail) hdec
          exact ⟨ps, post, htail, hqual, fun c' hc' => hpre c' (by simp [hc'])⟩

/-- C7 — the Column Resolver returns the first column (in declared
order) whose lowercased name contains at least `required` of the
keywords as substrings, and `None` when no column qualifies; over
`["Click Tag", "Other"]` with keywords `{"click", "tag"}` and threshold
2 it returns `"Click Tag"`, and with `{"impression", "tag"}` it returns
`None`. -/
theorem C7_column_resolver :
    (∀ (cols keywords : List String) (t : Nat),
      find_tracker_column cols keywords t = none ↔
        ∀ c ∈ cols, keywordCount keywords (pyLower c) < t) ∧
    (∀ (cols keywords : List String) (t : Nat) (c : String),
      find_tracker_column cols keywords t = some c ↔
        ∃ pre post, cols = pre ++ c :: post ∧ t ≤ keywordCount keywords (pyLower c) ∧
          ∀ c' ∈ pre, keywordCount keywords (pyLower c') < t) ∧
    find_tracker_column ["Click Tag", "Other"] ["click", "tag"] 2 = some "Click Tag" ∧
    find_tracker_column ["Click Tag", "Other"] ["impression", "tag"] 2 = none := by
  refine ⟨find_tracker_column_eq_none, find_tracker_column_eq_some, by decide, by decide⟩

/-- Witness for C7: the characterizations applied at a concrete input. -/
theorem C7_column_resolver_witness :
    find_tracker_column ["Other", "Click Tag"] ["click", "tag"] 2 = some "Click Tag" := by
  exact (C7_column_resolver.2.1 ["Other", "Click Tag"] ["click", "tag"] 2 "Click Tag").mpr
    ⟨["Other"], [], by decide, by decide, by decide⟩

/-! ### Lemmas about the Impression Extractor -/

theorem firstQuoted_append_of_no_quote (a l : List Char)
    (ha : ∀ x ∈ a, isQuoteChar x = false) :
    firstQuoted (a ++ l) = firstQuoted l := by
  induction a with
  | nil => rfl
  | cons x rest ih =>
    have hx : isQuoteChar x = false := ha x (by simp)
    simp only [List.cons_append, firstQuoted, hx, Bool.false_eq_true, if_false]
    exact ih (fun y hy => ha y (by simp [hy]))

theorem quotedFrom_closes (b c : List Char) (q2 : Char) (hq2 : isQuoteChar q2 = true)
    (hb : ∀ x ∈ b, isQuoteChar x = false ∧ x ≠ '\n') :
    quotedFrom (b ++ q2 :: c) = some b := by
  induction b with
  | nil => simp [quotedFrom, hq2]
  | cons x rest ih =>
    have hx := hb x (by simp)
    have hxq : isQuoteChar x = false := hx.1
    have hxn : (x == '\n') = false := by simpa using hx.2
    simp only [List.cons_append, quotedFrom, hxq, Bool.false_eq_true, if_false, hxn,
      List.append_eq]
    rw [ih (fun y hy => hb y (by simp [hy]))]
    rfl

theorem firstQuoted_none_of_no_quote (l : List Char)
    (hl : ∀ x ∈ l, isQuoteChar x = false) : firstQuoted l = none := by
  induction l with
  | nil => rfl
  | cons x rest ih =>
    have hx : isQuoteChar x = false := hl x (by simp)
    simp only [firstQuoted, hx, Bool.false_eq_true, if_false]
    exact ih (fun y hy => hl y (by simp [hy]))

/-- Counterexample to C6 — on `"a'b"` (double quote, `a`, single quote,
`b`, double quote) the claim predicts the contents of the first substring
enclosed in *matching* quotes, `a'b`; the code's regex accepts a closing
quote of either kind and returns `a`. -/
theorem C6_impression_extractor_counterexample :
    extract_impression_url (some (String.mk ['"', 'a', aposChar, 'b', '"'])) = some "a" ∧
      ("a" : String) ≠ String.mk ['a', aposChar, 'b'] := by
  constructor
  · decide
  · decide

/-- C6 (amended) — a null input maps to null; the extractor returns the
contents between the first quote character (single or double) and the
next quote character after it (the two need not match), provided no
newline intervenes; when the input contains no quote character at all
the result is null. -/
theorem C6_impression_extractor :
    extract_impression_url none = none ∧
    (∀ (a b c : List Char) (q1 q2 : Char), isQuoteChar q1 = true → isQuoteChar q2 = true →
      (∀ x ∈ a, isQuoteChar x = false) → (∀ x ∈ b, isQuoteChar x = false ∧ x ≠ '\n') →
      extract_impression_url (some (String.mk (a ++ q1 :: (b ++ q2 :: c)))) =
        some (String.mk b)) ∧
    (∀ s : String, (∀ x ∈ s.data, isQuoteChar x = false) →
      extract_impression_url (some s) = none) := by
  refine ⟨rfl, ?_, ?_⟩
  · intro a b c q1 q2 hq1 hq2 ha hb
    simp only [extract_impression_url]
    rw [firstQuoted_append_of_no_quote a _ ha]
    simp only [firstQuoted, hq1, if_true]
    rw [quotedFrom_closes b c q2 hq2 hb]
    rfl
  · intro s hs
    simp only [extract_impression_url]
    rw [firstQuoted_none_of_no_quote s.data hs]
    rfl

/-- Witness for C6: the spec's own example, evaluated through the
theorem. -/
theorem C6_impression_extractor_witness :
    extract_impression_url (some (String.mk
      (['<', 'i', 'm', 'g', ' ', 's', 'r', 'c', '='] ++ '"' ::
        (['h', 't', 't', 'p', 's', ':', '/', '/', 'a', 'd', '.', 'e', 'x'] ++ '"' :: ['>'])))) =
      some (String.mk ['h', 't', 't', 'p', 's', ':', '/', '/', 'a', 'd', '.', 'e', 'x']) := by
  exact C6_impression_extractor.2.1
    ['<', 'i', 'm', 'g', ' ', 's', 'r', 'c', '=']
    ['h', 't', 't', 'p', 's', ':', '/', '/', 'a', 'd', '.', 'e', 'x']
    ['>'] '"' '"' (by decide) (by decide) (by decide) (by decide)

/-! ### Lemmas about the query dictionary and the update loop -/

theorem qpLookup_qpSet_self (d : List (String × List String)) (k : String) (vs : List String) :
    qpLookup (qpSet d k vs) k = some vs := by
  induction d with
  | nil => simp [qpSet, qpLookup]
  | cons kv rest ih =>
    obtain ⟨k0, vs0⟩ := kv
    by_cases h : k0 = k
    · simp [qpSet, qpLookup, h]
    · simp [qpSet, qpLookup, h, ih]

theorem qpLookup_qpSet_other (d : List (String × List String)) (k k2 : String)
    (vs : List String) (hne : k ≠ k2) : qpLookup (qpSet d k vs) k2 = qpLookup d k2 := by
  induction d with
  | nil => simp [qpSet, qpLookup, hne]
  | cons kv rest ih =>
    obtain ⟨k0, vs0⟩ := kv
    by_cases h : k0 = k
    · subst h
      simp [qpSet, qpLookup, hne, Ne.symm hne]
    · by_cases h2 : k0 = k2
      · subst h2
        simp [qpSet, qpLookup, h]
      · simp [qpSet, qpLookup, h, h2, ih]

theorem qpLookup_mem (d : List (String × List String)) (k : String) (vs : List String)
    (h : qpLookup d k = some vs) : (k, vs) ∈ d := by
  induction d with
  | nil => simp [qpLookup] at h
  | cons kv rest ih =>
    obtain ⟨k0, vs0⟩ := kv
    by_cases hk : k0 = k
    · subst hk
      simp [qpLookup] at h
      simp [h]
    · simp [qpLookup, hk] at h
      exact List.mem_cons_of_mem _ (ih h)

theorem updateParamStep_lookup_other (qp : List (String × List String))
    (kv : String × String) (k : String) (hne : kv.1 ≠ k) :
    qpLookup (updateParamStep qp kv) k = qpLookup qp k := by
  unfold updateParamStep
  cases h : qpLookup qp kv.1 with
  | none =>
    simp only [h]
    exact qpLookup_qpSet_other qp kv.1 k [kv.2] hne
  | some vs =>
    simp only [h]
    split_ifs <;> first
      | exact qpLookup_qpSet_other qp kv.1 k [kv.2] hne
      | rfl

theorem foldl_update_lookup_other (ps : List (String × String))
    (qp : List (String × List String)) (k : String) (hps : ∀ kv ∈ ps, kv.1 ≠ k) :
    qpLookup (ps.foldl updateParamStep qp) k = qpLookup qp k := by
  induction ps generalizing qp with
  | nil => rfl
  | cons kv rest ih =>
    rw [List.foldl_cons, ih _ (fun kv2 h2 => hps kv2 (by simp [h2])),
      updateParamStep_lookup_other qp kv k (hps kv (by simp))]

theorem updateParamStep_lookup_self (qp : List (String × List String)) (k v : String)
    (hkind : k ∈ fixedKeys ∨ k = "utm_campaign" ∨ k = "tf_campaign") :
    qpLookup (updateParamStep qp (k, v)) k =
      some (match qpLookup qp k with
        | none => [v]
        | some vs => if vs.headD "" = v then vs else [v]) := by
  unfold updateParamStep
  cases hq : qpLookup qp k with
  | none =>
    simp only [hq]
    exact qpLookup_qpSet_self qp k [v]
  | some vs =>
    simp only [hq]
    by_cases hv : vs.headD "" = v
    · have h1 : ¬(vs.headD "" ≠ v ∧ k ∈ fixedKeys) := fun hc => absurd hv hc.1
      have h2 : ¬((k = "utm_campaign" ∨ k = "tf_campaign") ∧ vs.headD "" ≠ v) :=
        fun hc => absurd hv hc.2
      rw [if_neg h1, if_neg h2, hq, if_pos hv]
    · rcases hkind with hk | hk | hk
      · rw [if_pos ⟨hv, hk⟩, qpLookup_qpSet_self, if_neg hv]
      · have h1 : ¬(vs.headD "" ≠ v ∧ k ∈ fixedKeys) := by
          rintro ⟨-, habs⟩
          rw [hk] at habs
          exact absurd habs (by decide)
        rw [if_neg h1, if_pos ⟨Or.inl hk, hv⟩, qpLookup_qpSet_self, if_neg hv]
      · have h1 : ¬(vs.headD "" ≠ v ∧ k ∈ fixedKeys) := by
          rintro ⟨-, habs⟩
          rw [hk] at habs
          exact absurd habs (by decide)
        rw [if_neg h1, if_pos ⟨Or.inr hk, hv⟩, qpLookup_qpSet_self, if_neg hv]

theorem foldl_update_lookup (pre post : List (String × String))
    (qp : List (String × List String)) (k v : String)
    (hpre : ∀ kv ∈ pre, kv.1 ≠ k) (hpost : ∀ kv ∈ post, kv.1 ≠ k)
    (hkind : k ∈ fixedKeys ∨ k = "utm_campaign" ∨ k = "tf_campaign") :
    qpLookup ((pre ++ (k, v) :: post).foldl updateParamStep qp) k =
      some (match qpLookup qp k with
        | none => [v]
        | some vs => if vs.headD "" = v then vs else [v]) := by
  rw [List.foldl_append, List.foldl_cons, foldl_update_lookup_other post _ k hpost,
    updateParamStep_lookup_self _ k v hkind, foldl_update_lookup_other pre qp k hpre]

theorem qsAdd_vals_ne (d : List (String × List String)) (k v : String)
    (hd : ∀ kv ∈ d, kv.2 ≠ []) : ∀ kv ∈ qsAdd d k v, kv.2 ≠ [] := by
  induction d with
  | nil =>
    intro kv hkv
    simp [qsAdd] at hkv
    simp [hkv]
  | cons kv0 rest ih =>
    obtain ⟨k0, vs0⟩ := kv0
    intro kv hkv
    by_cases h : k0 = k
    · simp [qsAdd, h] at hkv
      rcases hkv with hkv | hkv
      · simp [hkv]
      · exact hd kv (by simp [hkv])
    · simp only [qsAdd, if_neg h] at hkv
      rcases List.mem_cons.mp hkv with rfl | hkv
      · exact hd _ (by simp)
      · exact ih (fun kv2 h2 => hd kv2 (by simp [h2])) kv hkv

theorem parse_qs_vals_ne (qs : String) : ∀ kv ∈ parse_qs qs, kv.2 ≠ [] := by
  unfold parse_qs
  generalize parse_qsl qs = ps
  suffices h : ∀ (d : List (String × List String)), (∀ kv ∈ d, kv.2 ≠ []) →
      ∀ kv ∈ ps.foldl (fun d kv => qsAdd d kv.1 kv.2) d, kv.2 ≠ [] by
    exact h [] (by simp)
  induction ps with
  | nil => intro d hd; simpa using hd
  | cons p rest ih =>
    intro d hd
    rw [List.foldl_cons]
    exact ih _ (qsAdd_vals_ne d p.1 p.2 hd)

/-- C3 — the URL Rewriter applies one rule uniformly to each of the six
canonical keys: a key absent from the parsed query is inserted as a
single-element list with the canonical value; a present key has its
value list replaced by `[canonical]` exactly when the existing first
value differs from the canonical value (otherwise the list, even a
multi-valued one, is kept unchanged). -/
theorem C3_url_rewriter_param_rule :
    ∀ (q campaign k v : String), (k, v) ∈ params_to_add campaign →
      (qpLookup (parse_qs q) k = none →
        qpLookup (updateParams (parse_qs q) campaign) k = some [v]) ∧
      (∀ vs, qpLookup (parse_qs q) k = some vs →
        qpLookup (updateParams (parse_qs q) campaign) k =
          some (if vs.head? = some v then vs else [v])) := by
  intro q campaign k v hmem
  have hdec : ∃ pre post, params_to_add campaign = pre ++ (k, v) :: post ∧
      (∀ kv ∈ pre, kv.1 ≠ k) ∧ (∀ kv ∈ post, kv.1 ≠ k) ∧
      (k ∈ fixedKeys ∨ k = "utm_campaign" ∨ k = "tf_campaign") := by
    simp only [params_to_add, List.mem_cons, List.not_mem_nil, or_false,
      Prod.mk.injEq] at hmem
    rcases hmem with ⟨rfl, rfl⟩ | ⟨rfl, rfl⟩ | ⟨rfl, rfl⟩ | ⟨rfl, rfl⟩ | ⟨rfl, rfl⟩ | ⟨rfl, rfl⟩
    · refine ⟨[], _, rfl, by simp, ?_, by decide⟩
      intro kv hkv
      simp only [List.mem_cons, List.not_mem_nil, or_false] at hkv
      rcases hkv with rfl | rfl | rfl | rfl | rfl <;> simp
    · refine ⟨[("utm_source", "tiktok")], _, rfl, by decide, ?_, by decide⟩
      intro kv hkv
      simp only [List.mem_cons, List.not_mem_nil, or_false] at hkv
      rcases hkv with rfl | rfl | rfl | rfl <;> simp
    · refine ⟨[("utm_source", "tiktok"), ("utm_medium", "paid")], _, rfl, by decide, ?_,
        by decide⟩
      intro kv hkv
      simp only [List.mem_cons, List.not_mem_nil, or_false] at hkv
      rcases hkv with rfl | rfl | rfl <;> simp
    · refine ⟨[("utm_source", "tiktok"), ("utm_medium", "paid"), ("utm_campaign", _)],
        _, rfl, ?_, ?_, by decide⟩
      · intro kv hkv
        simp only [List.mem_cons, List.not_mem_nil, or_false] at hkv
        rcases hkv with rfl | rfl | rfl <;> simp
      · intro kv hkv
        simp only [List.mem_cons, List.not_mem_nil, or_false] at hkv
        rcases hkv with rfl | rfl <;> simp
    · refine ⟨[("utm_source", "tiktok"), ("utm_medium", "paid"), ("utm_campaign", _),
        ("tf_source", "tiktok")], _, rfl, ?_, ?_, by decide⟩
      · intro kv hkv
        simp only [List.mem_cons, List.not_mem_nil, or_false] at hkv
        rcases hkv with rfl | rfl | rfl | rfl <;> simp
      · intro kv hkv
        simp only [List.mem_cons, List.not_mem_nil, or_false] at hkv
        rcases hkv with rfl
        simp
    · refine ⟨[("utm_source", "tiktok"), ("utm_medium", "paid"), ("utm_campaign", _),
        ("tf_source", "tiktok"), ("tf_medium", "paid_social")], [], rfl, ?_, by simp,
        by decide⟩
      intro kv hkv
      simp only [List.mem_cons, List.not_mem_nil, or_false] at hkv
      rcases hkv with rfl | rfl | rfl | rfl | rfl <;> simp
  obtain ⟨pre, post, hps, hpre, hpost, hkind⟩ := hdec
  have key := foldl_update_lookup pre post (parse_qs q) k v hpre hpost hkind
  rw [← hps] at key
  unfold updateParams
  constructor
  · intro hnone
    rw [key, hnone]
  · intro vs hsome
    rw [key, hsome]
    have hne : vs ≠ [] := parse_qs_vals_ne q (k, vs) (qpLookup_mem _ _ _ hsome)
    cases vs with
    | nil => exact absurd rfl hne
    | cons v0 vrest =>
      by_cases hv : v0 = v
      · simp [hv]
      · simp [hv]

/-- Witness for C3: a query where `utm_source` is present with a
different first value gets it overwritten. -/
theorem C3_url_rewriter_param_rule_witness :
    qpLookup (updateParams (parse_qs "utm_source=x&a=1") "camp") "utm_source" =
      some ["tiktok"] := by
  have h := (C3_url_rewriter_param_rule "utm_source=x&a=1" "camp" "utm_source" "tiktok"
    (by decide)).2 ["x"] (by decide)
  have h2 : (if (["x"] : List String).head? = some "tiktok" then (["x"] : List String)
      else ["tiktok"]) = ["tiktok"] := by decide
  rw [h2] at h
  exact h

/-! ### Lemmas about the pipeline: loading and exceptions -/

theorem except_bind_ok {ε α β : Type} (a : α) (f : α → Except ε β) :
    (Except.ok a >>= f) = f a := rfl

theorem except_bind_error {ε α β : Type} (e : ε) (f : α → Except ε β) :
    ((Except.error e : Except ε α) >>= f) = Except.error e := rfl

theorem load_dispatch_ok {α : Type} (b1 b2 : Bool) (t : α) (e : Except PyErr α)
    (h : b1 = true ∨ b2 = true) :
    (if b1 then Except.ok t else if b2 then Except.ok t else e) = Except.ok t := by
  rcases h with h | h
  · simp [h]
  · by_cases h1 : b1 <;> simp [h1, h]

/-- C9 (amended) — an input file whose name ends in neither `.csv` nor
`.xlsx` makes the pipeline fail with a `ValueError` whose message states
the supported extensions; the message does not name the offending
extension (the original claim said it does).  The TikTok file is checked
first; the tag file is checked once the TikTok file loaded. -/
theorem C9_format_error :
    ∀ (tiktok_name tag_name : String) (tiktok_table tag_table : DF),
      (strEndsWith tiktok_name ".csv" = false → strEndsWith tiktok_name ".xlsx" = false →
        process_files tiktok_name tiktok_table tag_name tag_table =
          .error (.valueError unsupportedTikTokMsg)) ∧
      ((strEndsWith tiktok_name ".csv" = true ∨ strEndsWith tiktok_name ".xlsx" = true) →
        strEndsWith tag_name ".csv" = false → strEndsWith tag_name ".xlsx" = false →
        process_files tiktok_name tiktok_table tag_name tag_table =
          .error (.valueError unsupportedTagMsg)) := by
  intro tn gn tt gt
  constructor
  · intro h1 h2
    simp only [process_files, h1, h2, Bool.false_eq_true, if_false]
    rfl
  · intro h h1 h2
    rcases h with h | h
    · simp only [process_files, h, if_true, except_bind_ok, h1, h2, Bool.false_eq_true,
        if_false]
      rfl
    · by_cases hcsv : strEndsWith tn ".csv"
      · simp only [process_files, hcsv, if_true, except_bind_ok, h1, h2, Bool.false_eq_true,
          if_false]
        rfl
      · have hcsv2 : strEndsWith tn ".csv" = false := by simpa using hcsv
        simp only [process_files, hcsv2, h, Bool.false_eq_true, if_false, if_true,
          except_bind_ok, h1, h2]
        rfl

/-- Counterexample to C9 — the failure messages name the supported
extensions only, not the offending one (`.txt` and `.dat` here do not
occur in them). -/
theorem C9_format_error_counterexample :
    process_files "ads.txt" ⟨[], []⟩ "tags.csv" ⟨[], []⟩ =
      .error (.valueError unsupportedTikTokMsg) ∧
    strIn ".txt" unsupportedTikTokMsg = false ∧
    process_files "a.csv" ⟨[], []⟩ "tags.dat" ⟨[], []⟩ =
      .error (.valueError unsupportedTagMsg) ∧
    strIn ".dat" unsupportedTagMsg = false := by
  refine ⟨by decide, by decide, by decide, by decide⟩

/-- Witness for C9 at a concrete unsupported name. -/
theorem C9_format_error_witness :
    process_files "report.doc" ⟨["A"], []⟩ "t.xlsx" ⟨[], []⟩ =
      .error (.valueError unsupportedTikTokMsg) :=
  (C9_format_error "report.doc" "t.xlsx" ⟨["A"], []⟩ ⟨[], []⟩).1 (by decide) (by decide)

theorem ite_or_true {α : Type} (b1 b2 : Bool) (X Y : α) (h : b1 = true ∨ b2 = true) :
    (if b1 then X else if b2 then X else Y) = X := by
  rcases h with h | h
  · simp [h]
  · by_cases h1 : b1 <;> simp [h1, h]

theorem process_files_ext (tn gn : String) (tt gt : DF)
    (h1 : strEndsWith tn ".csv" = true ∨ strEndsWith tn ".xlsx" = true)
    (h2 : strEndsWith gn ".csv" = true ∨ strEndsWith gn ".xlsx" = true) :
    process_files tn tt gn gt = process_files "a.csv" tt "t.csv" gt := by
  have e1 : strEndsWith "a.csv" ".csv" = true := by decide
  have e2 : strEndsWith "t.csv" ".csv" = true := by decide
  simp only [process_files]
  conv_lhs => rw [ite_or_true _ _ _ _ h1, except_bind_ok, ite_or_true _ _ _ _ h2,
    except_bind_ok]
  conv_rhs => rw [ite_or_true _ _ _ _ (Or.inl e1), except_bind_ok,
    ite_or_true _ _ _ _ (Or.inl e2), except_bind_ok]

theorem colIdx_eq_none_iff (cols : List String) (name : String) :
    colIdx cols name = none ↔ name ∉ cols := by
  unfold colIdx
  rw [List.findIdx?_eq_none_iff]
  constructor
  · intro h hmem
    have := h name hmem
    simp at this
  · intro h x hx
    simp only [decide_eq_false_iff_not]
    exact fun heq => h (heq ▸ hx)

theorem normalizeKeyCol_err (df : DF) (name : String) (h : name ∉ df.cols) :
    normalizeKeyCol df name = .error (.keyError name) := by
  unfold normalizeKeyCol
  rw [(colIdx_eq_none_iff _ _).mpr h]

theorem normalizeKeyCol_ok_spec (df : DF) (name : String) (h : name ∈ df.cols) :
    ∃ df2, normalizeKeyCol df name = .ok df2 ∧ df2.cols = df.cols ∧
      df2.rows.length = df.rows.length := by
  unfold normalizeKeyCol
  cases hf : colIdx df.cols name with
  | none => exact absurd h ((colIdx_eq_none_iff _ _).mp hf)
  | some i => exact ⟨_, rfl, rfl, by simp⟩

/-! ### Substring lemmas for the error-message enumeration -/

theorem leadsWith_self_append (p t : List Char) : leadsWith p (p ++ t) = true := by
  induction p with
  | nil => rfl
  | cons c rest ih => simp [leadsWith, ih]

theorem occursIn_nil_pat (l : List Char) : occursIn [] l = true := by
  cases l <;> simp [occursIn, leadsWith]

theorem occursIn_append_left (p l r : List Char) (h : occursIn p r = true) :
    occursIn p (l ++ r) = true := by
  induction l with
  | nil => exact h
  | cons x xs ih => simp [occursIn, ih]

theorem occursIn_self_append (p t : List Char) : occursIn p (p ++ t) = true := by
  cases hp : p ++ t with
  | nil =>
    have : p = [] := by cases p <;> simp_all
    simp [this, occursIn, leadsWith]
  | cons x xs =>
    rw [← hp]
    cases p with
    | nil => exact occursIn_nil_pat _
    | cons c cs =>
      simp only [List.cons_append, occursIn]
      rw [show (c :: cs ++ t) = (c :: cs) ++ t from rfl] at *
      have := leadsWith_self_append (c :: cs) t
      simp only [List.cons_append] at this
      simp [this]

theorem joinWith_decomp (sep : List Char) (pieces : List (List Char)) (piece : List Char)
    (h : piece ∈ pieces) : ∃ l r, joinWith sep pieces = l ++ piece ++ r := by
  induction pieces with
  | nil => simp at h
  | cons x xs ih =>
    rcases List.mem_cons.mp h with rfl | h2
    · cases xs with
      | nil => exact ⟨[], [], by simp [joinWith]⟩
      | cons y ys => exact ⟨[], sep ++ joinWith sep (y :: ys), by simp [joinWith]⟩
    · cases xs with
      | nil => simp at h2
      | cons y ys =>
        obtain ⟨l, r, hlr⟩ := ih h2
        exact ⟨x ++ sep ++ l, r, by simp [joinWith, hlr]⟩

theorem data_mk (l : List Char) : (String.mk l).data = l := rfl

theorem strIn_clickTagErrMsg (cols : List String) (c : String) (hc : c ∈ cols) :
    strIn c (clickTagErrMsg cols) = true := by
  obtain ⟨l, r, hlr⟩ := joinWith_decomp [',', ' ']
    (cols.map (fun c2 => (aposStr ++ c2 ++ aposStr).data))
    ((aposStr ++ c ++ aposStr).data) (List.mem_map_of_mem _ hc)
  have hdec2 : (clickTagErrMsg cols).data =
      (("Could not find a " ++ aposStr ++ "Click Tag" ++ aposStr ++
        " column in the Tag file. " ++ "Available columns are: " ++ "[").data ++
        (l ++ aposStr.data)) ++
      (c.data ++ (aposStr.data ++ (r ++ ("]" ++ ". " ++ "Expected a column containing " ++
        aposStr ++ "click" ++ aposStr ++ " and " ++ aposStr ++ "tag" ++ aposStr ++
        " (case-insensitive).").data))) := by
    simp only [String.data_append, List.append_assoc] at hlr
    simp [clickTagErrMsg, pyListRepr, String.data_append, data_mk, hlr, List.append_assoc]
  unfold strIn
  rw [hdec2]
  apply occursIn_append_left
  exact occursIn_self_append _ _

/-- C8 (amended) — only an unresolvable tracker column produces the
enumerating schema error (`ValueError` listing every of the tag table's
columns); a missing key column (here: `Campaign Name` on the ad table,
the first one checked) raises a bare `KeyError` naming only that column,
without the list of available columns. -/
theorem C8_schema_error :
    ∀ (tiktok_name tag_name : String) (tiktok_table tag_table : DF),
      (strEndsWith tiktok_name ".csv" = true ∨ strEndsWith tiktok_name ".xlsx" = true) →
      (strEndsWith tag_name ".csv" = true ∨ strEndsWith tag_name ".xlsx" = true) →
      (("Campaign Name" ∉ (stripCols tiktok_table).cols →
          process_files tiktok_name tiktok_table tag_name tag_table =
            .error (.keyError "Campaign Name")) ∧
        ("Campaign Name" ∈ (stripCols tiktok_table).cols →
          "Ad Group Name" ∈ (stripCols tiktok_table).cols →
          "Ad Name" ∈ (stripCols tiktok_table).cols →
          "Campaign Name" ∈ (stripCols tag_table).cols →
          "Placement Name" ∈ (stripCols tag_table).cols →
          "Ad Name" ∈ (stripCols tag_table).cols →
          find_tracker_column (stripCols tag_table).cols ["click", "tag"] 2 = none →
          process_files tiktok_name tiktok_table tag_name tag_table =
            .error (.valueError (clickTagErrMsg (stripCols tag_table).cols))) ∧
        (∀ c ∈ (stripCols tag_table).cols,
          strIn c (clickTagErrMsg (stripCols tag_table).cols) = true)) := by
  intro tn gn tt gt h1 h2
  rw [process_files_ext tn gn tt gt h1 h2]
  refine ⟨?_, ?_, fun c hc => strIn_clickTagErrMsg _ c hc⟩
  · intro hmem
    simp only [process_files, (by decide : strEndsWith "a.csv" ".csv" = true), if_true,
      except_bind_ok, (by decide : strEndsWith "t.csv" ".csv" = true)]
    rw [normalizeKeyCol_err _ _ hmem]
    rfl
  · intro m1 m2 m3 m4 m5 m6 hfind
    simp only [process_files, (by decide : strEndsWith "a.csv" ".csv" = true), if_true,
      except_bind_ok, (by decide : strEndsWith "t.csv" ".csv" = true)]
    obtain ⟨d1, hd1, hc1, -⟩ := normalizeKeyCol_ok_spec (stripCols tt) "Campaign Name" m1
    rw [hd1, except_bind_ok]
    obtain ⟨d2, hd2, hc2, -⟩ := normalizeKeyCol_ok_spec d1 "Ad Group Name"
      (by rw [hc1]; exact m2)
    rw [hd2, except_bind_ok]
    obtain ⟨d3, hd3, hc3, -⟩ := normalizeKeyCol_ok_spec d2 "Ad Name"
      (by rw [hc2, hc1]; exact m3)
    rw [hd3, except_bind_ok]
    obtain ⟨g1, hg1, hgc1, -⟩ := normalizeKeyCol_ok_spec (stripCols gt) "Campaign Name" m4
    rw [hg1, except_bind_ok]
    obtain ⟨g2, hg2, hgc2, -⟩ := normalizeKeyCol_ok_spec g1 "Placement Name"
      (by rw [hgc1]; exact m5)
    rw [hg2, except_bind_ok]
    obtain ⟨g3, hg3, hgc3, -⟩ := normalizeKeyCol_ok_spec g2 "Ad Name"
      (by rw [hgc2, hgc1]; exact m6)
    rw [hg3, except_bind_ok]
    have hcols : g3.cols = (stripCols gt).cols := by rw [hgc3, hgc2, hgc1]
    rw [hcols, hfind]
    rfl

/-- Counterexample to C8 — an ad table without `Campaign Name` makes the
pipeline fail with `KeyError('Campaign Name')`; its message renders only
the missing name, and does not enumerate the columns that are present
(such as `Other Col`). -/
theorem C8_schema_error_counterexample :
    process_files "a.csv" ⟨["Ad Group Name", "Ad Name", "Click URL", "Other Col"], []⟩ "t.csv"
      ⟨["Campaign Name", "Placement Name", "Ad Name", "Click Tag", "Impression Tag"], []⟩ =
      .error (.keyError "Campaign Name") ∧
    strIn "Other Col" (pyErrMsg (.keyError "Campaign Name")) = false :=
  ⟨by decide, by decide⟩

/-- Witness for C8 at a concrete input. -/
theorem C8_schema_error_witness :
    process_files "a.csv" (DF.mk ["X"] []) "t.csv" (DF.mk [] []) =
      .error (.keyError "Campaign Name") :=
  (C8_schema_error "a.csv" "t.csv" ⟨["X"], []⟩ ⟨[], []⟩ (Or.inl (by decide))
    (Or.inl (by decide))).1 (by decide)

/-! ### Inversion of the success path of the pipeline -/

theorem except_bind_eq_ok {ε α β : Type} (x : Except ε α) (f : α → Except ε β) (b : β)
    (h : (x >>= f) = .ok b) : ∃ a, x = .ok a ∧ f a = .ok b := by
  cases x with
  | error e => simp [except_bind_error] at h
  | ok a => exact ⟨a, rfl, h⟩

theorem normalizeKeyCol_ok_inv (df d2 : DF) (name : String)
    (h : normalizeKeyCol df name = .ok d2) :
    d2.cols = df.cols ∧ d2.rows.length = df.rows.length := by
  unfold normalizeKeyCol at h
  cases hf : colIdx df.cols name with
  | none =>
    rw [hf] at h
    cases h
  | some i =>
    rw [hf] at h
    cases h
    exact ⟨rfl, by simp⟩

theorem find_tracker_two_snd (cols : List String) (k1 k2 : String) (c : String)
    (h : find_tracker_column cols [k1, k2] 2 = some c) :
    strIn (pyLower k2) (pyLower c) = true := by
  obtain ⟨pre, post, -, hq, -⟩ := (find_tracker_column_eq_some cols [k1, k2] 2 c).mp h
  by_cases h2 : strIn (pyLower k2) (pyLower c)
  · exact h2
  · exfalso
    by_cases h1 : strIn (pyLower k1) (pyLower c) <;>
      simp [keywordCount, h1, h2] at hq

theorem mergeLeftTT_rows_nil_iff (l r : DF) (lOn rOn : List String) :
    (mergeLeftTT l r lOn rOn).rows = [] ↔ l.rows = [] := by
  unfold mergeLeftTT
  constructor
  · intro h
    simp only [] at h
    cases hl : l.rows with
    | nil => rfl
    | cons r0 rest =>
      rw [hl, List.map_cons, List.flatten_cons] at h
      rcases List.append_eq_nil.mp h with ⟨h1, -⟩
      revert h1
      split <;> simp_all
  · intro h
    simp only [h, List.map_nil, List.flatten_nil]

theorem setCol_rows_nil (df : DF) (n : String) (v : List (Option String))
    (h : df.rows = []) : (setCol df n v).rows = [] := by
  unfold setCol
  cases colIdx df.cols n <;> simp [h]

theorem dropColsDF_rows_nil (df : DF) (names : List String) (h : df.rows = []) :
    (dropColsDF df names).rows = [] := by
  unfold dropColsDF
  simp [h]

theorem setCol_cols_of_mem (df : DF) (n : String) (v : List (Option String))
    (h : n ∈ df.cols) : (setCol df n v).cols = df.cols := by
  unfold setCol
  cases hf : colIdx df.cols n with
  | none => exact absurd h ((colIdx_eq_none_iff _ _).mp hf)
  | some i => rfl

theorem setCol_cols_of_not_mem (df : DF) (n : String) (v : List (Option String))
    (h : n ∉ df.cols) : (setCol df n v).cols = df.cols ++ [n] := by
  unfold setCol
  rw [(colIdx_eq_none_iff _ _).mpr h]

theorem dropColsDF_cols (df : DF) (names : List String) :
    (dropColsDF df names).cols = df.cols.filter (fun c => ¬ c ∈ names) := rfl

theorem double_filter {A : Type} [DecidableEq A] (l : List A) (p : A → Bool) :
    l.filter (fun c => ¬ c ∈ l.filter p) = l.filter (fun c => !(p c)) := by
  apply List.filter_congr
  intro c hc
  simp [List.mem_filter, hc]

/-- C2 (amended) — for a nonempty ad table, whenever the pipeline does
return a table its column names are the (whitespace-stripped) ad-table
column names plus the new `Impression tracking URL` column, provided the
ad table does not collide with the join's tag-side names: no ad column
named `Placement Name` or `Impression tracking URL`, none ending in
`_tag`, and none containing `tag` in its lowercased name (such a column
could be, or collide with, a resolved tracker column and would be
renamed with a `_tiktok` suffix or dropped).  The claim as stated,
without these provisos, is false — and by C1 a table is returned at all
only when the ad table itself carries a `Campaign Name_tiktok` column
for the row transform to read.  (An empty ad table can return only in
the same contrived case, and then with reordered columns, since pandas
drops the left copies of the coalesced key columns of a zero-row
merge.) -/
theorem C2_output_columns :
    ∀ (tiktok_name tag_name : String) (tiktok_table tag_table : DF) (df : DF),
      (strEndsWith tiktok_name ".csv" = true ∨ strEndsWith tiktok_name ".xlsx" = true) →
      (strEndsWith tag_name ".csv" = true ∨ strEndsWith tag_name ".xlsx" = true) →
      tiktok_table.rows ≠ [] →
      "Click URL" ∈ (stripCols tiktok_table).cols →
      "Impression tracking URL" ∉ (stripCols tiktok_table).cols →
      "Placement Name" ∉ (stripCols tiktok_table).cols →
      (∀ c ∈ (stripCols tiktok_table).cols, strEndsWith c "_tag" = false) →
      (∀ c ∈ (stripCols tiktok_table).cols, strIn "tag" (pyLower c) = false) →
      process_files tiktok_name tiktok_table tag_name tag_table = .ok df →
      df.cols = (stripCols tiktok_table).cols ++ ["Impression tracking URL"] := by
  intro tn gn tt gt df h1 h2 hrows hCU hITU hPN hTagSuf hTagSub hok
  rw [process_files_ext tn gn tt gt h1 h2] at hok
  simp only [process_files, (by decide : strEndsWith "a.csv" ".csv" = true), if_true,
    except_bind_ok, (by decide : strEndsWith "t.csv" ".csv" = true)] at hok
  obtain ⟨d1, hd1, hok⟩ := except_bind_eq_ok _ _ _ hok
  obtain ⟨hc1, hl1⟩ := normalizeKeyCol_ok_inv _ _ _ hd1
  obtain ⟨d2, hd2, hok⟩ := except_bind_eq_ok _ _ _ hok
  obtain ⟨hc2, hl2⟩ := normalizeKeyCol_ok_inv _ _ _ hd2
  obtain ⟨d3, hd3, hok⟩ := except_bind_eq_ok _ _ _ hok
  obtain ⟨hc3, hl3⟩ := normalizeKeyCol_ok_inv _ _ _ hd3
  obtain ⟨g1, hg1, hok⟩ := except_bind_eq_ok _ _ _ hok
  obtain ⟨g2, hg2, hok⟩ := except_bind_eq_ok _ _ _ hok
  obtain ⟨g3, hg3, hok⟩ := except_bind_eq_ok _ _ _ hok
  have hA : d3.cols = (stripCols tt).cols := by rw [hc3, hc2, hc1]
  have hd3ne : d3.rows ≠ [] := by
    intro hnil
    apply hrows
    have h0 : d3.rows.length = 0 := by rw [hnil]; rfl
    have hstrip : (stripCols tt).rows.length = tt.rows.length := rfl
    have hlen : tt.rows.length = 0 := by omega
    exact List.length_eq_zero.mp hlen
  cases hfc : find_tracker_column g3.cols ["click", "tag"] 2 with
  | none => rw [hfc] at hok; exact Except.noConfusion hok
  | some cc =>
    rw [hfc] at hok
    cases hfi : find_tracker_column g3.cols ["impression", "tag"] 2 with
    | none => rw [hfi] at hok; exact Except.noConfusion hok
    | some ic =>
      rw [hfi] at hok
      obtain ⟨clickVals, hcv, hok⟩ := except_bind_eq_ok _ _ _ hok
      obtain ⟨impVals, hiv, hok⟩ := except_bind_eq_ok _ _ _ hok
      have htag : pyLower "tag" = "tag" := by decide
      have hcctag : strIn "tag" (pyLower cc) = true := by
        have := find_tracker_two_snd g3.cols "click" "tag" cc hfc
        rwa [htag] at this
      have hictag : strIn "tag" (pyLower ic) = true := by
        have := find_tracker_two_snd g3.cols "impression" "tag" ic hfi
        rwa [htag] at this
      have hccA : cc ∉ d3.cols := by
        intro hmem
        rw [hA] at hmem
        rw [hTagSub cc hmem] at hcctag
        simp at hcctag
      have hicA : ic ∉ d3.cols := by
        intro hmem
        rw [hA] at hmem
        rw [hTagSub ic hmem] at hictag
        simp at hictag
      have hccCN : cc ≠ "Campaign Name" := by
        intro h; rw [h] at hcctag; exact absurd hcctag (by decide)
      have hccAN : cc ≠ "Ad Name" := by
        intro h; rw [h] at hcctag; exact absurd hcctag (by decide)
      have hccPN : cc ≠ "Placement Name" := by
        intro h; rw [h] at hcctag; exact absurd hcctag (by decide)
      have hccIT : cc ≠ "Impression tracking URL" := by
        intro h; rw [h] at hcctag; exact absurd hcctag (by decide)
      have hicCN : ic ≠ "Campaign Name" := by
        intro h; rw [h] at hictag; exact absurd hictag (by decide)
      have hicAN : ic ≠ "Ad Name" := by
        intro h; rw [h] at hictag; exact absurd hictag (by decide)
      have hicPN : ic ≠ "Placement Name" := by
        intro h; rw [h] at hictag; exact absurd hictag (by decide)
      have hicIT : ic ≠ "Impression tracking URL" := by
        intro h; rw [h] at hictag; exact absurd hictag (by decide)
      have hrd : (List.zip ["Campaign Name", "Ad Group Name", "Ad Name"]
          ["Campaign Name", "Placement Name", "Ad Name"]).filterMap
          (fun ab => if ab.1 = ab.2 then some ab.2 else none) =
          ["Campaign Name", "Ad Name"] := by decide
      have hrk : List.filter (fun c => ¬ c ∈ (["Campaign Name", "Ad Name"] : List String))
          ["Campaign Name", "Placement Name", "Ad Name", cc, ic] =
          ["Placement Name", cc, ic] := by
        simp [hccCN, hccAN, hicCN, hicAN]
      have hmc : (mergeLeftTT d3
          (selectCols g3 ["Campaign Name", "Placement Name", "Ad Name", cc, ic])
          ["Campaign Name", "Ad Group Name", "Ad Name"]
          ["Campaign Name", "Placement Name", "Ad Name"]).cols =
          d3.cols ++ ["Placement Name", cc, ic] := by
        unfold mergeLeftTT
        simp only [selectCols, hrd, if_neg hd3ne, hrk]
        congr 1
        · conv_rhs => rw [← List.map_id d3.cols]
          apply List.map_congr_left
          intro c hcA
          have hx1 : c ≠ "Placement Name" := by
            intro h; rw [h] at hcA; rw [hA] at hcA; exact hPN hcA
          have hx2 : c ≠ cc := by intro h; rw [h] at hcA; exact hccA hcA
          have hx3 : c ≠ ic := by intro h; rw [h] at hcA; exact hicA hcA
          simp [hx1, hx2, hx3]
        · have hPN3 : ("Placement Name" : String) ∉ d3.cols := by rw [hA]; exact hPN
          simp [hPN3, hccA, hicA]
      have hCUm : "Click URL" ∈ (mergeLeftTT d3
          (selectCols g3 ["Campaign Name", "Placement Name", "Ad Name", cc, ic])
          ["Campaign Name", "Ad Group Name", "Ad Name"]
          ["Campaign Name", "Placement Name", "Ad Name"]).cols := by
        rw [hmc, List.mem_append, hA]
        exact Or.inl hCU
      have hITUm : "Impression tracking URL" ∉ (mergeLeftTT d3
          (selectCols g3 ["Campaign Name", "Placement Name", "Ad Name", cc, ic])
          ["Campaign Name", "Ad Group Name", "Ad Name"]
          ["Campaign Name", "Placement Name", "Ad Name"]).cols := by
        rw [hmc]
        intro hmem
        rcases List.mem_append.mp hmem with h | h
        · rw [hA] at h; exact hITU h
        · simp only [List.mem_cons, List.not_mem_nil, or_false] at h
          rcases h with h | h | h
          · exact absurd h (by decide)
          · exact hccIT h.symm
          · exact hicIT h.symm
      have hinner : ("Impression tracking URL" : String) ∉
          (setCol (mergeLeftTT d3
            (selectCols g3 ["Campaign Name", "Placement Name", "Ad Name", cc, ic])
            ["Campaign Name", "Ad Group Name", "Ad Name"]
            ["Campaign Name", "Placement Name", "Ad Name"]) "Click URL" clickVals).cols := by
        rw [setCol_cols_of_mem _ _ clickVals hCUm]
        exact hITUm
      have hdf : Except.ok (dropColsDF (setCol (setCol (mergeLeftTT d3
          (selectCols g3 ["Campaign Name", "Placement Name", "Ad Name", cc, ic])
          ["Campaign Name", "Ad Group Name", "Ad Name"]
          ["Campaign Name", "Placement Name", "Ad Name"]) "Click URL" clickVals)
          "Impression tracking URL" impVals)
          ((setCol (setCol (mergeLeftTT d3
            (selectCols g3 ["Campaign Name", "Placement Name", "Ad Name", cc, ic])
            ["Campaign Name", "Ad Group Name", "Ad Name"]
            ["Campaign Name", "Placement Name", "Ad Name"]) "Click URL" clickVals)
            "Impression tracking URL" impVals).cols.filter
            (fun c => strEndsWith c "_tag" = true ∨ c = cc ∨ c = ic ∨
              c = "Placement Name"))) = Except.ok df := hok
      obtain rfl := Except.ok.inj hdf
      rw [dropColsDF_cols]
      have hbig : (setCol (setCol (mergeLeftTT d3
          (selectCols g3 ["Campaign Name", "Placement Name", "Ad Name", cc, ic])
          ["Campaign Name", "Ad Group Name", "Ad Name"]
          ["Campaign Name", "Placement Name", "Ad Name"]) "Click URL" clickVals)
          "Impression tracking URL" impVals).cols = (mergeLeftTT d3
          (selectCols g3 ["Campaign Name", "Placement Name", "Ad Name", cc, ic])
          ["Campaign Name", "Ad Group Name", "Ad Name"]
          ["Campaign Name", "Placement Name", "Ad Name"]).cols ++
          ["Impression tracking URL"] := by
        rw [setCol_cols_of_not_mem _ _ impVals hinner, setCol_cols_of_mem _ _ clickVals hCUm]
      rw [hbig, hmc, double_filter, List.filter_append, List.filter_append]
      have hIT1 : strEndsWith "Impression tracking URL" "_tag" = false := by decide
      have hIT2 : ("Impression tracking URL" : String) ≠ "Placement Name" := by decide
      have h5 : List.filter (fun c => !(decide (strEndsWith c "_tag" = true ∨ c = cc ∨
          c = ic ∨ c = "Placement Name"))) d3.cols = d3.cols := by
        apply List.filter_eq_self.mpr
        intro c hc
        have hcA : c ∈ (stripCols tt).cols := hA ▸ hc
        have hx1 : c ≠ "Placement Name" := by
          intro h; rw [h] at hcA; exact hPN hcA
        have hx2 : c ≠ cc := by intro h; rw [h] at hc; exact hccA hc
        have hx3 : c ≠ ic := by intro h; rw [h] at hc; exact hicA hc
        simp [hTagSuf c hcA, hx1, hx2, hx3]
      have h6 : List.filter (fun c => !(decide (strEndsWith c "_tag" = true ∨ c = cc ∨
          c = ic ∨ c = "Placement Name"))) ["Placement Name", cc, ic] = [] := by
        simp
      have h7 : List.filter (fun c => !(decide (strEndsWith c "_tag" = true ∨ c = cc ∨
          c = ic ∨ c = "Placement Name"))) ["Impression tracking URL"] =
          ["Impression tracking URL"] := by
        simp [hIT1, hIT2, Ne.symm hccIT, Ne.symm hicIT]
      rw [h5, h6, h7, hA]
      simp

/-- Counterexample to C2 as stated — a run that does return a table (the
ad table carries the `Campaign Name_tiktok` column the row transform
reads) whose ad table also has a column named `Placement Name`: the
merge renames that column to `Placement Name_tiktok`, so the output
columns are not the ad-table columns plus `Impression tracking URL`. -/
theorem C2_output_columns_counterexample :
    Except.map DF.cols (process_files "a.csv"
      ⟨["Campaign Name", "Ad Group Name", "Ad Name", "Click URL", "Campaign Name_tiktok",
        "Placement Name"],
        [[some "C", some "G", some "A", some "http://h/p", some "X", some "P"]]⟩ "t.csv"
      ⟨["Campaign Name", "Placement Name", "Ad Name", "Click Tag", "Impression Tag"], []⟩) =
      .ok ["Campaign Name", "Ad Group Name", "Ad Name", "Click URL", "Campaign Name_tiktok",
        "Placement Name_tiktok", "Impression tracking URL"] ∧
    (["Campaign Name", "Ad Group Name", "Ad Name", "Click URL", "Campaign Name_tiktok",
        "Placement Name_tiktok", "Impression tracking URL"] : List String) ≠
      ["Campaign Name", "Ad Group Name", "Ad Name", "Click URL", "Campaign Name_tiktok",
        "Placement Name"] ++ ["Impression tracking URL"] :=
  ⟨by decide, by decide⟩

/-- Witness for C2: a collision-free nonempty run (the ad table carries
the `Campaign Name_tiktok` column the row transform reads) yields
exactly its own columns plus `Impression tracking URL`. -/
theorem C2_output_columns_witness :
    ∃ df, process_files "a.csv"
      (DF.mk ["Campaign Name", "Ad Group Name", "Ad Name", "Click URL",
        "Campaign Name_tiktok"]
        [[some "C", some "G", some "A", some "http://h/p", some "X"]]) "t.csv"
      (DF.mk ["Campaign Name", "Placement Name", "Ad Name", "Click Tag", "Impression Tag"]
        []) = .ok df ∧
      df.cols = (stripCols (DF.mk ["Campaign Name", "Ad Group Name", "Ad Name", "Click URL",
        "Campaign Name_tiktok"]
        [[some "C", some "G", some "A", some "http://h/p", some "X"]])).cols ++
        ["Impression tracking URL"] := by
  refine ⟨⟨["Campaign Name", "Ad Group Name", "Ad Name", "Click URL", "Campaign Name_tiktok",
      "Impression tracking URL"],
      [[some "C", some "G", some "A",
        some "http://h/p?utm_source=tiktok&utm_medium=paid&utm_campaign=X&tf_source=tiktok&tf_medium=paid_social&tf_campaign=X",
        some "X", none]]⟩, by decide, ?_⟩
  exact C2_output_columns "a.csv" "t.csv"
    ⟨["Campaign Name", "Ad Group Name", "Ad Name", "Click URL", "Campaign Name_tiktok"],
      [[some "C", some "G", some "A", some "http://h/p", some "X"]]⟩
    ⟨["Campaign Name", "Placement Name", "Ad Name", "Click Tag", "Impression Tag"], []⟩
    ⟨["Campaign Name", "Ad Group Name", "Ad Name", "Click URL", "Campaign Name_tiktok",
      "Impression tracking URL"],
      [[some "C", some "G", some "A",
        some "http://h/p?utm_source=tiktok&utm_medium=paid&utm_campaign=X&tf_source=tiktok&tf_medium=paid_social&tf_campaign=X",
        some "X", none]]⟩
    (Or.inl (by decide)) (Or.inl (by decide)) (by decide) (by decide) (by decide)
    (by decide) (by decide) (by decide) (by decide)

theorem splitAtFirst_append_sep (sep : Char) (n : List Char) (h : sep ∉ n) :
    splitAtFirst sep (n ++ [sep]) = some (n, []) := by
  induction n with
  | nil => simp [splitAtFirst]
  | cons c rest ih =>
    have hc : c ≠ sep := by intro he; exact h (by simp [he])
    have hr : sep ∉ rest := fun hm => h (by simp [hm])
    simp [splitAtFirst, hc, ih hr]

theorem updateParams_lookup_ne_none (qp : List (String × List String)) (c k : String)
    (hk : k ∈ (params_to_add c).map Prod.fst) :
    qpLookup (updateParams qp c) k ≠ none := by
  have hform : ∀ (pre post : List (String × String)) (v : String),
      params_to_add c = pre ++ (k, v) :: post →
      (∀ kv ∈ pre, kv.1 ≠ k) → (∀ kv ∈ post, kv.1 ≠ k) →
      (k ∈ fixedKeys ∨ k = "utm_campaign" ∨ k = "tf_campaign") →
      qpLookup (updateParams qp c) k ≠ none := by
    intro pre post v heq hpre hpost hkind hnone
    have h := foldl_update_lookup pre post qp k v hpre hpost hkind
    rw [show updateParams qp c = (pre ++ (k, v) :: post).foldl updateParamStep qp from by
      rw [updateParams, heq]] at hnone
    rw [h] at hnone
    exact Option.noConfusion hnone
  simp [params_to_add] at hk
  rcases hk with rfl | rfl | rfl | rfl | rfl | rfl
  · exact hform [] [("utm_medium", "paid"), ("utm_campaign", c), ("tf_source", "tiktok"),
      ("tf_medium", "paid_social"), ("tf_campaign", c)] "tiktok" rfl (by simp)
      (by intro kv hkv; simp [params_to_add] at hkv
          rcases hkv with h | h | h | h | h <;> simp [h]) (Or.inl (by decide))
  · exact hform [("utm_source", "tiktok")] [("utm_campaign", c), ("tf_source", "tiktok"),
      ("tf_medium", "paid_social"), ("tf_campaign", c)] "paid" rfl
      (by intro kv hkv; simp at hkv; simp [hkv])
      (by intro kv hkv; simp at hkv
          rcases hkv with h | h | h | h <;> simp [h]) (Or.inl (by decide))
  · exact hform [("utm_source", "tiktok"), ("utm_medium", "paid")] [("tf_source", "tiktok"),
      ("tf_medium", "paid_social"), ("tf_campaign", c)] c rfl
      (by intro kv hkv; simp at hkv; rcases hkv with h | h <;> simp [h])
      (by intro kv hkv; simp at hkv
          rcases hkv with h | h | h <;> simp [h]) (Or.inr (Or.inl rfl))
  · exact hform [("utm_source", "tiktok"), ("utm_medium", "paid"), ("utm_campaign", c)]
      [("tf_medium", "paid_social"), ("tf_campaign", c)] "tiktok" rfl
      (by intro kv hkv; simp at hkv; rcases hkv with h | h | h <;> simp [h])
      (by intro kv hkv; simp at hkv
          rcases hkv with h | h <;> simp [h]) (Or.inl (by decide))
  · exact hform [("utm_source", "tiktok"), ("utm_medium", "paid"), ("utm_campaign", c),
      ("tf_source", "tiktok")] [("tf_campaign", c)] "paid_social" rfl
      (by intro kv hkv; simp at hkv; rcases hkv with h | h | h | h <;> simp [h])
      (by intro kv hkv; simp at hkv; simp [hkv]) (Or.inl (by decide))
  · exact hform [("utm_source", "tiktok"), ("utm_medium", "paid"), ("utm_campaign", c),
      ("tf_source", "tiktok"), ("tf_medium", "paid_social")] [] c rfl
      (by intro kv hkv; simp at hkv; rcases hkv with h | h | h | h | h <;> simp [h])
      (by intro kv hkv; simp at hkv) (Or.inr (Or.inr rfl))

/-- C10 — the query parser (`keep_blank_values` defaulting to false)
discards every `key=` piece with a blank value, so a blank-valued
parameter vanishes from the rewritten URL unless its key is one of the
six canonical keys, which the update loop always (re-)inserts; in the
end-to-end example the blank `u=` is dropped while `a=1` survives and
the six canonical parameters are appended. -/
theorem C10_blank_params :
    (∀ (n : List Char), ('=' : Char) ∉ n → parsePiece (n ++ [('=' : Char)]) = none) ∧
    (∀ (qp : List (String × List String)) (c k : String),
      k ∈ (params_to_add c).map Prod.fst → qpLookup (updateParams qp c) k ≠ none) ∧
    update_click_url (some "https://x.com/p?u=&a=1") none "camp" =
      "https://x.com/p?a=1&utm_source=tiktok&utm_medium=paid&utm_campaign=camp&tf_source=tiktok&tf_medium=paid_social&tf_campaign=camp" := by
  refine ⟨?_, updateParams_lookup_ne_none, by decide⟩
  intro n hn
  have hs := splitAtFirst_append_sep ('=' : Char) n hn
  simp [parsePiece, hs]

/-- Witness for C10: the blank piece `u=` is discarded by the parser. -/
theorem C10_blank_params_witness :
    parsePiece ([('u' : Char)] ++ [('=' : Char)]) = none := by
  exact C10_blank_params.1 [('u' : Char)] (by decide)

theorem qpSet_vals_ne (d : List (String × List String)) (k : String) (vs : List String)
    (hd : ∀ kv ∈ d, kv.2 ≠ []) (hvs : vs ≠ []) : ∀ kv ∈ qpSet d k vs, kv.2 ≠ [] := by
  induction d with
  | nil =>
    intro kv hkv
    simp [qpSet] at hkv
    simp [hkv, hvs]
  | cons kv0 rest ih =>
    obtain ⟨k0, vs0⟩ := kv0
    intro kv hkv
    by_cases h : k0 = k
    · simp [qpSet, h] at hkv
      rcases hkv with hkv | hkv
      · simp [hkv, hvs]
      · exact hd kv (by simp [hkv])
    · simp [qpSet, h] at hkv
      rcases hkv with hkv | hkv
      · exact hd kv (by simp [hkv])
      · exact ih (fun p hp => hd p (by simp [hp])) kv hkv

theorem updateParamStep_vals_ne (qp : List (String × List String)) (kv : String × String)
    (h : ∀ p ∈ qp, p.2 ≠ []) : ∀ p ∈ updateParamStep qp kv, p.2 ≠ [] := by
  unfold updateParamStep
  cases qpLookup qp kv.1 with
  | none => exact qpSet_vals_ne qp kv.1 [kv.2] h (by simp)
  | some vs =>
    show ∀ p ∈ (if vs.headD "" ≠ kv.2 ∧ kv.1 ∈ fixedKeys then qpSet qp kv.1 [kv.2]
      else if (kv.1 = "utm_campaign" ∨ kv.1 = "tf_campaign") ∧ vs.headD "" ≠ kv.2 then
        qpSet qp kv.1 [kv.2] else qp), p.2 ≠ []
    by_cases h1 : vs.headD "" ≠ kv.2 ∧ kv.1 ∈ fixedKeys
    · rw [if_pos h1]; exact qpSet_vals_ne qp kv.1 [kv.2] h (by simp)
    · rw [if_neg h1]
      by_cases h2 : (kv.1 = "utm_campaign" ∨ kv.1 = "tf_campaign") ∧ vs.headD "" ≠ kv.2
      · rw [if_pos h2]; exact qpSet_vals_ne qp kv.1 [kv.2] h (by simp)
      · rw [if_neg h2]; exact h

theorem updateParamStepE_eq (qp : List (String × List String)) (kv : String × String)
    (h : ∀ p ∈ qp, p.2 ≠ []) : updateParamStepE qp kv = .ok (updateParamStep qp kv) := by
  unfold updateParamStepE updateParamStep
  cases hq : qpLookup qp kv.1 with
  | none => rfl
  | some vs =>
    cases vs with
    | nil => exact absurd rfl (h (kv.1, []) (qpLookup_mem qp kv.1 [] hq))
    | cons v0 rest =>
      simp only [List.headD_cons]
      by_cases h1 : v0 ≠ kv.2 ∧ kv.1 ∈ fixedKeys
      · simp [h1]
      · by_cases h2 : (kv.1 = "utm_campaign" ∨ kv.1 = "tf_campaign") ∧ v0 ≠ kv.2
        · simp [h1, h2]
        · simp [h1, h2]

theorem foldlM_updateParamStepE (ps : List (String × String))
    (qp : List (String × List String)) (h : ∀ p ∈ qp, p.2 ≠ []) :
    ps.foldlM updateParamStepE qp = .ok (ps.foldl updateParamStep qp) := by
  induction ps generalizing qp with
  | nil => rfl
  | cons kv rest ih =>
    rw [List.foldlM_cons, updateParamStepE_eq qp kv h, except_bind_ok, List.foldl_cons]
    exact ih _ (updateParamStep_vals_ne qp kv h)

theorem char_contains_false (l : List Char) (a : Char) (h : a ∉ l) :
    l.contains a = false := by
  induction l with
  | nil => rfl
  | cons x xs ih =>
    rw [List.contains_cons]
    have hxa : (a == x) = false := by
      simp only [beq_eq_false_iff_ne, ne_eq]
      intro he
      exact h (by simp [he])
    rw [hxa, Bool.false_or]
    exact ih (fun hm => h (by simp [hm]))

theorem urlparse_bad_of_no_brackets (s : String)
    (h : ∀ c ∈ (urlparsePy s).1.netloc.data, c ≠ '[' ∧ c ≠ ']') :
    (urlparsePy s).2 = false := by
  have h1 : (urlparsePy s).1.netloc.data.contains '[' = false :=
    char_contains_false _ _ (fun hm => (h _ hm).1 rfl)
  have h2 : (urlparsePy s).1.netloc.data.contains ']' = false :=
    char_contains_false _ _ (fun hm => (h _ hm).2 rfl)
  show ((urlparsePy s).1.netloc.data.contains '[' !=
    (urlparsePy s).1.netloc.data.contains ']') = false
  rw [h1, h2]
  rfl

/-- C5 (amended) — whenever the parsed netloc of the working URL is
bracket-free and all-ASCII, the rewriter raises no exception and returns
the string the pure function computes (the `IndexError` of
`query_params[key][0]` is indeed unreachable, since `parse_qs` never
yields an empty value list; the netloc condition keeps all three
`ValueError` sites of `urlsplit` from firing: the unbalanced-bracket
check, the bracketed-host validation of balanced brackets, and the NFKC
check, which needs a non-ASCII netloc).  The parse error branch is
reachable, refuting the claim: an unbalanced bracket in the netloc
raises `ValueError('Invalid IPv6 URL')`; on the reference runtime a
balanced-bracket non-IP host (`http://[x]`) and an NFKC-changing
non-ASCII netloc also raise, which is why the no-exception guarantee is
stated only on the bracket-free ASCII region, where the embedding and
the program agree. -/
theorem C5_no_exceptions :
    ∀ (original_url click_tracker : Option String) (campaign_name : String),
      (∀ c ∈ (urlparsePy (match click_tracker with
        | none => match original_url with | none => "" | some s => s
        | some t => t ++ (match original_url with | none => "" | some s => s))).1.netloc.data,
        c.toNat < 0x80 ∧ c ≠ '[' ∧ c ≠ ']') →
      update_click_urlE original_url click_tracker campaign_name =
        .ok (update_click_url original_url click_tracker campaign_name) := by
  intro original_url click_tracker campaign_name hn
  have h := urlparse_bad_of_no_brackets _ (fun c hc => (hn c hc).2)
  simp only [update_click_urlE, update_click_url, updateParams, h, Bool.false_eq_true,
    if_false]
  rw [foldlM_updateParamStepE _ _ (parse_qs_vals_ne _), except_bind_ok]
  rfl

/-- Counterexample to C5 as stated — a malformed netloc with an
unbalanced bracket makes the rewriter raise instead of returning a
string. -/
theorem C5_no_exceptions_counterexample :
    update_click_urlE (some "http://[x") none "c" =
      .error (.valueError "Invalid IPv6 URL") := by
  decide

/-- Witness for C5: a bracket-free ASCII netloc, on which the
exception-aware rewriter returns exactly the pure value. -/
theorem C5_no_exceptions_witness :
    update_click_urlE (some "https://x.com/p?a=1") none "camp" =
      .ok (update_click_url (some "https://x.com/p?a=1") none "camp") :=
  C5_no_exceptions (some "https://x.com/p?a=1") none "camp" (by decide)

theorem hexDigitVal_upper (x : Nat) (h : x < 16) : hexDigitVal (hexDigitUpper x) = some x := by
  interval_cases x <;> decide

theorem pctTokens_cons_ne (c : Char) (h : c ≠ '%') (rest : List Char) :
    pctTokens (c :: rest) = QTok.ch c :: pctTokens rest := by
  rw [pctTokens.eq_def]
  split <;> simp_all

theorem pctTokens_triple (b : Nat) (hb : b < 256) (rest : List Char) :
    pctTokens (pctEncodeByte b ++ rest) = QTok.byte b :: pctTokens rest := by
  have h1 : b / 16 < 16 := by omega
  have h2 : b % 16 < 16 := by omega
  show pctTokens ('%' :: hexDigitUpper (b / 16) :: hexDigitUpper (b % 16) :: rest) = _
  rw [pctTokens.eq_def]
  simp only [hexDigitVal_upper _ h1, hexDigitVal_upper _ h2]
  have h3 : 16 * (b / 16) + b % 16 = b := by omega
  simp [h3]

theorem char_valid_nat (c : Char) :
    c.toNat < 0xD800 ∨ (0xDFFF < c.toNat ∧ c.toNat < 0x110000) := c.valid

theorem char_ofNat_toNat (c : Char) : Char.ofNat c.toNat = c := Char.ofNat_toNat c

theorem decode_utf8Bytes (c : Char) (T : List QTok) :
    decodeQTokens ((utf8Bytes c).map QTok.byte ++ T) = c :: decodeQTokens T := by
  have hv := char_valid_nat c
  have hofn := char_ofNat_toNat c
  unfold utf8Bytes
  by_cases h1 : c.toNat < 0x80
  · rw [if_pos h1]
    simp only [List.map_cons, List.map_nil, List.cons_append, List.nil_append]
    rw [decodeQTokens_byte]
    unfold decodeStep
    rw [if_pos h1]
    simp only [hofn]
    rfl
  · rw [if_neg h1]
    by_cases h2 : c.toNat < 0x800
    · rw [if_pos h2]
      simp only [List.map_cons, List.map_nil, List.cons_append, List.nil_append]
      rw [decodeQTokens_byte]
      unfold decodeStep
      rw [if_neg (by omega), if_neg (by omega), if_pos (by omega)]
      have hcont : isCont (0x80 + c.toNat % 64) = true := by
        unfold isCont
        simp only [Bool.and_eq_true, decide_eq_true_eq]
        omega
      simp only [hcont, if_true]
      have hn : (0xC0 + c.toNat / 64 - 0xC0) * 64 + (0x80 + c.toNat % 64 - 0x80) = c.toNat := by
        omega
      rw [hn, hofn]; rfl
    · rw [if_neg h2]
      by_cases h3 : c.toNat < 0x10000
      · rw [if_pos h3]
        simp only [List.map_cons, List.map_nil, List.cons_append, List.nil_append]
        rw [decodeQTokens_byte]
        unfold decodeStep
        rw [if_neg (by omega), if_neg (by omega), if_neg (by omega), if_pos (by omega)]
        have hc3 : cont3First (0xE0 + c.toNat / 4096) (0x80 + c.toNat / 64 % 64) = true := by
          unfold cont3First isCont
          by_cases he : c.toNat / 4096 = 0
          · rw [if_pos (by simp [he])]
            simp only [Bool.and_eq_true, decide_eq_true_eq]
            omega
          · rw [if_neg (by simp; omega)]
            by_cases hd : c.toNat / 4096 = 13
            · rw [if_pos (by simp [hd])]
              simp only [Bool.and_eq_true, decide_eq_true_eq]
              omega
            · rw [if_neg (by simp; omega)]
              simp only [Bool.and_eq_true, decide_eq_true_eq]
              omega
        have hc2 : isCont (0x80 + c.toNat % 64) = true := by
          unfold isCont
          simp only [Bool.and_eq_true, decide_eq_true_eq]
          omega
        simp only [hc3, hc2, Bool.and_self, if_true]
        have hn : (0xE0 + c.toNat / 4096 - 0xE0) * 4096 + (0x80 + c.toNat / 64 % 64 - 0x80) * 64 +
            (0x80 + c.toNat % 64 - 0x80) = c.toNat := by
          omega
        rw [hn, hofn]; rfl
      · rw [if_neg h3]
        simp only [List.map_cons, List.map_nil, List.cons_append, List.nil_append]
        rw [decodeQTokens_byte]
        unfold decodeStep
        rw [if_neg (by omega), if_neg (by omega), if_neg (by omega), if_neg (by omega),
          if_pos (by omega)]
        have hc4 : cont4First (0xF0 + c.toNat / 262144) (0x80 + c.toNat / 4096 % 64) = true := by
          unfold cont4First isCont
          by_cases he : c.toNat / 262144 = 0
          · rw [if_pos (by simp [he])]
            simp only [Bool.and_eq_true, decide_eq_true_eq]
            omega
          · rw [if_neg (by simp; omega)]
            by_cases hd : c.toNat / 262144 = 4
            · rw [if_pos (by simp [hd])]
              simp only [Bool.and_eq_true, decide_eq_true_eq]
              omega
            · rw [if_neg (by simp; omega)]
              simp only [Bool.and_eq_true, decide_eq_true_eq]
              omega
        have hc2 : isCont (0x80 + c.toNat / 64 % 64) = true := by
          unfold isCont
          simp only [Bool.and_eq_true, decide_eq_true_eq]
          omega
        have hc3 : isCont (0x80 + c.toNat % 64) = true := by
          unfold isCont
          simp only [Bool.and_eq_true, decide_eq_true_eq]
          omega
        simp only [hc4, hc2, hc3, Bool.and_self, if_true]
        have hn : (0xF0 + c.toNat / 262144 - 0xF0) * 262144 +
            (0x80 + c.toNat / 4096 % 64 - 0x80) * 4096 +
            (0x80 + c.toNat / 64 % 64 - 0x80) * 64 + (0x80 + c.toNat % 64 - 0x80) = c.toNat := by
          omega
        rw [hn, hofn]; rfl

theorem utf8Bytes_lt (c : Char) : ∀ b ∈ utf8Bytes c, b < 256 := by
  have hv := char_valid_nat c
  unfold utf8Bytes
  intro b hb
  by_cases h1 : c.toNat < 0x80
  · rw [if_pos h1] at hb; simp at hb; omega
  · rw [if_neg h1] at hb
    by_cases h2 : c.toNat < 0x800
    · rw [if_pos h2] at hb; simp at hb; rcases hb with hb | hb <;> omega
    · rw [if_neg h2] at hb
      by_cases h3 : c.toNat < 0x10000
      · rw [if_pos h3] at hb; simp at hb; rcases hb with hb | hb | hb <;> omega
      · rw [if_neg h3] at hb; simp at hb; rcases hb with hb | hb | hb | hb <;> omega

theorem hexUpper_ne (x : Nat) (h : x < 16) :
    hexDigitUpper x ≠ '+' ∧ hexDigitUpper x ≠ '%' := by
  interval_cases x <;> exact ⟨by decide, by decide⟩

theorem plusToSpace_append (a b : List Char) :
    plusToSpace (a ++ b) = plusToSpace a ++ plusToSpace b := List.map_append _ a b

theorem plusToSpace_pctEncodeByte (b : Nat) (h : b < 256) :
    plusToSpace (pctEncodeByte b) = pctEncodeByte b := by
  have h1 := hexUpper_ne (b / 16) (by omega)
  have h2 := hexUpper_ne (b % 16) (by omega)
  unfold pctEncodeByte plusToSpace
  simp [h1.1, h2.1]

theorem plusToSpace_pctChunks (bs : List Nat) (h : ∀ b ∈ bs, b < 256) :
    plusToSpace ((bs.map pctEncodeByte).flatten) = (bs.map pctEncodeByte).flatten := by
  induction bs with
  | nil => rfl
  | cons b rest ih =>
    simp only [List.map_cons, List.flatten_cons, plusToSpace_append]
    rw [plusToSpace_pctEncodeByte b (h b (by simp)),
      ih (fun x hx => h x (by simp [hx]))]

theorem pctTokens_pctChunks (bs : List Nat) (h : ∀ b ∈ bs, b < 256) (tail : List Char) :
    pctTokens ((bs.map pctEncodeByte).flatten ++ tail) =
      bs.map QTok.byte ++ pctTokens tail := by
  induction bs with
  | nil => rfl
  | cons b rest ih =>
    simp only [List.map_cons, List.flatten_cons, List.append_assoc, List.cons_append]
    rw [pctTokens_triple b (h b (by simp)) _, ih (fun x hx => h x (by simp [hx]))]

theorem roundtrip_aux (l : List Char) :
    decodeQTokens (pctTokens (plusToSpace ((l.map quotePlusChar).flatten))) = l := by
  induction l with
  | nil => rfl
  | cons c rest ih =>
    simp only [List.map_cons, List.flatten_cons, plusToSpace_append]
    by_cases hsp : c = ' '
    · subst hsp
      have h1 : plusToSpace (quotePlusChar ' ') = [' '] := by decide
      rw [h1, List.cons_append, List.nil_append,
        pctTokens_cons_ne ' ' (by decide), decodeQTokens_ch, ih]
    · by_cases hsafe : isSafeChar c
      · have hpct : c ≠ '%' := by
          intro hc; subst hc; exact absurd hsafe (by decide)
        have hplus : (c == '+') = false := by
          by_cases hc : c = '+'
          · subst hc; exact absurd hsafe (by decide)
          · simp [hc]
        have h1 : plusToSpace (quotePlusChar c) = [c] := by
          unfold quotePlusChar plusToSpace
          rw [if_neg (by simp [hsp]), if_pos hsafe]
          simp only [plusToSpace, List.map_cons, List.map_nil, hplus, Bool.false_eq_true,
            if_false]
        rw [h1, List.cons_append, List.nil_append,
          pctTokens_cons_ne c hpct, decodeQTokens_ch, ih]
      · have h1 : plusToSpace (quotePlusChar c) = ((utf8Bytes c).map pctEncodeByte).flatten := by
          unfold quotePlusChar
          rw [if_neg (by simp [hsp]), if_neg hsafe]
          exact plusToSpace_pctChunks _ (utf8Bytes_lt c)
        rw [h1, pctTokens_pctChunks _ (utf8Bytes_lt c), decode_utf8Bytes, ih]

theorem unquote_plus_quote_plus (s : String) : unquote_plus (quote_plus s) = s := by
  unfold unquote_plus quote_plus
  rw [show (String.mk ((s.data.map quotePlusChar).flatten)).data =
    (s.data.map quotePlusChar).flatten from rfl, roundtrip_aux]

theorem char_toNat_ofNat (n : Nat) (h : n < 0xD800) : (Char.ofNat n).toNat = n := by
  unfold Char.ofNat
  rw [dif_pos (by left; omega : Nat.isValidChar n)]
  show (UInt32.ofNatCore n _).toNat = n
  simp [UInt32.toNat, UInt32.ofNatCore, BitVec.toNat_ofNatLt]

theorem quote_plus_chars (s : String) : ∀ x ∈ (quote_plus s).data, qencOK x := by
  show ∀ x ∈ (s.data.map quotePlusChar).flatten, qencOK x
  intro x hx
  rw [List.mem_flatten] at hx
  obtain ⟨l, hl, hxl⟩ := hx
  rw [List.mem_map] at hl
  obtain ⟨c, -, hc⟩ := hl
  subst hc
  unfold quotePlusChar at hxl
  by_cases h1 : c = ' '
  · rw [if_pos (by simp [h1])] at hxl
    simp at hxl
    right; left; exact hxl
  · rw [if_neg (by simp [h1])] at hxl
    by_cases h2 : isSafeChar c
    · rw [if_pos h2] at hxl
      simp at hxl
      left; rw [hxl]; exact h2
    · rw [if_neg h2] at hxl
      rw [List.mem_flatten] at hxl
      obtain ⟨l2, hl2, hxl2⟩ := hxl
      rw [List.mem_map] at hl2
      obtain ⟨b, hb, hbl⟩ := hl2
      subst hbl
      unfold pctEncodeByte at hxl2
      have hblt := utf8Bytes_lt c b hb
      simp at hxl2
      rcases hxl2 with h | h | h
      · right; right; left; exact h
      · subst h
        unfold hexDigitUpper
        by_cases hx10 : b / 16 < 10
        · rw [if_pos hx10]
          right; right; right; left
          constructor <;> [skip; skip] <;>
            rw [show (Char.ofNat (48 + b / 16)).toNat = 48 + b / 16 from by
              rw [char_toNat_ofNat _ (by omega)]] <;> omega
        · rw [if_neg hx10]
          right; right; right; right
          constructor <;>
            rw [show (Char.ofNat (55 + b / 16)).toNat = 55 + b / 16 from by
              rw [char_toNat_ofNat _ (by omega)]] <;> omega
      · subst h
        unfold hexDigitUpper
        by_cases hx10 : b % 16 < 10
        · rw [if_pos hx10]
          right; right; right; left
          constructor <;>
            rw [show (Char.ofNat (48 + b % 16)).toNat = 48 + b % 16 from by
              rw [char_toNat_ofNat _ (by omega)]] <;> omega
        · rw [if_neg hx10]
          right; right; right; right
          constructor <;>
            rw [show (Char.ofNat (55 + b % 16)).toNat = 55 + b % 16 from by
              rw [char_toNat_ofNat _ (by omega)]] <;> omega

theorem qencOK_ne (x : Char) (h : qencOK x) :
    x ≠ '&' ∧ x ≠ '=' ∧ x ≠ '#' ∧ x ≠ '?' ∧ x ≠ ':' ∧ x ≠ '/' ∧ x ≠ ';' ∧
      ¬ x.toNat ≤ 0x20 := by
  have hd : ∀ y : Char, ¬ qencOK y → x ≠ y := fun y hy he => hy (he ▸ h)
  refine ⟨hd _ (by unfold qencOK; decide), hd _ (by unfold qencOK; decide),
    hd _ (by unfold qencOK; decide), hd _ (by unfold qencOK; decide),
    hd _ (by unfold qencOK; decide), hd _ (by unfold qencOK; decide),
    hd _ (by unfold qencOK; decide), ?_⟩
  intro hle
  rcases h with h | h | h | h | h
  · simp only [isSafeChar, isAsciiAlphaCh, isAsciiDigitCh, Bool.or_eq_true, Bool.and_eq_true,
      decide_eq_true_eq, beq_iff_eq] at h
    rcases h with ((((h | h) | h) | h) | h) | h
    · rcases h with h | h <;> omega
    · omega
    · subst h; exact absurd hle (by decide)
    · subst h; exact absurd hle (by decide)
    · subst h; exact absurd hle (by decide)
    · subst h; exact absurd hle (by decide)
  · subst h; exact absurd hle (by decide)
  · subst h; exact absurd hle (by decide)
  · omega
  · omega

theorem splitListOn_no_sep (sep : Char) (l : List Char) (h : sep ∉ l) :
    splitListOn sep l = [l] := by
  induction l with
  | nil => rfl
  | cons c rest ih =>
    have hc : (c == sep) = false := by
      simp only [beq_eq_false_iff_ne, ne_eq]
      intro he; exact h (by simp [he])
    unfold splitListOn
    rw [hc]
    simp only [Bool.false_eq_true, if_false]
    rw [ih (fun hm => h (by simp [hm]))]

theorem splitListOn_append_sep (sep : Char) (x t : List Char) (h : sep ∉ x) :
    splitListOn sep (x ++ sep :: t) = x :: splitListOn sep t := by
  induction x with
  | nil =>
    show splitListOn sep (sep :: t) = [] :: splitListOn sep t
    conv_lhs => rw [splitListOn]
    simp
  | cons c rest ih =>
    have hc : (c == sep) = false := by
      simp only [beq_eq_false_iff_ne, ne_eq]
      intro he; exact h (by simp [he])
    rw [List.cons_append]
    show (if (c == sep) = true then [] :: splitListOn sep (rest ++ sep :: t)
      else match splitListOn sep (rest ++ sep :: t) with
        | [] => [[c]]
        | g :: gs => (c :: g) :: gs) = (c :: rest) :: splitListOn sep t
    rw [hc]
    simp only [Bool.false_eq_true, if_false]
    rw [ih (fun hm => h (by simp [hm]))]

theorem joinWith_sep_ne (sep : Char) (ps : List (List Char)) (hps : ∀ p ∈ ps, sep ∉ p)
    (hne : ps ≠ []) : splitListOn sep (joinWith [sep] ps) = ps := by
  induction ps with
  | nil => exact absurd rfl hne
  | cons x rest ih =>
    cases rest with
    | nil =>
      show splitListOn sep x = [x]
      exact splitListOn_no_sep sep x (hps x (by simp))
    | cons y rest2 =>
      have hj : joinWith [sep] (x :: y :: rest2) = x ++ sep :: joinWith [sep] (y :: rest2) := by
        show x ++ [sep] ++ joinWith [sep] (y :: rest2) = x ++ sep :: joinWith [sep] (y :: rest2)
        rw [List.append_assoc]
        rfl
      rw [hj, splitListOn_append_sep sep x _ (hps x (by simp)),
        ih (fun p hp => hps p (by simp [hp])) (by simp)]

theorem splitAtFirst_append (sep : Char) (a b : List Char) (h : sep ∉ a) :
    splitAtFirst sep (a ++ sep :: b) = some (a, b) := by
  induction a with
  | nil => simp [splitAtFirst]
  | cons c rest ih =>
    have hc : c ≠ sep := by intro he; exact h (by simp [he])
    simp [splitAtFirst, hc, ih (fun hm => h (by simp [hm]))]

theorem quote_plus_ne_empty (s : String) (h : s ≠ "") : (quote_plus s).data ≠ [] := by
  show (s.data.map quotePlusChar).flatten ≠ []
  cases hd : s.data with
  | nil => exact absurd (by cases s; simp at hd; simp [hd]) h
  | cons c rest =>
    simp only [List.map_cons, List.flatten_cons]
    intro hf
    rw [List.append_eq_nil] at hf
    have h1 := hf.1
    unfold quotePlusChar at h1
    by_cases hsp : c = ' '
    · rw [if_pos (by simp [hsp])] at h1; exact List.noConfusion h1
    · rw [if_neg (by simp [hsp])] at h1
      by_cases hsf : isSafeChar c
      · rw [if_pos hsf] at h1; exact List.noConfusion h1
      · rw [if_neg hsf] at h1
        unfold utf8Bytes at h1
        by_cases c1 : c.toNat < 0x80
        · rw [if_pos c1] at h1
          simp [pctEncodeByte] at h1
        · rw [if_neg c1] at h1
          by_cases c2 : c.toNat < 0x800
          · rw [if_pos c2] at h1; simp [pctEncodeByte] at h1
          · rw [if_neg c2] at h1
            by_cases c3 : c.toNat < 0x10000
            · rw [if_pos c3] at h1; simp [pctEncodeByte] at h1
            · rw [if_neg c3] at h1; simp [pctEncodeByte] at h1

theorem parsePiece_encoded (k v : String) (hv : v ≠ "") :
    parsePiece ((quote_plus k).data ++ '=' :: (quote_plus v).data) = some (k, v) := by
  have hknoeq : ('=' : Char) ∉ (quote_plus k).data := by
    intro hm
    exact (qencOK_ne _ (quote_plus_chars k _ hm)).2.1 rfl
  unfold parsePiece
  rw [if_neg (by simp), splitAtFirst_append _ _ _ hknoeq]
  show (if (quote_plus v).data = [] then none
    else some (unquote_plus (String.mk (quote_plus k).data),
      unquote_plus (String.mk (quote_plus v).data))) = some (k, v)
  rw [if_neg (quote_plus_ne_empty v hv)]
  have hk : unquote_plus (String.mk (quote_plus k).data) = k := by
    rw [show String.mk (quote_plus k).data = quote_plus k from rfl]
    exact unquote_plus_quote_plus k
  have hvv : unquote_plus (String.mk (quote_plus v).data) = v := by
    rw [show String.mk (quote_plus v).data = quote_plus v from rfl]
    exact unquote_plus_quote_plus v
  rw [hk, hvv]

theorem filterMap_encoded_chunk (k : String) (vs : List String) (h : ∀ v ∈ vs, v ≠ "") :
    List.filterMap parsePiece
      (vs.map (fun v => (quote_plus k).data ++ '=' :: (quote_plus v).data)) =
      vs.map (fun v => (k, v)) := by
  induction vs with
  | nil => rfl
  | cons v rest ih =>
    simp only [List.map_cons, List.filterMap_cons, parsePiece_encoded k v (h v (by simp))]
    rw [ih (fun x hx => h x (by simp [hx]))]

theorem piece_ne_empty (k v : String) :
    (quote_plus k).data ++ '=' :: (quote_plus v).data ≠ [] := by
  simp

theorem piece_no_amp (k v : String) :
    ('&' : Char) ∉ (quote_plus k).data ++ '=' :: (quote_plus v).data := by
  intro hm
  rw [List.mem_append] at hm
  rcases hm with hm | hm
  · exact (qencOK_ne _ (quote_plus_chars k _ hm)).1 rfl
  · rw [List.mem_cons] at hm
    rcases hm with hm | hm
    · exact absurd hm (by decide)
    · exact (qencOK_ne _ (quote_plus_chars v _ hm)).1 rfl

theorem joinWith_ne_empty (sep : List Char) (ps : List (List Char)) (p0 : List Char)
    (hp : ps = p0 :: ps.tail) (h0 : p0 ≠ []) : joinWith sep ps ≠ [] := by
  rw [hp]
  cases hps : ps.tail with
  | nil => exact h0
  | cons q rest =>
    show p0 ++ sep ++ joinWith sep (q :: rest) ≠ []
    simp [h0]

theorem parse_qsl_urlencode (D : List (String × List String))
    (hvstr : ∀ kv ∈ D, ∀ v ∈ kv.2, v ≠ "")
    (hd0 : ∃ k0 vs0 Dr, D = (k0, vs0) :: Dr ∧ vs0 ≠ []) :
    parse_qsl (urlencode D) =
      (D.map (fun kv => kv.2.map (fun v => (kv.1, v)))).flatten := by
  obtain ⟨k0, vs0, Dr, hD, hvs0⟩ := hd0
  have hpieces :
      ∀ p ∈ (D.map (fun kv => kv.2.map
        (fun v => (quote_plus kv.1).data ++ '=' :: (quote_plus v).data))).flatten,
        ('&' : Char) ∉ p := by
    intro p hp
    rw [List.mem_flatten] at hp
    obtain ⟨l, hl, hpl⟩ := hp
    rw [List.mem_map] at hl
    obtain ⟨kv, -, hkv⟩ := hl
    subst hkv
    rw [List.mem_map] at hpl
    obtain ⟨v, -, hv⟩ := hpl
    subst hv
    exact piece_no_amp kv.1 v
  have hne : (D.map (fun kv => kv.2.map
      (fun v => (quote_plus kv.1).data ++ '=' :: (quote_plus v).data))).flatten ≠ [] := by
    rw [hD]
    obtain ⟨v0, vr, hv0⟩ := List.exists_cons_of_ne_nil hvs0
    rw [hv0]
    simp
  have hjoin : joinWith ['&'] ((D.map (fun kv => kv.2.map
      (fun v => (quote_plus kv.1).data ++ '=' :: (quote_plus v).data))).flatten) ≠ [] := by
    obtain ⟨p0, pr, hp0⟩ := List.exists_cons_of_ne_nil hne
    refine joinWith_ne_empty _ _ p0 (by rw [hp0]; rfl) ?_
    have : p0 ∈ (D.map (fun kv => kv.2.map
        (fun v => (quote_plus kv.1).data ++ '=' :: (quote_plus v).data))).flatten := by
      rw [hp0]; simp
    rw [List.mem_flatten] at this
    obtain ⟨l, hl, hpl⟩ := this
    rw [List.mem_map] at hl
    obtain ⟨kv, -, hkv⟩ := hl
    subst hkv
    rw [List.mem_map] at hpl
    obtain ⟨v, -, hv⟩ := hpl
    subst hv
    exact piece_ne_empty kv.1 v
  unfold parse_qsl urlencode
  rw [if_neg (by
    intro hemp
    exact hjoin (congrArg String.data hemp))]
  show (splitListOn '&' (joinWith ['&'] _)).filterMap parsePiece = _
  rw [joinWith_sep_ne '&' _ hpieces hne]
  clear hjoin hne hpieces hD hvs0
  clear k0 vs0 Dr
  induction D with
  | nil => rfl
  | cons kv Dr2 ih =>
    simp only [List.map_cons, List.flatten_cons, List.filterMap_append]
    rw [filterMap_encoded_chunk kv.1 kv.2 (fun v hv => hvstr kv (by simp) v hv),
      ih (fun kv2 h2 v hv => hvstr kv2 (by simp [h2]) v hv)]

theorem qsAdd_fold_same (k : String) (vs acc : List String) :
    (vs.map (fun v => (k, v))).foldl (fun d kv => qsAdd d kv.1 kv.2) [(k, acc)] =
      [(k, acc ++ vs)] := by
  induction vs generalizing acc with
  | nil => simp
  | cons v rest ih =>
    simp only [List.map_cons, List.foldl_cons]
    show (rest.map (fun v => (k, v))).foldl (fun d kv => qsAdd d kv.1 kv.2)
      (qsAdd [(k, acc)] k v) = _
    rw [show qsAdd [(k, acc)] k v = [(k, acc ++ [v])] from by simp [qsAdd]]
    rw [ih (acc ++ [v])]
    simp

theorem foldl_qsAdd_cons_ne (pairs : List (String × String)) (k : String)
    (vs : List String) (d : List (String × List String))
    (h : ∀ p ∈ pairs, p.1 ≠ k) :
    pairs.foldl (fun d kv => qsAdd d kv.1 kv.2) ((k, vs) :: d) =
      (k, vs) :: pairs.foldl (fun d kv => qsAdd d kv.1 kv.2) d := by
  induction pairs generalizing d with
  | nil => rfl
  | cons p rest ih =>
    simp only [List.foldl_cons]
    rw [show qsAdd ((k, vs) :: d) p.1 p.2 = (k, vs) :: qsAdd d p.1 p.2 from by
      simp [qsAdd, Ne.symm (h p (by simp))]]
    exact ih _ (fun q hq => h q (by simp [hq]))

theorem foldl_qsAdd_flatten (D : List (String × List String))
    (hdisj : D.Pairwise (fun a b => a.1 ≠ b.1)) (hne : ∀ kv ∈ D, kv.2 ≠ []) :
    ((D.map (fun kv => kv.2.map (fun v => (kv.1, v)))).flatten).foldl
      (fun d kv => qsAdd d kv.1 kv.2) [] = D := by
  induction D with
  | nil => rfl
  | cons kv Dr ih =>
    obtain ⟨k, vs⟩ := kv
    simp only [List.map_cons, List.flatten_cons, List.foldl_append]
    obtain ⟨v0, vr, hv0⟩ := List.exists_cons_of_ne_nil (show vs ≠ [] from hne (k, vs) (by simp))
    have hchunk : (vs.map (fun v => (k, v))).foldl (fun d kv => qsAdd d kv.1 kv.2) [] =
        [(k, vs)] := by
      rw [hv0]
      simp only [List.map_cons, List.foldl_cons]
      show (vr.map (fun v => (k, v))).foldl (fun d kv => qsAdd d kv.1 kv.2) [(k, [v0])] = _
      rw [qsAdd_fold_same k vr [v0]]
      simp
    rw [hchunk]
    have hkeys : ∀ p ∈ (Dr.map (fun kv => kv.2.map (fun v => (kv.1, v)))).flatten,
        p.1 ≠ k := by
      intro p hp
      rw [List.mem_flatten] at hp
      obtain ⟨l, hl, hpl⟩ := hp
      rw [List.mem_map] at hl
      obtain ⟨kv2, hkv2, hkvl⟩ := hl
      subst hkvl
      rw [List.mem_map] at hpl
      obtain ⟨v, -, hv⟩ := hpl
      subst hv
      exact Ne.symm ((List.pairwise_cons.mp hdisj).1 kv2 hkv2)
    rw [foldl_qsAdd_cons_ne _ k vs [] hkeys]
    rw [ih (List.pairwise_cons.mp hdisj).2 (fun q hq => hne q (by simp [hq]))]

theorem parse_qs_urlencode (D : List (String × List String))
    (hdisj : D.Pairwise (fun a b => a.1 ≠ b.1))
    (hne : ∀ kv ∈ D, kv.2 ≠ [])
    (hvstr : ∀ kv ∈ D, ∀ v ∈ kv.2, v ≠ "")
    (hD : D ≠ []) :
    parse_qs (urlencode D) = D := by
  obtain ⟨kv0, Dr, hDc⟩ := List.exists_cons_of_ne_nil hD
  unfold parse_qs
  rw [parse_qsl_urlencode D hvstr
    ⟨kv0.1, kv0.2, Dr, by rw [hDc], hne kv0 (by rw [hDc]; simp)⟩]
  exact foldl_qsAdd_flatten D hdisj hne

theorem updateParams_lookup_head (qp : List (String × List String)) (c k v : String)
    (hm : (k, v) ∈ params_to_add c) :
    ∃ vs, qpLookup (updateParams qp c) k = some vs ∧ vs.headD "" = v := by
  have hform : ∀ (pre post : List (String × String)),
      params_to_add c = pre ++ (k, v) :: post →
      (∀ kv ∈ pre, kv.1 ≠ k) → (∀ kv ∈ post, kv.1 ≠ k) →
      (k ∈ fixedKeys ∨ k = "utm_campaign" ∨ k = "tf_campaign") →
      ∃ vs, qpLookup (updateParams qp c) k = some vs ∧ vs.headD "" = v := by
    intro pre post heq hpre hpost hkind
    have h := foldl_update_lookup pre post qp k v hpre hpost hkind
    rw [show updateParams qp c = (pre ++ (k, v) :: post).foldl updateParamStep qp from by
      rw [updateParams, heq]]
    refine ⟨_, h, ?_⟩
    cases hq : qpLookup qp k with
    | none => simp
    | some vs =>
      simp only
      split
      · next hh => exact hh
      · simp
  simp only [params_to_add, List.mem_cons, List.not_mem_nil, or_false, Prod.mk.injEq] at hm
  rcases hm with ⟨rfl, rfl⟩ | ⟨rfl, rfl⟩ | ⟨rfl, rfl⟩ | ⟨rfl, rfl⟩ | ⟨rfl, rfl⟩ | ⟨rfl, rfl⟩
  · exact hform [] [("utm_medium", "paid"), ("utm_campaign", c), ("tf_source", "tiktok"),
      ("tf_medium", "paid_social"), ("tf_campaign", c)] rfl (by simp)
      (by intro kv hkv; simp at hkv
          rcases hkv with h | h | h | h | h <;> simp [h]) (Or.inl (by decide))
  · exact hform [("utm_source", "tiktok")] [("utm_campaign", c), ("tf_source", "tiktok"),
      ("tf_medium", "paid_social"), ("tf_campaign", c)] rfl
      (by intro kv hkv; simp at hkv; simp [hkv])
      (by intro kv hkv; simp at hkv
          rcases hkv with h | h | h | h <;> simp [h]) (Or.inl (by decide))
  · exact hform [("utm_source", "tiktok"), ("utm_medium", "paid")] [("tf_source", "tiktok"),
      ("tf_medium", "paid_social"), ("tf_campaign", v)] rfl
      (by intro kv hkv; simp at hkv; rcases hkv with h | h <;> simp [h])
      (by intro kv hkv; simp at hkv
          rcases hkv with h | h | h <;> simp [h]) (Or.inr (Or.inl rfl))
  · exact hform [("utm_source", "tiktok"), ("utm_medium", "paid"), ("utm_campaign", c)]
      [("tf_medium", "paid_social"), ("tf_campaign", c)] rfl
      (by intro kv hkv; simp at hkv; rcases hkv with h | h | h <;> simp [h])
      (by intro kv hkv; simp at hkv
          rcases hkv with h | h <;> simp [h]) (Or.inl (by decide))
  · exact hform [("utm_source", "tiktok"), ("utm_medium", "paid"), ("utm_campaign", c),
      ("tf_source", "tiktok")] [("tf_campaign", c)] rfl
      (by intro kv hkv; simp at hkv; rcases hkv with h | h | h | h <;> simp [h])
      (by intro kv hkv; simp at hkv; simp [hkv]) (Or.inl (by decide))
  · exact hform [("utm_source", "tiktok"), ("utm_medium", "paid"), ("utm_campaign", v),
      ("tf_source", "tiktok"), ("tf_medium", "paid_social")] [] rfl
      (by intro kv hkv; simp at hkv; rcases hkv with h | h | h | h | h <;> simp [h])
      (by intro kv hkv; simp at hkv) (Or.inr (Or.inr rfl))

theorem updateParamStep_fix (qp : List (String × List String)) (kv : String × String)
    (h : ∃ vs, qpLookup qp kv.1 = some vs ∧ vs.headD "" = kv.2) :
    updateParamStep qp kv = qp := by
  obtain ⟨vs, hq, hh⟩ := h
  unfold updateParamStep
  rw [hq]
  show (if vs.headD "" ≠ kv.2 ∧ kv.1 ∈ fixedKeys then qpSet qp kv.1 [kv.2]
    else if (kv.1 = "utm_campaign" ∨ kv.1 = "tf_campaign") ∧ vs.headD "" ≠ kv.2 then
      qpSet qp kv.1 [kv.2] else qp) = qp
  rw [if_neg (by rw [hh]; simp), if_neg (by rw [hh]; simp)]

theorem foldl_update_fix (ps : List (String × String)) (D : List (String × List String))
    (h : ∀ kv ∈ ps, ∃ vs, qpLookup D kv.1 = some vs ∧ vs.headD "" = kv.2) :
    ps.foldl updateParamStep D = D := by
  induction ps with
  | nil => rfl
  | cons kv rest ih =>
    rw [List.foldl_cons, updateParamStep_fix D kv (h kv (by simp))]
    exact ih (fun q hq => h q (by simp [hq]))

theorem updateParams_idem (qp : List (String × List String)) (c : String) :
    updateParams (updateParams qp c) c = updateParams qp c := by
  show (params_to_add c).foldl updateParamStep (updateParams qp c) = updateParams qp c
  exact foldl_update_fix _ _ (fun kv hkv => by
    obtain ⟨vs, h1, h2⟩ := updateParams_lookup_head qp c kv.1 kv.2 hkv
    exact ⟨vs, h1, h2⟩)

theorem qsAdd_mem_keys (d : List (String × List String)) (k v : String) :
    ∀ p ∈ qsAdd d k v, p.1 = k ∨ ∃ q ∈ d, p.1 = q.1 := by
  induction d with
  | nil => intro p hp; simp [qsAdd] at hp; simp [hp]
  | cons kv0 rest ih =>
    obtain ⟨k0, vs0⟩ := kv0
    intro p hp
    by_cases h : k0 = k
    · simp [qsAdd, h] at hp
      rcases hp with hp | hp
      · right; exact ⟨(k0, vs0), by simp, by simp [hp, h]⟩
      · right; exact ⟨p, by simp [hp], rfl⟩
    · simp [qsAdd, h] at hp
      rcases hp with hp | hp
      · right; exact ⟨(k0, vs0), by simp, by simp [hp]⟩
      · rcases ih p hp with hk | ⟨q, hq, hpq⟩
        · left; exact hk
        · right; exact ⟨q, by simp [hq], hpq⟩

theorem qsAdd_pairwise (d : List (String × List String)) (k v : String)
    (h : d.Pairwise (fun a b => a.1 ≠ b.1)) :
    (qsAdd d k v).Pairwise (fun a b => a.1 ≠ b.1) := by
  induction d with
  | nil => simp [qsAdd]
  | cons kv0 rest ih =>
    obtain ⟨k0, vs0⟩ := kv0
    rw [List.pairwise_cons] at h
    by_cases hk : k0 = k
    · show List.Pairwise _ (if k0 = k then (k0, vs0 ++ [v]) :: rest else
        (k0, vs0) :: qsAdd rest k v)
      rw [if_pos hk]
      rw [List.pairwise_cons]
      exact ⟨h.1, h.2⟩
    · show List.Pairwise _ (if k0 = k then (k0, vs0 ++ [v]) :: rest else
        (k0, vs0) :: qsAdd rest k v)
      rw [if_neg hk]
      rw [List.pairwise_cons]
      refine ⟨?_, ih h.2⟩
      intro p hp
      rcases qsAdd_mem_keys rest k v p hp with h1 | ⟨q, hq, hpq⟩
      · rw [h1]; exact fun he => hk he
      · rw [hpq]; exact h.1 q hq

theorem parse_qs_pairwise (qs : String) :
    (parse_qs qs).Pairwise (fun a b => a.1 ≠ b.1) := by
  unfold parse_qs
  generalize parse_qsl qs = ps
  suffices h : ∀ (d : List (String × List String)), d.Pairwise (fun a b => a.1 ≠ b.1) →
      (ps.foldl (fun d kv => qsAdd d kv.1 kv.2) d).Pairwise (fun a b => a.1 ≠ b.1) by
    exact h [] (by simp)
  induction ps with
  | nil => intro d hd; simpa using hd
  | cons p rest ih =>
    intro d hd
    rw [List.foldl_cons]
    exact ih _ (qsAdd_pairwise d p.1 p.2 hd)

theorem qpSet_mem_keys (d : List (String × List String)) (k : String) (vs : List String) :
    ∀ p ∈ qpSet d k vs, p.1 = k ∨ ∃ q ∈ d, p.1 = q.1 := by
  induction d with
  | nil => intro p hp; simp [qpSet] at hp; simp [hp]
  | cons kv0 rest ih =>
    obtain ⟨k0, vs0⟩ := kv0
    intro p hp
    by_cases h : k0 = k
    · simp [qpSet, h] at hp
      rcases hp with hp | hp
      · right; exact ⟨(k0, vs0), by simp, by simp [hp, h]⟩
      · right; exact ⟨p, by simp [hp], rfl⟩
    · simp [qpSet, h] at hp
      rcases hp with hp | hp
      · right; exact ⟨(k0, vs0), by simp, by simp [hp]⟩
      · rcases ih p hp with hk | ⟨q, hq, hpq⟩
        · left; exact hk
        · right; exact ⟨q, by simp [hq], hpq⟩

theorem qpSet_pairwise (d : List (String × List String)) (k : String) (vs : List String)
    (h : d.Pairwise (fun a b => a.1 ≠ b.1)) :
    (qpSet d k vs).Pairwise (fun a b => a.1 ≠ b.1) := by
  induction d with
  | nil => simp [qpSet]
  | cons kv0 rest ih =>
    obtain ⟨k0, vs0⟩ := kv0
    rw [List.pairwise_cons] at h
    show List.Pairwise _ (if k0 = k then (k0, vs) :: rest else (k0, vs0) :: qpSet rest k vs)
    by_cases hk : k0 = k
    · rw [if_pos hk, List.pairwise_cons]
      exact ⟨h.1, h.2⟩
    · rw [if_neg hk, List.pairwise_cons]
      refine ⟨?_, ih h.2⟩
      intro p hp
      rcases qpSet_mem_keys rest k vs p hp with h1 | ⟨q, hq, hpq⟩
      · rw [h1]; exact fun he => hk he
      · rw [hpq]; exact h.1 q hq

theorem updateParamStep_pairwise (qp : List (String × List String)) (kv : String × String)
    (h : qp.Pairwise (fun a b => a.1 ≠ b.1)) :
    (updateParamStep qp kv).Pairwise (fun a b => a.1 ≠ b.1) := by
  unfold updateParamStep
  cases qpLookup qp kv.1 with
  | none => exact qpSet_pairwise qp kv.1 [kv.2] h
  | some vs =>
    show List.Pairwise _ (if vs.headD "" ≠ kv.2 ∧ kv.1 ∈ fixedKeys then qpSet qp kv.1 [kv.2]
      else if (kv.1 = "utm_campaign" ∨ kv.1 = "tf_campaign") ∧ vs.headD "" ≠ kv.2 then
        qpSet qp kv.1 [kv.2] else qp)
    split
    · exact qpSet_pairwise qp kv.1 [kv.2] h
    · split
      · exact qpSet_pairwise qp kv.1 [kv.2] h
      · exact h

theorem updateParams_pairwise (qp : List (String × List String)) (c : String)
    (h : qp.Pairwise (fun a b => a.1 ≠ b.1)) :
    (updateParams qp c).Pairwise (fun a b => a.1 ≠ b.1) := by
  show ((params_to_add c).foldl updateParamStep qp).Pairwise _
  generalize params_to_add c = ps
  induction ps generalizing qp with
  | nil => exact h
  | cons kv rest ih =>
    rw [List.foldl_cons]
    exact ih _ (updateParamStep_pairwise qp kv h)

theorem pctTokens_ne_nil (l : List Char) (h : l ≠ []) : pctTokens l ≠ [] := by
  rw [pctTokens.eq_def]
  split
  · simp_all
  · split <;> simp
  · simp
  · simp

theorem unquote_plus_ne_empty (s : String) (h : s.data ≠ []) : unquote_plus s ≠ "" := by
  unfold unquote_plus
  intro he
  have hdata : decodeQTokens (pctTokens (plusToSpace s.data)) = [] := congrArg String.data he
  have h1 : plusToSpace s.data ≠ [] := by unfold plusToSpace; simp [h]
  have h2 := pctTokens_ne_nil _ h1
  cases htk : pctTokens (plusToSpace s.data) with
  | nil => exact h2 htk
  | cons t rest =>
    rw [htk] at hdata
    cases t with
    | ch c => rw [decodeQTokens_ch] at hdata; exact List.noConfusion hdata
    | byte b => rw [decodeQTokens_byte] at hdata; exact List.noConfusion hdata

theorem parsePiece_val_ne (p : List Char) (kv : String × String)
    (h : parsePiece p = some kv) : kv.2 ≠ "" := by
  unfold parsePiece at h
  by_cases hp : p = []
  · rw [if_pos hp] at h; exact Option.noConfusion h
  · rw [if_neg hp] at h
    cases hs : splitAtFirst '=' p with
    | none => rw [hs] at h; exact Option.noConfusion h
    | some ab =>
      rw [hs] at h
      obtain ⟨n, vl⟩ := ab
      have h2 : (if vl = [] then none
        else some (unquote_plus (String.mk n), unquote_plus (String.mk vl))) = some kv := h
      by_cases hv : vl = []
      · rw [if_pos hv] at h2; exact Option.noConfusion h2
      · rw [if_neg hv] at h2
        have h3 := Option.some.inj h2
        rw [← h3]
        exact unquote_plus_ne_empty _ hv

theorem parse_qsl_val_ne (qs : String) : ∀ kv ∈ parse_qsl qs, kv.2 ≠ "" := by
  unfold parse_qsl
  by_cases hq : qs = ""
  · rw [if_pos hq]; simp
  · rw [if_neg hq]
    intro kv hkv
    rw [List.mem_filterMap] at hkv
    obtain ⟨p, -, hp⟩ := hkv
    exact parsePiece_val_ne p kv hp

theorem qsAdd_val_str (d : List (String × List String)) (k v : String)
    (hd : ∀ kv ∈ d, ∀ x ∈ kv.2, x ≠ "") (hv : v ≠ "") :
    ∀ kv ∈ qsAdd d k v, ∀ x ∈ kv.2, x ≠ "" := by
  induction d with
  | nil =>
    intro kv hkv x hx
    simp [qsAdd] at hkv
    rw [hkv] at hx
    simp at hx
    rw [hx]; exact hv
  | cons kv0 rest ih =>
    obtain ⟨k0, vs0⟩ := kv0
    intro kv hkv x hx
    by_cases h : k0 = k
    · simp [qsAdd, h] at hkv
      rcases hkv with hkv | hkv
      · rw [hkv] at hx
        simp at hx
        rcases hx with hx | hx
        · exact hd (k0, vs0) (by simp) x (by simp [hx])
        · rw [hx]; exact hv
      · exact hd kv (by simp [hkv]) x hx
    · simp [qsAdd, h] at hkv
      rcases hkv with hkv | hkv
      · exact hd kv (by simp [hkv]) x hx
      · exact ih (fun q hq y hy => hd q (by simp [hq]) y hy) kv hkv x hx

theorem parse_qs_val_str (qs : String) : ∀ kv ∈ parse_qs qs, ∀ x ∈ kv.2, x ≠ "" := by
  unfold parse_qs
  have hps := parse_qsl_val_ne qs
  generalize hg : parse_qsl qs = ps at hps
  clear hg
  suffices h : ∀ (d : List (String × List String)), (∀ kv ∈ d, ∀ x ∈ kv.2, x ≠ "") →
      ∀ kv ∈ ps.foldl (fun d kv => qsAdd d kv.1 kv.2) d, ∀ x ∈ kv.2, x ≠ "" by
    exact h [] (by simp)
  induction ps with
  | nil => intro d hd; simpa using hd
  | cons p rest ih =>
    intro d hd
    rw [List.foldl_cons]
    exact ih (fun q hq => hps q (by simp [hq]))
      _ (qsAdd_val_str d p.1 p.2 hd (hps p (by simp)))

theorem qpSet_val_str (d : List (String × List String)) (k : String) (vs : List String)
    (hd : ∀ kv ∈ d, ∀ x ∈ kv.2, x ≠ "") (hvs : ∀ x ∈ vs, x ≠ "") :
    ∀ kv ∈ qpSet d k vs, ∀ x ∈ kv.2, x ≠ "" := by
  induction d with
  | nil =>
    intro kv hkv x hx
    simp [qpSet] at hkv
    rw [hkv] at hx
    exact hvs x hx
  | cons kv0 rest ih =>
    obtain ⟨k0, vs0⟩ := kv0
    intro kv hkv x hx
    by_cases h : k0 = k
    · simp [qpSet, h] at hkv
      rcases hkv with hkv | hkv
      · rw [hkv] at hx; exact hvs x hx
      · exact hd kv (by simp [hkv]) x hx
    · simp [qpSet, h] at hkv
      rcases hkv with hkv | hkv
      · exact hd kv (by simp [hkv]) x hx
      · exact ih (fun q hq y hy => hd q (by simp [hq]) y hy) kv hkv x hx

theorem updateParamStep_val_str (qp : List (String × List String)) (kv : String × String)
    (h : ∀ p ∈ qp, ∀ x ∈ p.2, x ≠ "") (hkv : kv.2 ≠ "") :
    ∀ p ∈ updateParamStep qp kv, ∀ x ∈ p.2, x ≠ "" := by
  unfold updateParamStep
  cases qpLookup qp kv.1 with
  | none => exact qpSet_val_str qp kv.1 [kv.2] h (by simp [hkv])
  | some vs =>
    show ∀ p ∈ (if vs.headD "" ≠ kv.2 ∧ kv.1 ∈ fixedKeys then qpSet qp kv.1 [kv.2]
      else if (kv.1 = "utm_campaign" ∨ kv.1 = "tf_campaign") ∧ vs.headD "" ≠ kv.2 then
        qpSet qp kv.1 [kv.2] else qp), ∀ x ∈ p.2, x ≠ ""
    split
    · exact qpSet_val_str qp kv.1 [kv.2] h (by simp [hkv])
    · split
      · exact qpSet_val_str qp kv.1 [kv.2] h (by simp [hkv])
      · exact h

theorem updateParams_val_str (qp : List (String × List String)) (c : String)
    (hc : c ≠ "") (h : ∀ p ∈ qp, ∀ x ∈ p.2, x ≠ "") :
    ∀ p ∈ updateParams qp c, ∀ x ∈ p.2, x ≠ "" := by
  show ∀ p ∈ (params_to_add c).foldl updateParamStep qp, ∀ x ∈ p.2, x ≠ ""
  have hvals : ∀ kv ∈ params_to_add c, kv.2 ≠ "" := by
    intro kv hkv
    simp [params_to_add] at hkv
    rcases hkv with h | h | h | h | h | h <;> simp [h] <;> exact hc
  generalize hg : params_to_add c = ps at hvals
  clear hg
  induction ps generalizing qp with
  | nil => exact h
  | cons kv rest ih =>
    rw [List.foldl_cons]
    exact ih _ (updateParamStep_val_str qp kv h (hvals kv (by simp)))
      (fun q hq => hvals q (by simp [hq]))

theorem updateParams_vals_ne (qp : List (String × List String)) (c : String)
    (h : ∀ p ∈ qp, p.2 ≠ []) : ∀ p ∈ updateParams qp c, p.2 ≠ [] := by
  show ∀ p ∈ (params_to_add c).foldl updateParamStep qp, p.2 ≠ []
  generalize params_to_add c = ps
  induction ps generalizing qp with
  | nil => exact h
  | cons kv rest ih =>
    rw [List.foldl_cons]
    exact ih _ (updateParamStep_vals_ne qp kv h)

theorem query_roundtrip (q c : String) (hc : c ≠ "") :
    parse_qs (urlencode (updateParams (parse_qs q) c)) = updateParams (parse_qs q) c := by
  apply parse_qs_urlencode
  · exact updateParams_pairwise _ c (parse_qs_pairwise q)
  · exact updateParams_vals_ne _ c (parse_qs_vals_ne q)
  · exact updateParams_val_str _ c hc (parse_qs_val_str q)
  · intro hnil
    obtain ⟨vs, hvs, -⟩ := updateParams_lookup_head (parse_qs q) c "utm_source" "tiktok"
      (by simp [params_to_add])
    rw [hnil] at hvs
    exact Option.noConfusion hvs

theorem char_eq_of_toNat (a b : Char) (h : a.toNat = b.toNat) : a = b := by
  have := congrArg Char.ofNat h
  rwa [char_ofNat_toNat, char_ofNat_toNat] at this

theorem splitAtFirst_inv (sep : Char) (l : List Char) :
    ∀ a b, splitAtFirst sep l = some (a, b) → l = a ++ sep :: b ∧ sep ∉ a := by
  induction l with
  | nil => intro a b h; exact Option.noConfusion h
  | cons c rest ih =>
    intro a b h
    unfold splitAtFirst at h
    by_cases hc : c = sep
    · rw [if_pos (by simp [hc])] at h
      have h2 : (([] : List Char), rest) = (a, b) := Option.some.inj h
      obtain ⟨ha, hb⟩ := Prod.mk.injEq _ _ _ _ ▸ h2
      subst hc
      rw [← ha, ← hb]
      exact ⟨rfl, by simp⟩
    · rw [if_neg (by simp [hc])] at h
      cases hs : splitAtFirst sep rest with
      | none => rw [hs] at h; exact Option.noConfusion h
      | some ab =>
        rw [hs] at h
        obtain ⟨a0, b0⟩ := ab
        have h2 : (c :: a0, b0) = (a, b) := Option.some.inj h
        obtain ⟨ha, hb⟩ := Prod.mk.injEq _ _ _ _ ▸ h2
        obtain ⟨hl, hna⟩ := ih a0 b0 hs
        rw [← ha, ← hb]
        refine ⟨by rw [List.cons_append, hl], ?_⟩
        intro hm
        rcases List.mem_cons.mp hm with hm | hm
        · exact hc hm.symm
        · exact hna hm

theorem splitAtFirst_none_iff (sep : Char) (l : List Char) :
    splitAtFirst sep l = none ↔ sep ∉ l := by
  induction l with
  | nil => simp [splitAtFirst]
  | cons c rest ih =>
    unfold splitAtFirst
    by_cases hc : c = sep
    · rw [if_pos (by simp [hc])]
      simp [hc]
    · rw [if_neg (by simp [hc])]
      cases hs : splitAtFirst sep rest with
      | none =>
        simp only []
        constructor
        · intro _
          intro hm
          rcases List.mem_cons.mp hm with hm | hm
          · exact hc hm.symm
          · exact (ih.mp hs) hm
        · intro _; trivial
      | some ab =>
        simp only []
        constructor
        · intro h; exact Option.noConfusion h
        · intro hm
          exfalso
          have : sep ∈ rest := by
            by_contra hno
            rw [← ih] at hno
            rw [hno] at hs
            exact Option.noConfusion hs
          exact hm (by simp [this])

theorem splitAtFirst_append_left (sep : Char) (l1 l2 a b : List Char)
    (h : splitAtFirst sep l1 = some (a, b)) :
    splitAtFirst sep (l1 ++ l2) = some (a, b ++ l2) := by
  obtain ⟨hl, hna⟩ := splitAtFirst_inv sep l1 a b h
  rw [hl, List.append_assoc, List.cons_append]
  exact splitAtFirst_append sep a (b ++ l2) hna

theorem splitAtFirst_append_right (sep : Char) (l1 l2 : List Char) (h : sep ∉ l1) :
    splitAtFirst sep (l1 ++ l2) =
      (splitAtFirst sep l2).map (fun ab => (l1 ++ ab.1, ab.2)) := by
  induction l1 with
  | nil =>
    simp only [List.nil_append]
    cases splitAtFirst sep l2 with
    | none => rfl
    | some ab => rfl
  | cons c rest ih =>
    have hc : c ≠ sep := fun he => h (by simp [he])
    rw [List.cons_append]
    rw [show splitAtFirst sep (c :: (rest ++ l2)) =
      (match splitAtFirst sep (rest ++ l2) with
        | none => none
        | some (a, b) => some (c :: a, b)) from by
        conv_lhs => rw [splitAtFirst]
        rw [if_neg (by simp [hc])]]
    rw [ih (fun hm => h (by simp [hm]))]
    cases splitAtFirst sep l2 with
    | none => rfl
    | some ab => rfl

theorem splitAtLast_inv (sep : Char) (l a b : List Char)
    (h : splitAtLast sep l = some (a, b)) : l = a ++ sep :: b ∧ sep ∉ b := by
  unfold splitAtLast at h
  cases hs : splitAtFirst sep l.reverse with
  | none => rw [hs] at h; exact Option.noConfusion h
  | some ab =>
    rw [hs] at h
    obtain ⟨a0, b0⟩ := ab
    have h2 : (b0.reverse, a0.reverse) = (a, b) := Option.some.inj h
    obtain ⟨ha, hb⟩ := Prod.mk.injEq _ _ _ _ ▸ h2
    obtain ⟨hl, hna⟩ := splitAtFirst_inv sep l.reverse a0 b0 hs
    constructor
    · have := congrArg List.reverse hl
      rw [List.reverse_reverse, List.reverse_append, List.reverse_cons,
        List.append_assoc] at this
      rw [this, ← ha, ← hb]
      simp
    · rw [← hb]
      intro hm
      exact hna (by rw [List.mem_reverse] at hm; exact hm)

theorem splitAtLast_none_iff (sep : Char) (l : List Char) :
    splitAtLast sep l = none ↔ sep ∉ l := by
  unfold splitAtLast
  cases hs : splitAtFirst sep l.reverse with
  | none =>
    simp only []
    rw [splitAtFirst_none_iff] at hs
    rw [List.mem_reverse] at hs
    simp [hs]
  | some ab =>
    simp only []
    constructor
    · intro h; exact Option.noConfusion h
    · intro hm
      exfalso
      obtain ⟨hl, -⟩ := splitAtFirst_inv sep l.reverse ab.1 ab.2 (by rw [hs])
      exact hm (by rw [← List.mem_reverse, hl]; simp)

theorem splitAtLast_append (sep : Char) (a b : List Char) (h : sep ∉ b) :
    splitAtLast sep (a ++ sep :: b) = some (a, b) := by
  unfold splitAtLast
  have hrev : (a ++ sep :: b).reverse = b.reverse ++ sep :: a.reverse := by
    rw [List.reverse_append, List.reverse_cons, List.append_assoc]
    simp
  rw [hrev, splitAtFirst_append sep b.reverse a.reverse
    (fun hm => h (by rw [← List.mem_reverse]; exact hm))]
  simp

theorem takeWhile_append_all (p : Char → Bool) (a b : List Char)
    (ha : ∀ x ∈ a, p x = true) (hb : b.head?.all (fun c => !p c) = true) :
    (a ++ b).takeWhile p = a ∧ (a ++ b).dropWhile p = b := by
  induction a with
  | nil =>
    simp only [List.nil_append]
    cases b with
    | nil => exact ⟨rfl, rfl⟩
    | cons c t =>
      simp only [List.head?_cons, Option.all_some, Bool.not_eq_true'] at hb
      rw [List.takeWhile_cons, List.dropWhile_cons, hb]
      exact ⟨rfl, rfl⟩
  | cons c rest ih =>
    rw [List.cons_append, List.takeWhile_cons, List.dropWhile_cons, ha c (by simp)]
    obtain ⟨h1, h2⟩ := ih (fun x hx => ha x (by simp [hx])) 
    rw [h1, h2]
    exact ⟨rfl, rfl⟩

theorem splitScheme_slash (t : List Char) : splitScheme ('/' :: t) = ("", '/' :: t) := by
  unfold splitScheme
  cases hs : splitAtFirst ':' ('/' :: t) with
  | none => rfl
  | some ab =>
    obtain ⟨a, b⟩ := ab
    obtain ⟨hl, hna⟩ := splitAtFirst_inv ':' ('/' :: t) a b hs
    cases a with
    | nil => simp at hl
    | cons c0 cs =>
      have hc0 : c0 = '/' := by
        rw [List.cons_append] at hl
        exact (List.cons.injEq _ _ _ _ ▸ hl).1.symm
      show (if (isAsciiAlphaCh c0 && (c0 :: cs).all isSchemeChar) = true then
        (pyLower (String.mk (c0 :: cs)), b) else ("", '/' :: t)) = ("", '/' :: t)
      rw [if_neg (by rw [hc0]; simp [isAsciiAlphaCh])]

theorem splitScheme_valid (c0 : Char) (cs rest : List Char)
    (halpha : isAsciiAlphaCh c0 = true) (hall : (c0 :: cs).all isSchemeChar = true)
    (hnc : ':' ∉ c0 :: cs) :
    splitScheme ((c0 :: cs) ++ ':' :: rest) = (pyLower (String.mk (c0 :: cs)), rest) := by
  unfold splitScheme
  rw [splitAtFirst_append ':' _ _ hnc]
  show (if (isAsciiAlphaCh c0 && (c0 :: cs).all isSchemeChar) = true then
    (pyLower (String.mk (c0 :: cs)), rest) else _) = _
  rw [if_pos (by rw [halpha, hall]; rfl)]

theorem splitScheme_no_colon (l : List Char) (h : ':' ∉ l) :
    splitScheme l = ("", l) := by
  unfold splitScheme
  rw [(splitAtFirst_none_iff ':' l).mpr h]

theorem splitScheme_invalid_pre (l a b : List Char)
    (hs : splitAtFirst ':' l = some (a, b))
    (hinv : a = [] ∨ ∃ c0 cs, a = c0 :: cs ∧ (isAsciiAlphaCh c0 && a.all isSchemeChar) = false) :
    splitScheme l = ("", l) := by
  unfold splitScheme
  rw [hs]
  rcases hinv with rfl | ⟨c0, cs, rfl, hfalse⟩
  · rfl
  · show (if (isAsciiAlphaCh c0 && (c0 :: cs).all isSchemeChar) = true then
      (pyLower (String.mk (c0 :: cs)), b) else ("", l)) = ("", l)
    rw [if_neg (by rw [hfalse]; simp)]

theorem toLower_toNat (c : Char) : (Char.toLower c).toNat =
    if 65 ≤ c.toNat ∧ c.toNat ≤ 90 then c.toNat + 32 else c.toNat := by
  unfold Char.toLower
  by_cases h : c.toNat ≥ 65 ∧ c.toNat ≤ 90
  · rw [if_pos h, if_pos ⟨h.1, h.2⟩, char_toNat_ofNat _ (by omega)]
  · rw [if_neg h, if_neg (fun hh => h ⟨hh.1, hh.2⟩)]

theorem toLower_idem (c : Char) : Char.toLower (Char.toLower c) = Char.toLower c := by
  apply char_eq_of_toNat
  have h1 := toLower_toNat c
  have h2 := toLower_toNat (Char.toLower c)
  by_cases h : 65 ≤ c.toNat ∧ c.toNat ≤ 90
  · rw [if_pos h] at h1
    rw [h2, h1, if_neg (by omega)]
  · rw [if_neg h] at h1
    rw [h2, h1, if_neg h]

theorem pyLower_idem (s : String) : pyLower (pyLower s) = pyLower s := by
  unfold pyLower
  show String.mk ((s.data.map Char.toLower).map Char.toLower) = _
  rw [List.map_map]
  have hcomp : Char.toLower ∘ Char.toLower = Char.toLower := by
    funext c
    exact toLower_idem c
  rw [hcomp]

theorem isSchemeChar_toLower (c : Char) (h : isSchemeChar c = true) :
    isSchemeChar (Char.toLower c) = true := by
  unfold isSchemeChar isAsciiAlphaCh isAsciiDigitCh at h ⊢
  simp only [Bool.or_eq_true, Bool.and_eq_true, decide_eq_true_eq, beq_iff_eq] at h ⊢
  have htn := toLower_toNat c
  by_cases hr : 65 ≤ c.toNat ∧ c.toNat ≤ 90
  · rw [if_pos hr] at htn
    left; left; left; left; right
    omega
  · rw [if_neg hr] at htn
    rcases h with ((((h | h) | h) | h) | h) | h
    · exact absurd h hr
    · left; left; left; left; right; omega
    · left; left; left; right; omega
    · subst h; left; left; right; decide
    · subst h; left; right; decide
    · subst h; right; decide

theorem isAsciiAlphaCh_toLower (c : Char) (h : isAsciiAlphaCh c = true) :
    isAsciiAlphaCh (Char.toLower c) = true := by
  unfold isAsciiAlphaCh at h ⊢
  simp only [Bool.or_eq_true, Bool.and_eq_true, decide_eq_true_eq] at h ⊢
  have htn := toLower_toNat c
  by_cases hr : 65 ≤ c.toNat ∧ c.toNat ≤ 90
  · rw [if_pos hr] at htn
    right; omega
  · rw [if_neg hr] at htn
    rcases h with h | h
    · exact absurd h hr
    · right; omega

theorem splitParams_join (l : List Char) :
    splitParams (if (splitParams l).2 = [] then (splitParams l).1
      else (splitParams l).1 ++ ';' :: (splitParams l).2) = splitParams l := by
  cases hsl : splitAtLast '/' l with
  | some ba =>
    obtain ⟨bef, aft⟩ := ba
    obtain ⟨hldec, hnos⟩ := splitAtLast_inv '/' l bef aft hsl
    cases hsf : splitAtFirst ';' aft with
    | some a12 =>
      obtain ⟨a1, a2⟩ := a12
      obtain ⟨haft, hna1⟩ := splitAtFirst_inv ';' aft a1 a2 hsf
      have hns1 : ('/' : Char) ∉ a1 := by
        intro hm; exact hnos (by rw [haft]; simp [hm])
      have hns2 : ('/' : Char) ∉ a2 := by
        intro hm; exact hnos (by rw [haft]; simp [hm])
      have hsp : splitParams l = (bef ++ '/' :: a1, a2) := by
        simp only [splitParams, hsl, hsf]
      rw [hsp]
      by_cases ha2 : a2 = []
      · rw [if_pos ha2]
        subst ha2
        simp only [splitParams, splitAtLast_append '/' bef a1 hns1,
          (splitAtFirst_none_iff ';' a1).mpr hna1]
      · rw [if_neg ha2]
        have hre : (bef ++ '/' :: a1) ++ ';' :: a2 = bef ++ '/' :: (a1 ++ ';' :: a2) := by
          simp
        rw [hre]
        have hns12 : ('/' : Char) ∉ a1 ++ ';' :: a2 := by
          intro hm
          rcases List.mem_append.mp hm with hm | hm
          · exact hns1 hm
          · rcases List.mem_cons.mp hm with hm | hm
            · exact absurd hm (by decide)
            · exact hns2 hm
        simp only [splitParams, splitAtLast_append '/' bef (a1 ++ ';' :: a2) hns12,
          splitAtFirst_append ';' a1 a2 hna1]
    | none =>
      have hsp : splitParams l = (l, []) := by
        simp only [splitParams, hsl, hsf]
      rw [hsp]
      rw [if_pos rfl]
      exact hsp
  | none =>
    have hnl : ('/' : Char) ∉ l := (splitAtLast_none_iff '/' l).mp hsl
    cases hsf : splitAtFirst ';' l with
    | some ab =>
      obtain ⟨a, b⟩ := ab
      obtain ⟨hld, hna⟩ := splitAtFirst_inv ';' l a b hsf
      have hnla : ('/' : Char) ∉ a := by
        intro hm; exact hnl (by rw [hld]; simp [hm])
      have hnlb : ('/' : Char) ∉ b := by
        intro hm; exact hnl (by rw [hld]; simp [hm])
      have hsp : splitParams l = (a, b) := by
        simp only [splitParams, hsl, hsf]
      rw [hsp]
      by_cases hb : b = []
      · rw [if_pos hb]
        subst hb
        simp only [splitParams, (splitAtLast_none_iff '/' a).mpr hnla,
          (splitAtFirst_none_iff ';' a).mpr hna]
      · rw [if_neg hb]
        have hnl2 : ('/' : Char) ∉ a ++ ';' :: b := by
          intro hm
          rcases List.mem_append.mp hm with hm | hm
          · exact hnla hm
          · rcases List.mem_cons.mp hm with hm | hm
            · exact absurd hm (by decide)
            · exact hnlb hm
        simp only [splitParams, (splitAtLast_none_iff '/' (a ++ ';' :: b)).mpr hnl2,
          splitAtFirst_append ';' a b hna]
    | none =>
      have hsp : splitParams l = (l, []) := by
        simp only [splitParams, hsl, hsf]
      rw [hsp, if_pos rfl]
      exact hsp

theorem splitScheme_shape (l : List Char) :
    splitScheme l = ("", l) ∨
      ∃ c0 cs rest, l = (c0 :: cs) ++ ':' :: rest ∧ (':' : Char) ∉ c0 :: cs ∧
        isAsciiAlphaCh c0 = true ∧ (c0 :: cs).all isSchemeChar = true ∧
        splitScheme l = (pyLower (String.mk (c0 :: cs)), rest) := by
  cases hs : splitAtFirst ':' l with
  | none =>
    left
    unfold splitScheme
    rw [hs]
  | some ab =>
    obtain ⟨a, b⟩ := ab
    obtain ⟨hl, hna⟩ := splitAtFirst_inv ':' l a b hs
    cases a with
    | nil =>
      left
      unfold splitScheme
      rw [hs]
    | cons c0 cs =>
      by_cases hv : (isAsciiAlphaCh c0 && (c0 :: cs).all isSchemeChar) = true
      · right
        refine ⟨c0, cs, b, hl, hna, ?_, ?_, ?_⟩
        · exact (Bool.and_eq_true _ _ ▸ hv).1
        · exact (Bool.and_eq_true _ _ ▸ hv).2
        · unfold splitScheme
          rw [hs]
          show (if (isAsciiAlphaCh c0 && (c0 :: cs).all isSchemeChar) = true then
            (pyLower (String.mk (c0 :: cs)), b) else ("", l)) = _
          rw [if_pos hv]
      · left
        unfold splitScheme
        rw [hs]
        show (if (isAsciiAlphaCh c0 && (c0 :: cs).all isSchemeChar) = true then
          (pyLower (String.mk (c0 :: cs)), b) else ("", l)) = ("", l)
        rw [if_neg hv]

theorem splitScheme_none_inv (l a b : List Char)
    (hs : splitAtFirst ':' l = some (a, b)) (h : splitScheme l = ("", l)) :
    a = [] ∨ ∃ c0 cs, a = c0 :: cs ∧ (isAsciiAlphaCh c0 && a.all isSchemeChar) = false := by
  cases a with
  | nil => left; rfl
  | cons c0 cs =>
    right
    refine ⟨c0, cs, rfl, ?_⟩
    by_contra hv
    rw [Bool.not_eq_false] at hv
    unfold splitScheme at h
    rw [hs] at h
    have h2 : (if (isAsciiAlphaCh c0 && (c0 :: cs).all isSchemeChar) = true then
      (pyLower (String.mk (c0 :: cs)), b) else ("", l)) = ("", l) := h
    rw [if_pos hv] at h2
    have h3 := congrArg (fun p : String × List Char => p.1.data.length) h2
    simp [pyLower] at h3

theorem netlocSplit_no (x : List Char) (h : ∀ t, x ≠ '/' :: '/' :: t) :
    netlocSplit x = ("", x) := by
  unfold netlocSplit
  split
  · rename_i rest
    exact absurd rfl (h rest)
  · rfl

theorem netlocSplit_slash2 (t : List Char) :
    netlocSplit ('/' :: '/' :: t) =
      (String.mk (t.takeWhile (fun c => !isNetlocEnd c)),
        t.dropWhile (fun c => !isNetlocEnd c)) := rfl

theorem dropWhile_shape (p : Char → Bool) (t : List Char) :
    t.dropWhile p = [] ∨ ∃ c r, t.dropWhile p = c :: r ∧ p c = false := by
  induction t with
  | nil => left; rfl
  | cons c rest ih =>
    rw [List.dropWhile_cons]
    by_cases hc : p c = true
    · rw [if_pos hc]; exact ih
    · rw [if_neg hc]
      right
      exact ⟨c, rest, rfl, by simp at hc; exact hc⟩

theorem dropWhile_eq_self_of_head (p : Char → Bool) (l : List Char)
    (h : ∀ c, l.head? = some c → p c = false) : l.dropWhile p = l := by
  cases l with
  | nil => rfl
  | cons c rest =>
    rw [List.dropWhile_cons, if_neg (by rw [h c rfl]; simp)]

theorem splitParams_rejoin_eq (l : List Char) :
    (if (splitParams l).2 = [] then (splitParams l).1
      else (splitParams l).1 ++ ';' :: (splitParams l).2) = l ∨
    (if (splitParams l).2 = [] then (splitParams l).1
      else (splitParams l).1 ++ ';' :: (splitParams l).2) ++ [';'] = l := by
  cases hsl : splitAtLast '/' l with
  | some ba =>
    obtain ⟨bef, aft⟩ := ba
    obtain ⟨hldec, -⟩ := splitAtLast_inv '/' l bef aft hsl
    cases hsf : splitAtFirst ';' aft with
    | some a12 =>
      obtain ⟨a1, a2⟩ := a12
      obtain ⟨haft, -⟩ := splitAtFirst_inv ';' aft a1 a2 hsf
      have hsp : splitParams l = (bef ++ '/' :: a1, a2) := by
        simp only [splitParams, hsl, hsf]
      rw [hsp]
      by_cases ha2 : a2 = []
      · right
        rw [if_pos ha2]
        rw [hldec, haft, ha2]
        simp
      · left
        rw [if_neg ha2]
        rw [hldec, haft]
        simp
    | none =>
      have hsp : splitParams l = (l, []) := by
        simp only [splitParams, hsl, hsf]
      left
      rw [hsp, if_pos rfl]
  | none =>
    cases hsf : splitAtFirst ';' l with
    | some ab =>
      obtain ⟨a, b⟩ := ab
      obtain ⟨hld, -⟩ := splitAtFirst_inv ';' l a b hsf
      have hsp : splitParams l = (a, b) := by
        simp only [splitParams, hsl, hsf]
      rw [hsp]
      by_cases hb : b = []
      · right
        rw [if_pos hb, hld, hb]
      · left
        rw [if_neg hb, hld]
    | none =>
      have hsp : splitParams l = (l, []) := by
        simp only [splitParams, hsl, hsf]
      left
      rw [hsp, if_pos rfl]

theorem urlparsePy_eq (s : String) :
    urlparsePy s = urlparseList (removeTabCrLf (s.data.dropWhile isC0OrSpace)) := rfl

theorem toLower_notab (c : Char) (h : ¬(c = '\t' ∨ c = '\r' ∨ c = '\n')) :
    ¬(Char.toLower c = '\t' ∨ Char.toLower c = '\r' ∨ Char.toLower c = '\n') := by
  have htn := toLower_toNat c
  intro hcon
  by_cases hr : 65 ≤ c.toNat ∧ c.toNat ≤ 90
  · rw [if_pos hr] at htn
    rcases hcon with hc | hc | hc <;>
      (have h2 := congrArg Char.toNat hc; rw [htn] at h2) <;>
      [rw [show ('\t' : Char).toNat = 9 from rfl] at h2;
       rw [show ('\r' : Char).toNat = 13 from rfl] at h2;
       rw [show ('\n' : Char).toNat = 10 from rfl] at h2] <;> omega
  · rw [if_neg hr] at htn
    apply h
    rcases hcon with hc | hc | hc
    · left; apply char_eq_of_toNat; rw [← htn, hc]
    · right; left; apply char_eq_of_toNat; rw [← htn, hc]
    · right; right; apply char_eq_of_toNat; rw [← htn, hc]

theorem all_eq_false_of_mem (p : Char → Bool) (l : List Char) (x : Char)
    (hx : x ∈ l) (hp : p x = false) : l.all p = false := by
  by_contra h
  rw [Bool.not_eq_false, List.all_eq_true] at h
  have h2 := h x hx
  rw [hp] at h2
  exact Bool.noConfusion h2

theorem tail_parse (qr1 frag : List Char) (newq : String)
    (h7 : ('?' : Char) ∉ qr1) (h3 : ('#' : Char) ∉ qr1)
    (hq2 : ∀ x ∈ newq.data, x ≠ '#' ∧ ¬ x.toNat ≤ 0x20) :
    (match splitAtFirst '#' ((if (splitParams qr1).2 = [] then (splitParams qr1).1
        else (splitParams qr1).1 ++ ';' :: (splitParams qr1).2) ++ '?' :: newq.data ++
        (if frag = [] then [] else '#' :: frag)) with
      | some ab => ab | none => ((if (splitParams qr1).2 = [] then (splitParams qr1).1
        else (splitParams qr1).1 ++ ';' :: (splitParams qr1).2) ++ '?' :: newq.data ++
        (if frag = [] then [] else '#' :: frag), [])) =
      ((if (splitParams qr1).2 = [] then (splitParams qr1).1
        else (splitParams qr1).1 ++ ';' :: (splitParams qr1).2) ++ '?' :: newq.data, frag) ∧
    (match splitAtFirst '?' ((if (splitParams qr1).2 = [] then (splitParams qr1).1
        else (splitParams qr1).1 ++ ';' :: (splitParams qr1).2) ++ '?' :: newq.data) with
      | some ab => ab | none => ((if (splitParams qr1).2 = [] then (splitParams qr1).1
        else (splitParams qr1).1 ++ ';' :: (splitParams qr1).2) ++ '?' :: newq.data, [])) =
      ((if (splitParams qr1).2 = [] then (splitParams qr1).1
        else (splitParams qr1).1 ++ ';' :: (splitParams qr1).2), newq.data) ∧
    splitParams (if (splitParams qr1).2 = [] then (splitParams qr1).1
        else (splitParams qr1).1 ++ ';' :: (splitParams qr1).2) = splitParams qr1 := by
  have hsub : ∀ x ∈ (if (splitParams qr1).2 = [] then (splitParams qr1).1
      else (splitParams qr1).1 ++ ';' :: (splitParams qr1).2), x ∈ qr1 := by
    intro x hx
    rcases splitParams_rejoin_eq qr1 with he | he
    · rw [← he]; exact hx
    · rw [← he]; simp [hx]
  have hpp7 : ('?' : Char) ∉ (if (splitParams qr1).2 = [] then (splitParams qr1).1
      else (splitParams qr1).1 ++ ';' :: (splitParams qr1).2) :=
    fun hm => h7 (hsub _ hm)
  have hpp3 : ('#' : Char) ∉ (if (splitParams qr1).2 = [] then (splitParams qr1).1
      else (splitParams qr1).1 ++ ';' :: (splitParams qr1).2) :=
    fun hm => h3 (hsub _ hm)
  have hnq3 : ('#' : Char) ∉ newq.data := by
    intro hm
    exact (hq2 _ hm).1 rfl
  have hnohash : ('#' : Char) ∉ (if (splitParams qr1).2 = [] then (splitParams qr1).1
      else (splitParams qr1).1 ++ ';' :: (splitParams qr1).2) ++ '?' :: newq.data := by
    intro hm
    rcases List.mem_append.mp hm with hm | hm
    · exact hpp3 hm
    · rcases List.mem_cons.mp hm with hm | hm
      · exact absurd hm (by decide)
      · exact hnq3 hm
  refine ⟨?_, ?_, splitParams_join qr1⟩
  · by_cases hf : frag = []
    · rw [if_pos hf, List.append_nil,
        (splitAtFirst_none_iff '#' _).mpr hnohash, hf]
    · rw [if_neg hf]
      rw [show ((if (splitParams qr1).2 = [] then (splitParams qr1).1
          else (splitParams qr1).1 ++ ';' :: (splitParams qr1).2) ++ '?' :: newq.data ++
          '#' :: frag) = ((if (splitParams qr1).2 = [] then (splitParams qr1).1
          else (splitParams qr1).1 ++ ';' :: (splitParams qr1).2) ++ '?' :: newq.data) ++
          '#' :: frag from by simp]
      rw [splitAtFirst_append '#' _ frag hnohash]
  · rw [splitAtFirst_append '?' _ newq.data hpp7]

theorem head?_append_left (a b : List Char) (h : a ≠ []) : (a ++ b).head? = a.head? := by
  cases a with
  | nil => exact absurd rfl h
  | cons c t => rfl

theorem hashSplit_decomp (sep : Char) (m : List Char) :
    ∃ a b, (match splitAtFirst sep m with | some ab => ab | none => (m, [])) = (a, b) ∧
      sep ∉ a ∧ (m = a ++ sep :: b ∨ (m = a ∧ b = [])) := by
  cases hs : splitAtFirst sep m with
  | none =>
    exact ⟨m, [], rfl, (splitAtFirst_none_iff sep m).mp hs, Or.inr ⟨rfl, rfl⟩⟩
  | some ab =>
    obtain ⟨a, b⟩ := ab
    obtain ⟨hm, hna⟩ := splitAtFirst_inv sep m a b hs
    exact ⟨a, b, rfl, hna, Or.inl hm⟩

theorem decomp_mem_left (sep : Char) (m a b : List Char)
    (h : m = a ++ sep :: b ∨ (m = a ∧ b = [])) : ∀ x ∈ a, x ∈ m := by
  intro x hx
  rcases h with h | ⟨h, -⟩
  · rw [h]; simp [hx]
  · rw [h]; exact hx

theorem decomp_mem_right (sep : Char) (m a b : List Char)
    (h : m = a ++ sep :: b ∨ (m = a ∧ b = [])) : ∀ x ∈ b, x ∈ m := by
  intro x hx
  rcases h with h | ⟨-, hb⟩
  · rw [h]; simp [hx]
  · rw [hb] at hx; exact absurd hx (List.not_mem_nil x)

theorem decomp_head (sep : Char) (m a b : List Char)
    (h : m = a ++ sep :: b ∨ (m = a ∧ b = [])) (ha : a ≠ []) : a.head? = m.head? := by
  rcases h with h | ⟨h, -⟩
  · rw [h, head?_append_left _ _ ha]
  · rw [h]

theorem take2_shape (l : List Char) (h : l.take 2 = ['/', '/']) :
    ∃ r, l = '/' :: '/' :: r := by
  cases l with
  | nil => simp at h
  | cons c1 t1 =>
    cases t1 with
    | nil => simp at h
    | cons c2 t2 =>
      simp [List.take] at h
      exact ⟨t2, by rw [h.1, h.2]⟩

theorem decomp_prefix2 (sep : Char) (m a b : List Char)
    (h : m = a ++ sep :: b ∨ (m = a ∧ b = [])) (r : List Char) (hr : a = '/' :: '/' :: r) :
    ∃ t, m = '/' :: '/' :: t := by
  rcases h with h | ⟨h, -⟩
  · rw [h, hr]; exact ⟨r ++ sep :: b, rfl⟩
  · rw [h, hr]; exact ⟨r, rfl⟩

theorem rejoin_sub (q1 : List Char) :
    ∀ x ∈ (if (splitParams q1).2 = [] then (splitParams q1).1
      else (splitParams q1).1 ++ ';' :: (splitParams q1).2), x ∈ q1 := by
  intro x hx
  rcases splitParams_rejoin_eq q1 with he | he
  · rw [← he]; exact hx
  · rw [← he]; simp [hx]

theorem rejoin_head (q1 : List Char)
    (h : (if (splitParams q1).2 = [] then (splitParams q1).1
      else (splitParams q1).1 ++ ';' :: (splitParams q1).2) ≠ []) :
    (if (splitParams q1).2 = [] then (splitParams q1).1
      else (splitParams q1).1 ++ ';' :: (splitParams q1).2).head? = q1.head? := by
  rcases splitParams_rejoin_eq q1 with he | he
  · rw [he]
  · conv_rhs => rw [← he]
    rw [head?_append_left _ _ h]

theorem rejoin_prefix2 (q1 r : List Char)
    (h : (if (splitParams q1).2 = [] then (splitParams q1).1
      else (splitParams q1).1 ++ ';' :: (splitParams q1).2) = '/' :: '/' :: r) :
    ∃ t, q1 = '/' :: '/' :: t := by
  rcases splitParams_rejoin_eq q1 with he | he
  · rw [← he, h]; exact ⟨r, rfl⟩
  · rw [← he, h]; exact ⟨r ++ [';'], rfl⟩

theorem rejoin_colon (q1 a b : List Char)
    (h : splitAtFirst ':' (if (splitParams q1).2 = [] then (splitParams q1).1
      else (splitParams q1).1 ++ ';' :: (splitParams q1).2) = some (a, b)) :
    ∃ b2, splitAtFirst ':' q1 = some (a, b2) := by
  rcases splitParams_rejoin_eq q1 with he | he
  · rw [← he]; exact ⟨b, h⟩
  · rw [← he]
    exact ⟨b ++ [';'], splitAtFirst_append_left ':' _ [';'] a b h⟩

theorem splitScheme_free_tail (pp X l : List Char)
    (hss : splitScheme l = ("", l))
    (hsub : ∀ a b, splitAtFirst ':' pp = some (a, b) → ∃ b2, splitAtFirst ':' l = some (a, b2))
    (x1 : Char) (X2 : List Char) (hX : X = x1 :: X2) (hx1 : isSchemeChar x1 = false)
    (hx1c : x1 ≠ ':') :
    splitScheme (pp ++ X) = ("", pp ++ X) := by
  cases hc : splitAtFirst ':' pp with
  | some ab =>
    obtain ⟨a, b⟩ := ab
    obtain ⟨b2, hc2⟩ := hsub a b hc
    have hinv := splitScheme_none_inv l a b2 hc2 hss
    exact splitScheme_invalid_pre (pp ++ X) a (b ++ X)
      (splitAtFirst_append_left ':' pp X a b hc) hinv
  | none =>
    have hr := splitAtFirst_append_right ':' pp X ((splitAtFirst_none_iff ':' pp).mp hc)
    cases hcx : splitAtFirst ':' X with
    | none =>
      rw [hcx] at hr
      exact splitScheme_no_colon _ ((splitAtFirst_none_iff ':' _).mp hr)
    | some xab =>
      obtain ⟨xa, xb⟩ := xab
      rw [hcx] at hr
      obtain ⟨hXdec, hxna⟩ := splitAtFirst_inv ':' X xa xb hcx
      cases hxa : xa with
      | nil =>
        rw [hxa] at hXdec
        rw [hX] at hXdec
        simp at hXdec
        exact absurd hXdec.1 hx1c
      | cons y ys =>
        have hy : y = x1 := by
          rw [hxa] at hXdec
          rw [hX] at hXdec
          simp at hXdec
          exact hXdec.1.symm
        apply splitScheme_invalid_pre (pp ++ X) (pp ++ xa) xb hr
        right
        cases hpx : pp ++ xa with
        | nil =>
          rw [hxa] at hpx
          simp at hpx
        | cons c0 cs =>
          refine ⟨c0, cs, rfl, ?_⟩
          have hmem : x1 ∈ pp ++ xa := by
            rw [hxa, hy]
            simp
          rw [hpx] at hmem
          have hall : (c0 :: cs).all isSchemeChar = false :=
            all_eq_false_of_mem _ _ x1 hmem hx1
          rw [hall]
          simp

theorem clean_of_gt32 (x : Char) (h : ¬ x.toNat ≤ 0x20) :
    ¬(x = '\t' ∨ x = '\r' ∨ x = '\n') := by
  intro hc
  apply h
  rcases hc with hc | hc | hc <;> rw [hc] <;> decide

theorem decomp_colon (sep : Char) (m a1 b1 : List Char)
    (hd : m = a1 ++ sep :: b1 ∨ (m = a1 ∧ b1 = []))
    (x y : List Char) (h : splitAtFirst ':' a1 = some (x, y)) :
    ∃ y2, splitAtFirst ':' m = some (x, y2) := by
  rcases hd with hd | ⟨hd, -⟩
  · rw [hd]; exact ⟨y ++ sep :: b1, splitAtFirst_append_left ':' a1 (sep :: b1) x y h⟩
  · rw [hd]; exact ⟨y, h⟩

theorem append_no_slash2 (pp : List Char) (X : List Char) (x1 : Char) (X2 : List Char)
    (hX : X = x1 :: X2) (hx1 : x1 ≠ '/') (hpp : ∀ r, pp ≠ '/' :: '/' :: r) :
    ∀ t, pp ++ X ≠ '/' :: '/' :: t := by
  intro t ht
  cases pp with
  | nil =>
    rw [hX] at ht
    simp at ht
    exact hx1 ht.1
  | cons c1 pp1 =>
    cases pp1 with
    | nil =>
      rw [hX] at ht
      simp at ht
      exact hx1 ht.2.1
    | cons c2 pp2 =>
      simp at ht
      exact hpp pp2 (by rw [ht.1, ht.2.1])

theorem core_B2 (l : List Char) (newq : String)
    (hclean : ∀ x ∈ l, ¬(x = '\t' ∨ x = '\r' ∨ x = '\n'))
    (hhead : ∀ c, l.head? = some c → isC0OrSpace c = false)
    (hq1 : newq.data ≠ []) (hq2 : ∀ x ∈ newq.data, x ≠ '#' ∧ ¬ x.toNat ≤ 0x20)
    (hss : splitScheme l = ("", l))
    (hnl : ∀ t, l ≠ '/' :: '/' :: t) :
    urlparsePy (assembleUrl { (urlparseList l).1 with query := newq }) =
      ({ (urlparseList l).1 with query := newq }, false) := by
  obtain ⟨f1, f2, hFeq, hf_na, hf_dec⟩ := hashSplit_decomp '#' l
  obtain ⟨q1, q2, hQeq, hq_na, hq_dec⟩ := hashSplit_decomp '?' f1
  have hq_nh : ('#' : Char) ∉ q1 := fun hm => hf_na (decomp_mem_left '?' f1 q1 q2 hq_dec _ hm)
  have hq_subl : ∀ x ∈ q1, x ∈ l := fun x hx =>
    decomp_mem_left '#' l f1 f2 hf_dec x (decomp_mem_left '?' f1 q1 q2 hq_dec x hx)
  have hf2_subl : ∀ x ∈ f2, x ∈ l := decomp_mem_right '#' l f1 f2 hf_dec
  have hP : urlparseList l = (⟨"", "", String.mk (splitParams q1).1,
      String.mk (splitParams q1).2, String.mk q2, String.mk f2⟩, false) := by
    simp only [urlparseList, hss, netlocSplit_no l hnl, hFeq, hQeq]
    rfl
  obtain ⟨ht1, ht2, ht3⟩ := tail_parse q1 f2 newq hq_na hq_nh hq2
  have htake2 : ∀ r, (if (splitParams q1).2 = [] then (splitParams q1).1
      else (splitParams q1).1 ++ ';' :: (splitParams q1).2) ≠ '/' :: '/' :: r := by
    intro r hr
    obtain ⟨t1, ht⟩ := rejoin_prefix2 q1 r hr
    obtain ⟨t2, ht2x⟩ := decomp_prefix2 '?' f1 q1 q2 hq_dec t1 ht
    obtain ⟨t3, ht3x⟩ := decomp_prefix2 '#' l f1 f2 hf_dec t2 ht2x
    exact hnl t3 ht3x
  have hasm : assembleUrl { (urlparseList l).1 with query := newq } =
      String.mk ((if (splitParams q1).2 = [] then (splitParams q1).1
        else (splitParams q1).1 ++ ';' :: (splitParams q1).2) ++ '?' :: newq.data ++
        (if f2 = [] then [] else '#' :: f2)) := by
    rw [hP]
    simp only [assembleUrl]
    by_cases hf2 : f2 = []
    · rw [if_neg (by simp [hf2])]
      rw [if_pos hq1]
      rw [if_neg (by intro hcon; exact hcon rfl)]
      rw [if_neg (by
        intro hcon
        rcases hcon with hcon | hcon
        · exact hcon rfl
        · obtain ⟨r, hr⟩ := take2_shape _ hcon
          exact htake2 r hr)]
      rw [if_pos hf2, List.append_nil]
    · rw [if_pos (by simp [hf2])]
      rw [if_pos hq1]
      rw [if_neg (by intro hcon; exact hcon rfl)]
      rw [if_neg (by
        intro hcon
        rcases hcon with hcon | hcon
        · exact hcon rfl
        · obtain ⟨r, hr⟩ := take2_shape _ hcon
          exact htake2 r hr)]
      rw [if_neg hf2]
  rw [hasm, urlparsePy_eq]
  have hLsub : ∀ x ∈ (if (splitParams q1).2 = [] then (splitParams q1).1
      else (splitParams q1).1 ++ ';' :: (splitParams q1).2) ++ '?' :: newq.data ++
      (if f2 = [] then [] else '#' :: f2), ¬(x = '\t' ∨ x = '\r' ∨ x = '\n') := by
    intro x hx
    rcases List.mem_append.mp hx with hx | hx
    · rcases List.mem_append.mp hx with hx | hx
      · exact hclean x (hq_subl x (rejoin_sub q1 x hx))
      · rcases List.mem_cons.mp hx with hx | hx
        · rw [hx]; decide
        · exact clean_of_gt32 x (hq2 x hx).2
    · by_cases hf2 : f2 = []
      · rw [if_pos hf2] at hx
        exact absurd hx (List.not_mem_nil x)
      · rw [if_neg hf2] at hx
        rcases List.mem_cons.mp hx with hx | hx
        · rw [hx]; decide
        · exact hclean x (hf2_subl x hx)
  have hLhead : ∀ c, ((if (splitParams q1).2 = [] then (splitParams q1).1
      else (splitParams q1).1 ++ ';' :: (splitParams q1).2) ++ '?' :: newq.data ++
      (if f2 = [] then [] else '#' :: f2)).head? = some c → isC0OrSpace c = false := by
    intro c hc
    by_cases hpp0 : (if (splitParams q1).2 = [] then (splitParams q1).1
        else (splitParams q1).1 ++ ';' :: (splitParams q1).2) = []
    · rw [List.append_assoc _ ('?' :: newq.data) _, hpp0, List.nil_append] at hc
      simp at hc
      rw [← hc]
      decide
    · rw [List.append_assoc _ ('?' :: newq.data) _,
        head?_append_left _ _ hpp0, rejoin_head q1 hpp0] at hc
      have hq1ne : q1 ≠ [] := by
        intro hq1e
        rw [hq1e] at hc
        exact Option.noConfusion hc
      have hc2 : l.head? = some c := by
        rw [← decomp_head '#' l f1 f2 hf_dec, ← decomp_head '?' f1 q1 q2 hq_dec hq1ne]
        · exact hc
        · intro hf1e
          rcases hq_dec with hd | ⟨hd, -⟩ <;> rw [hd] at hf1e
          · simp at hf1e
          · exact hq1ne hf1e
      exact hhead c hc2
  rw [show (String.mk ((if (splitParams q1).2 = [] then (splitParams q1).1
      else (splitParams q1).1 ++ ';' :: (splitParams q1).2) ++ '?' :: newq.data ++
      (if f2 = [] then [] else '#' :: f2))).data = ((if (splitParams q1).2 = []
      then (splitParams q1).1 else (splitParams q1).1 ++ ';' :: (splitParams q1).2) ++
      '?' :: newq.data ++ (if f2 = [] then [] else '#' :: f2)) from rfl]
  rw [dropWhile_eq_self_of_head isC0OrSpace _ (by
    intro c hc
    exact hLhead c hc)]
  rw [show removeTabCrLf ((if (splitParams q1).2 = [] then (splitParams q1).1
      else (splitParams q1).1 ++ ';' :: (splitParams q1).2) ++ '?' :: newq.data ++
      (if f2 = [] then [] else '#' :: f2)) = ((if (splitParams q1).2 = []
      then (splitParams q1).1 else (splitParams q1).1 ++ ';' :: (splitParams q1).2) ++
      '?' :: newq.data ++ (if f2 = [] then [] else '#' :: f2)) from by
    unfold removeTabCrLf
    apply List.filter_eq_self.mpr
    intro x hx
    have h3 := hLsub x hx
    have h1 : x ≠ '\t' := fun he => h3 (Or.inl he)
    have h2 : x ≠ '\r' := fun he => h3 (Or.inr (Or.inl he))
    have h4 : x ≠ '\n' := fun he => h3 (Or.inr (Or.inr he))
    simp [h1, h2, h4]]
  have hsch2 : splitScheme ((if (splitParams q1).2 = [] then (splitParams q1).1
      else (splitParams q1).1 ++ ';' :: (splitParams q1).2) ++ '?' :: newq.data ++
      (if f2 = [] then [] else '#' :: f2)) = ("", (if (splitParams q1).2 = []
      then (splitParams q1).1 else (splitParams q1).1 ++ ';' :: (splitParams q1).2) ++
      '?' :: newq.data ++ (if f2 = [] then [] else '#' :: f2)) := by
    rw [List.append_assoc _ ('?' :: newq.data) _]
    exact splitScheme_free_tail _ _ l hss (fun a b hab => by
      obtain ⟨b2, h2⟩ := rejoin_colon q1 a b hab
      obtain ⟨b3, h3⟩ := decomp_colon '?' f1 q1 q2 hq_dec a b2 h2
      exact decomp_colon '#' l f1 f2 hf_dec a b3 h3)
      '?' (newq.data ++ (if f2 = [] then [] else '#' :: f2)) rfl (by decide) (by decide)
  have hnet2 : netlocSplit ((if (splitParams q1).2 = [] then (splitParams q1).1
      else (splitParams q1).1 ++ ';' :: (splitParams q1).2) ++ '?' :: newq.data ++
      (if f2 = [] then [] else '#' :: f2)) = ("", (if (splitParams q1).2 = []
      then (splitParams q1).1 else (splitParams q1).1 ++ ';' :: (splitParams q1).2) ++
      '?' :: newq.data ++ (if f2 = [] then [] else '#' :: f2)) := by
    apply netlocSplit_no
    rw [List.append_assoc _ ('?' :: newq.data) _]
    exact append_no_slash2 _ _ '?' (newq.data ++ (if f2 = [] then [] else '#' :: f2))
      rfl (by decide) htake2
  conv_rhs => rw [hP]
  simp only [urlparseList, hsch2, hnet2, ht1, ht2, ht3]
  rfl

theorem toLower_eq_colon (c : Char) (h : Char.toLower c = ':') : c = ':' := by
  have htn := toLower_toNat c
  by_cases hr : 65 ≤ c.toNat ∧ c.toNat ≤ 90
  · rw [if_pos hr] at htn
    have h2 := congrArg Char.toNat h
    rw [htn] at h2
    rw [show (':' : Char).toNat = 58 from rfl] at h2
    omega
  · rw [if_neg hr] at htn
    apply char_eq_of_toNat
    rw [← htn, h]

theorem alpha_not_space (c : Char) (h : isAsciiAlphaCh c = true) : isC0OrSpace c = false := by
  unfold isAsciiAlphaCh at h
  unfold isC0OrSpace
  simp only [Bool.or_eq_true, Bool.and_eq_true, decide_eq_true_eq] at h
  simp only [decide_eq_false_iff_not]
  omega

theorem core_A2 (l : List Char) (newq : String) (c0 : Char) (cs rest : List Char)
    (hclean : ∀ x ∈ l, ¬(x = '\t' ∨ x = '\r' ∨ x = '\n'))
    (hq1 : newq.data ≠ []) (hq2 : ∀ x ∈ newq.data, x ≠ '#' ∧ ¬ x.toNat ≤ 0x20)
    (hldec : l = (c0 :: cs) ++ ':' :: rest) (hnc : (':' : Char) ∉ c0 :: cs)
    (halpha : isAsciiAlphaCh c0 = true) (hall : (c0 :: cs).all isSchemeChar = true)
    (hss : splitScheme l = (pyLower (String.mk (c0 :: cs)), rest))
    (hnl : ∀ t, rest ≠ '/' :: '/' :: t) :
    urlparsePy (assembleUrl { (urlparseList l).1 with query := newq }) =
      ({ (urlparseList l).1 with query := newq }, false) := by
  obtain ⟨f1, f2, hFeq, hf_na, hf_dec⟩ := hashSplit_decomp '#' rest
  obtain ⟨q1, q2, hQeq, hq_na, hq_dec⟩ := hashSplit_decomp '?' f1
  have hq_nh : ('#' : Char) ∉ q1 := fun hm => hf_na (decomp_mem_left '?' f1 q1 q2 hq_dec _ hm)
  have hq_subl : ∀ x ∈ q1, x ∈ l := fun x hx => by
    rw [hldec]
    have hx2 : x ∈ rest := decomp_mem_left '#' rest f1 f2 hf_dec x
      (decomp_mem_left '?' f1 q1 q2 hq_dec x hx)
    simp [hx2]
  have hf2_subl : ∀ x ∈ f2, x ∈ l := fun x hx => by
    rw [hldec]
    have hx2 : x ∈ rest := decomp_mem_right '#' rest f1 f2 hf_dec x hx
    simp [hx2]
  have hnetr : netlocSplit rest = ("", rest) := netlocSplit_no rest hnl
  have hP : urlparseList l = (⟨pyLower (String.mk (c0 :: cs)), "",
      String.mk (splitParams q1).1, String.mk (splitParams q1).2,
      String.mk q2, String.mk f2⟩, false) := by
    simp only [urlparseList, hss, hnetr, hFeq, hQeq]
    rfl
  obtain ⟨ht1, ht2, ht3⟩ := tail_parse q1 f2 newq hq_na hq_nh hq2
  have htake2 : ∀ r, (if (splitParams q1).2 = [] then (splitParams q1).1
      else (splitParams q1).1 ++ ';' :: (splitParams q1).2) ≠ '/' :: '/' :: r := by
    intro r hr
    obtain ⟨t1, ht⟩ := rejoin_prefix2 q1 r hr
    obtain ⟨t2, ht2x⟩ := decomp_prefix2 '?' f1 q1 q2 hq_dec t1 ht
    obtain ⟨t3, ht3x⟩ := decomp_prefix2 '#' rest f1 f2 hf_dec t2 ht2x
    exact hnl t3 ht3x
  have hasm : assembleUrl { (urlparseList l).1 with query := newq } =
      String.mk ((pyLower (String.mk (c0 :: cs))).data ++ ':' ::
        ((if (splitParams q1).2 = [] then (splitParams q1).1
          else (splitParams q1).1 ++ ';' :: (splitParams q1).2) ++ '?' :: newq.data ++
          (if f2 = [] then [] else '#' :: f2))) := by
    rw [hP]
    simp only [assembleUrl]
    by_cases hf2 : f2 = []
    · rw [if_neg (by simp [hf2])]
      rw [if_pos hq1]
      rw [if_pos (by
        show (pyLower (String.mk (c0 :: cs))).data ≠ []
        exact fun hcon => List.noConfusion hcon)]
      rw [if_neg (by
        intro hcon
        rcases hcon with hcon | hcon
        · exact hcon rfl
        · obtain ⟨r, hr⟩ := take2_shape _ hcon
          exact htake2 r hr)]
      rw [if_pos hf2, List.append_nil]
      congr 1
      simp only [List.append_assoc, List.cons_append]
    · rw [if_pos (by simp [hf2])]
      rw [if_pos hq1]
      rw [if_pos (by
        show (pyLower (String.mk (c0 :: cs))).data ≠ []
        exact fun hcon => List.noConfusion hcon)]
      rw [if_neg (by
        intro hcon
        rcases hcon with hcon | hcon
        · exact hcon rfl
        · obtain ⟨r, hr⟩ := take2_shape _ hcon
          exact htake2 r hr)]
      rw [if_neg hf2]
      congr 1
      simp only [List.append_assoc, List.cons_append]
  rw [hasm, urlparsePy_eq]
  have hLsub : ∀ x ∈ (if (splitParams q1).2 = [] then (splitParams q1).1
      else (splitParams q1).1 ++ ';' :: (splitParams q1).2) ++ '?' :: newq.data ++
      (if f2 = [] then [] else '#' :: f2), ¬(x = '\t' ∨ x = '\r' ∨ x = '\n') := by
    intro x hx
    rcases List.mem_append.mp hx with hx | hx
    · rcases List.mem_append.mp hx with hx | hx
      · exact hclean x (hq_subl x (rejoin_sub q1 x hx))
      · rcases List.mem_cons.mp hx with hx | hx
        · rw [hx]; decide
        · exact clean_of_gt32 x (hq2 x hx).2
    · by_cases hf2 : f2 = []
      · rw [if_pos hf2] at hx
        exact absurd hx (List.not_mem_nil x)
      · rw [if_neg hf2] at hx
        rcases List.mem_cons.mp hx with hx | hx
        · rw [hx]; decide
        · exact hclean x (hf2_subl x hx)
  rw [show (String.mk ((pyLower (String.mk (c0 :: cs))).data ++ ':' ::
      ((if (splitParams q1).2 = [] then (splitParams q1).1
        else (splitParams q1).1 ++ ';' :: (splitParams q1).2) ++ '?' :: newq.data ++
        (if f2 = [] then [] else '#' :: f2)))).data =
      ((pyLower (String.mk (c0 :: cs))).data ++ ':' ::
      ((if (splitParams q1).2 = [] then (splitParams q1).1
        else (splitParams q1).1 ++ ';' :: (splitParams q1).2) ++ '?' :: newq.data ++
        (if f2 = [] then [] else '#' :: f2))) from rfl]
  rw [dropWhile_eq_self_of_head isC0OrSpace _ (by
    intro c hc
    rw [show (pyLower (String.mk (c0 :: cs))).data = Char.toLower c0 :: cs.map Char.toLower
      from rfl] at hc
    rw [List.cons_append, List.head?_cons] at hc
    have hc2 : c = Char.toLower c0 := (Option.some.inj hc).symm
    rw [hc2]
    exact alpha_not_space _ (isAsciiAlphaCh_toLower c0 halpha))]
  rw [show removeTabCrLf ((pyLower (String.mk (c0 :: cs))).data ++ ':' ::
      ((if (splitParams q1).2 = [] then (splitParams q1).1
        else (splitParams q1).1 ++ ';' :: (splitParams q1).2) ++ '?' :: newq.data ++
        (if f2 = [] then [] else '#' :: f2))) =
      ((pyLower (String.mk (c0 :: cs))).data ++ ':' ::
      ((if (splitParams q1).2 = [] then (splitParams q1).1
        else (splitParams q1).1 ++ ';' :: (splitParams q1).2) ++ '?' :: newq.data ++
        (if f2 = [] then [] else '#' :: f2))) from by
    unfold removeTabCrLf
    apply List.filter_eq_self.mpr
    intro x hx
    have h3 : ¬(x = '\t' ∨ x = '\r' ∨ x = '\n') := by
      rcases List.mem_append.mp hx with hx | hx
      · rw [show (pyLower (String.mk (c0 :: cs))).data = (c0 :: cs).map Char.toLower
          from rfl] at hx
        rw [List.mem_map] at hx
        obtain ⟨y, hy, hxy⟩ := hx
        rw [← hxy]
        exact toLower_notab y (hclean y (by
          rw [hldec]
          rcases List.mem_cons.mp hy with hy | hy
          · simp [hy]
          · simp [hy]))
      · rcases List.mem_cons.mp hx with hx | hx
        · rw [hx]; decide
        · exact hLsub x hx
    have h1 : x ≠ '\t' := fun he => h3 (Or.inl he)
    have h2 : x ≠ '\r' := fun he => h3 (Or.inr (Or.inl he))
    have h4 : x ≠ '\n' := fun he => h3 (Or.inr (Or.inr he))
    simp [h1, h2, h4]]
  have hall2 : (Char.toLower c0 :: cs.map Char.toLower).all isSchemeChar = true := by
    rw [show (Char.toLower c0 :: cs.map Char.toLower) = (c0 :: cs).map Char.toLower from rfl]
    apply List.all_eq_true.mpr
    intro x hx
    rw [List.mem_map] at hx
    obtain ⟨y, hy, hxy⟩ := hx
    rw [← hxy]
    exact isSchemeChar_toLower y (List.all_eq_true.mp hall y hy)
  have hnc2 : (':' : Char) ∉ Char.toLower c0 :: cs.map Char.toLower := by
    intro hm
    rw [show (Char.toLower c0 :: cs.map Char.toLower) = (c0 :: cs).map Char.toLower
      from rfl] at hm
    rw [List.mem_map] at hm
    obtain ⟨y, hy, hxy⟩ := hm
    exact hnc (by rw [toLower_eq_colon y hxy] at hy; exact hy)
  have hs1 : splitScheme ((pyLower (String.mk (c0 :: cs))).data ++ ':' ::
      ((if (splitParams q1).2 = [] then (splitParams q1).1
        else (splitParams q1).1 ++ ';' :: (splitParams q1).2) ++ '?' :: newq.data ++
        (if f2 = [] then [] else '#' :: f2))) = (pyLower (String.mk (c0 :: cs)),
      ((if (splitParams q1).2 = [] then (splitParams q1).1
        else (splitParams q1).1 ++ ';' :: (splitParams q1).2) ++ '?' :: newq.data ++
        (if f2 = [] then [] else '#' :: f2))) := by
    rw [show (pyLower (String.mk (c0 :: cs))).data = Char.toLower c0 :: cs.map Char.toLower
      from rfl]
    rw [splitScheme_valid (Char.toLower c0) (cs.map Char.toLower) _
      (isAsciiAlphaCh_toLower c0 halpha) hall2 hnc2]
    rw [show String.mk (Char.toLower c0 :: cs.map Char.toLower) =
      pyLower (String.mk (c0 :: cs)) from rfl]
    rw [pyLower_idem]
  have hnet2 : netlocSplit ((if (splitParams q1).2 = [] then (splitParams q1).1
      else (splitParams q1).1 ++ ';' :: (splitParams q1).2) ++ '?' :: newq.data ++
      (if f2 = [] then [] else '#' :: f2)) = ("", (if (splitParams q1).2 = []
      then (splitParams q1).1 else (splitParams q1).1 ++ ';' :: (splitParams q1).2) ++
      '?' :: newq.data ++ (if f2 = [] then [] else '#' :: f2)) := by
    apply netlocSplit_no
    rw [List.append_assoc _ ('?' :: newq.data) _]
    exact append_no_slash2 _ _ '?' (newq.data ++ (if f2 = [] then [] else '#' :: f2))
      rfl (by decide) htake2
  conv_rhs => rw [hP]
  simp only [urlparseList, hs1, hnet2, ht1, ht2, ht3]
  rfl

theorem splitScheme_free_tail2 (pp X : List Char)
    (hinv : ∀ a b, splitAtFirst ':' pp = some (a, b) →
      a = [] ∨ ∃ c0 cs, a = c0 :: cs ∧ (isAsciiAlphaCh c0 && a.all isSchemeChar) = false)
    (x1 : Char) (X2 : List Char) (hX : X = x1 :: X2) (hx1 : isSchemeChar x1 = false)
    (hx1c : x1 ≠ ':') :
    splitScheme (pp ++ X) = ("", pp ++ X) := by
  cases hc : splitAtFirst ':' pp with
  | some ab =>
    obtain ⟨a, b⟩ := ab
    exact splitScheme_invalid_pre (pp ++ X) a (b ++ X)
      (splitAtFirst_append_left ':' pp X a b hc) (hinv a b hc)
  | none =>
    have hr := splitAtFirst_append_right ':' pp X ((splitAtFirst_none_iff ':' pp).mp hc)
    cases hcx : splitAtFirst ':' X with
    | none =>
      rw [hcx] at hr
      exact splitScheme_no_colon _ ((splitAtFirst_none_iff ':' _).mp hr)
    | some xab =>
      obtain ⟨xa, xb⟩ := xab
      rw [hcx] at hr
      obtain ⟨hXdec, hxna⟩ := splitAtFirst_inv ':' X xa xb hcx
      cases hxa : xa with
      | nil =>
        rw [hxa] at hXdec
        rw [hX] at hXdec
        simp at hXdec
        exact absurd hXdec.1 hx1c
      | cons y ys =>
        have hy : y = x1 := by
          rw [hxa] at hXdec
          rw [hX] at hXdec
          simp at hXdec
          exact hXdec.1.symm
        apply splitScheme_invalid_pre (pp ++ X) (pp ++ xa) xb hr
        right
        cases hpx : pp ++ xa with
        | nil =>
          rw [hxa] at hpx
          simp at hpx
        | cons c0 cs =>
          refine ⟨c0, cs, rfl, ?_⟩
          have hmem : x1 ∈ pp ++ xa := by
            rw [hxa, hy]
            simp
          rw [hpx] at hmem
          have hall : (c0 :: cs).all isSchemeChar = false :=
            all_eq_false_of_mem _ _ x1 hmem hx1
          rw [hall]
          simp

theorem netlocEnd_cases (c : Char) (h : isNetlocEnd c = true) :
    c = '/' ∨ c = '?' ∨ c = '#' := by
  unfold isNetlocEnd at h
  simp only [Bool.or_eq_true, beq_iff_eq] at h
  rcases h with (h | h) | h
  · exact Or.inl h
  · exact Or.inr (Or.inl h)
  · exact Or.inr (Or.inr h)

theorem mem_of_head2 (l : List Char) (c : Char) (h : l.head? = some c) : c ∈ l := by
  cases l with
  | nil => exact Option.noConfusion h
  | cons a t =>
    rw [List.head?_cons] at h
    rw [← Option.some.inj h]
    exact List.mem_cons_self a t

theorem mem_of_dropWhile (p : Char → Bool) (t : List Char) (x : Char)
    (hx : x ∈ t.dropWhile p) : x ∈ t := by
  induction t with
  | nil => simp at hx
  | cons c r ih =>
    rw [List.dropWhile_cons] at hx
    by_cases hc : p c = true
    · rw [if_pos hc] at hx
      simp [ih hx]
    · rw [if_neg hc] at hx
      exact hx

theorem mem_of_takeWhile (p : Char → Bool) (t : List Char) (x : Char)
    (hx : x ∈ t.takeWhile p) : x ∈ t := by
  induction t with
  | nil => simp at hx
  | cons c r ih =>
    rw [List.takeWhile_cons] at hx
    by_cases hc : p c = true
    · rw [if_pos hc] at hx
      rcases List.mem_cons.mp hx with hx | hx
      · simp [hx]
      · simp [ih hx]
    · rw [if_neg hc] at hx
      exact absurd hx (List.not_mem_nil x)

theorem core_B1 (newq : String) (t : List Char)
    (hclean : ∀ x ∈ ('/' :: '/' :: t), ¬(x = '\t' ∨ x = '\r' ∨ x = '\n'))
    (hq1 : newq.data ≠ []) (hq2 : ∀ x ∈ newq.data, x ≠ '#' ∧ ¬ x.toNat ≤ 0x20)
    (hss : splitScheme ('/' :: '/' :: t) = ("", '/' :: '/' :: t))
    (hbad : (urlparseList ('/' :: '/' :: t)).2 = false) :
    urlparsePy (assembleUrl { (urlparseList ('/' :: '/' :: t)).1 with query := newq }) =
      ({ (urlparseList ('/' :: '/' :: t)).1 with query := newq }, false) := by
  obtain ⟨f1, f2, hFeq, hf_na, hf_dec⟩ := hashSplit_decomp '#' (t.dropWhile (fun c => !isNetlocEnd c))
  obtain ⟨q1, q2, hQeq, hq_na, hq_dec⟩ := hashSplit_decomp '?' f1
  have hq_nh : ('#' : Char) ∉ q1 := fun hm => hf_na (decomp_mem_left '?' f1 q1 q2 hq_dec _ hm)
  have hM_subt : ∀ x ∈ (t.dropWhile (fun c => !isNetlocEnd c)), x ∈ t := by
    intro x hx
    exact mem_of_dropWhile _ t x hx
  have hq_subt : ∀ x ∈ q1, x ∈ t := fun x hx => hM_subt x
    (decomp_mem_left '#' (t.dropWhile (fun c => !isNetlocEnd c)) f1 f2 hf_dec x (decomp_mem_left '?' f1 q1 q2 hq_dec x hx))
  have hf2_subt : ∀ x ∈ f2, x ∈ t := fun x hx =>
    hM_subt x (decomp_mem_right '#' (t.dropWhile (fun c => !isNetlocEnd c)) f1 f2 hf_dec x hx)
  have hNL2 : netlocSplit ('/' :: '/' :: t) = (String.mk (t.takeWhile (fun c => !isNetlocEnd c)), (t.dropWhile (fun c => !isNetlocEnd c))) := netlocSplit_slash2 t
  have hP : urlparseList ('/' :: '/' :: t) = (⟨"", String.mk (t.takeWhile (fun c => !isNetlocEnd c)),
      String.mk (splitParams q1).1, String.mk (splitParams q1).2,
      String.mk q2, String.mk f2⟩,
      ((t.takeWhile (fun c => !isNetlocEnd c)).contains '[' != (t.takeWhile (fun c => !isNetlocEnd c)).contains ']')) := by
    simp only [urlparseList, hss, hNL2, hFeq, hQeq]
  have hbadv : ((t.takeWhile (fun c => !isNetlocEnd c)).contains '[' != (t.takeWhile (fun c => !isNetlocEnd c)).contains ']') = false := by
    have h := hbad
    rw [hP] at h
    exact h
  obtain ⟨ht1, ht2, ht3⟩ := tail_parse q1 f2 newq hq_na hq_nh hq2
  have hpphead : (if (splitParams q1).2 = [] then (splitParams q1).1 else (splitParams q1).1 ++ ';' :: (splitParams q1).2) ≠ [] → ((if (splitParams q1).2 = [] then (splitParams q1).1 else (splitParams q1).1 ++ ';' :: (splitParams q1).2)).head? = some '/' := by
    intro hpp0
    rw [rejoin_head q1 hpp0]
    have hq1ne : q1 ≠ [] := by
      cases hppc : (if (splitParams q1).2 = [] then (splitParams q1).1 else (splitParams q1).1 ++ ';' :: (splitParams q1).2) with
      | nil => exact absurd hppc hpp0
      | cons c r =>
        intro hq1e
        have hcm := rejoin_sub q1 c (by rw [hppc]; simp)
        rw [hq1e] at hcm
        exact absurd hcm (List.not_mem_nil c)
    have hf1ne : f1 ≠ [] := by
      rcases hq_dec with hd | ⟨hd, -⟩
      · rw [hd]; simp
      · rw [hd]; exact hq1ne
    have hMne : (t.dropWhile (fun c => !isNetlocEnd c)) ≠ [] := by
      rcases hf_dec with hd | ⟨hd, -⟩
      · rw [hd]; simp
      · rw [hd]; exact hf1ne
    rcases dropWhile_shape (fun c => !isNetlocEnd c) t with hsh | ⟨c, r, hsh, hpc⟩
    · exact absurd hsh hMne
    · have hhq : q1.head? = some c := by
        rw [decomp_head '?' f1 q1 q2 hq_dec hq1ne, decomp_head '#' _ f1 f2 hf_dec hf1ne, hsh]
        rfl
      have hcq : c ∈ q1 := mem_of_head2 q1 c hhq
      have hNE : isNetlocEnd c = true := by
        simp only [Bool.not_eq_false'] at hpc
        exact hpc
      rcases netlocEnd_cases c hNE with hc | hc | hc
      · rw [hhq, hc]
      · exact absurd (hc ▸ hcq) hq_na
      · exact absurd (hc ▸ hcq) hq_nh
  have hLsub : ∀ x ∈ (if (splitParams q1).2 = [] then (splitParams q1).1 else (splitParams q1).1 ++ ';' :: (splitParams q1).2) ++ '?' :: newq.data ++ (if f2 = [] then [] else '#' :: f2), ¬(x = '\t' ∨ x = '\r' ∨ x = '\n') := by
    intro x hx
    rcases List.mem_append.mp hx with hx | hx
    · rcases List.mem_append.mp hx with hx | hx
      · exact hclean x (by simp [hq_subt x (rejoin_sub q1 x hx)])
      · rcases List.mem_cons.mp hx with hx | hx
        · rw [hx]; decide
        · exact clean_of_gt32 x (hq2 x hx).2
    · by_cases hf2 : f2 = []
      · rw [if_pos hf2] at hx
        exact absurd hx (List.not_mem_nil x)
      · rw [if_neg hf2] at hx
        rcases List.mem_cons.mp hx with hx | hx
        · rw [hx]; decide
        · exact hclean x (by simp [hf2_subt x hx])
  by_cases hcnd : (String.mk (t.takeWhile (fun c => !isNetlocEnd c))).data ≠ [] ∨ ((if (splitParams q1).2 = [] then (splitParams q1).1 else (splitParams q1).1 ++ ';' :: (splitParams q1).2)).take 2 = ['/', '/']
  · have hnoprep : ¬((if (splitParams q1).2 = [] then (splitParams q1).1 else (splitParams q1).1 ++ ';' :: (splitParams q1).2) ≠ [] ∧ ((if (splitParams q1).2 = [] then (splitParams q1).1 else (splitParams q1).1 ++ ';' :: (splitParams q1).2)).head? ≠ some '/') := by
      rintro ⟨h1, h2⟩
      exact h2 (hpphead h1)
    have hasm : assembleUrl { (urlparseList ('/' :: '/' :: t)).1 with query := newq } =
        String.mk ('/' :: '/' :: ((t.takeWhile (fun c => !isNetlocEnd c)) ++ ((if (splitParams q1).2 = [] then (splitParams q1).1 else (splitParams q1).1 ++ ';' :: (splitParams q1).2) ++ '?' :: newq.data ++ (if f2 = [] then [] else '#' :: f2)))) := by
      rw [hP]
      simp only [assembleUrl]
      by_cases hf2 : f2 = []
      · rw [if_neg (by simp [hf2])]
        rw [if_pos hq1]
        rw [if_neg (by intro hcon; exact hcon rfl)]
        rw [if_pos hcnd]
        rw [if_neg hnoprep]
        rw [if_pos hf2, List.append_nil]
        congr 1
        simp only [List.append_assoc, List.cons_append]
      · rw [if_pos (by simp [hf2])]
        rw [if_pos hq1]
        rw [if_neg (by intro hcon; exact hcon rfl)]
        rw [if_pos hcnd]
        rw [if_neg hnoprep]
        rw [if_neg hf2]
        congr 1
        simp only [List.append_assoc, List.cons_append]
    rw [hasm, urlparsePy_eq]
    rw [show (String.mk ('/' :: '/' :: ((t.takeWhile (fun c => !isNetlocEnd c)) ++ ((if (splitParams q1).2 = [] then (splitParams q1).1 else (splitParams q1).1 ++ ';' :: (splitParams q1).2) ++ '?' :: newq.data ++ (if f2 = [] then [] else '#' :: f2))))).data =
      ('/' :: '/' :: ((t.takeWhile (fun c => !isNetlocEnd c)) ++ ((if (splitParams q1).2 = [] then (splitParams q1).1 else (splitParams q1).1 ++ ';' :: (splitParams q1).2) ++ '?' :: newq.data ++ (if f2 = [] then [] else '#' :: f2)))) from rfl]
    rw [dropWhile_eq_self_of_head isC0OrSpace _ (by
      intro c hc
      rw [List.head?_cons] at hc
      rw [← Option.some.inj hc]
      decide)]
    rw [show removeTabCrLf ('/' :: '/' :: ((t.takeWhile (fun c => !isNetlocEnd c)) ++ ((if (splitParams q1).2 = [] then (splitParams q1).1 else (splitParams q1).1 ++ ';' :: (splitParams q1).2) ++ '?' :: newq.data ++ (if f2 = [] then [] else '#' :: f2)))) =
        ('/' :: '/' :: ((t.takeWhile (fun c => !isNetlocEnd c)) ++ ((if (splitParams q1).2 = [] then (splitParams q1).1 else (splitParams q1).1 ++ ';' :: (splitParams q1).2) ++ '?' :: newq.data ++ (if f2 = [] then [] else '#' :: f2)))) from by
      unfold removeTabCrLf
      apply List.filter_eq_self.mpr
      intro x hx
      have h3 : ¬(x = '\t' ∨ x = '\r' ∨ x = '\n') := by
        rcases List.mem_cons.mp hx with hx | hx
        · rw [hx]; decide
        · rcases List.mem_cons.mp hx with hx | hx
          · rw [hx]; decide
          · rcases List.mem_append.mp hx with hx | hx
            · refine hclean x ?_
              have hxt : x ∈ t := mem_of_takeWhile _ t x hx
              simp [hxt]
            · exact hLsub x hx
      have h1 : x ≠ '\t' := fun he => h3 (Or.inl he)
      have h2 : x ≠ '\r' := fun he => h3 (Or.inr (Or.inl he))
      have h4 : x ≠ '\n' := fun he => h3 (Or.inr (Or.inr he))
      simp [h1, h2, h4]]
    have hs1 : splitScheme ('/' :: '/' :: ((t.takeWhile (fun c => !isNetlocEnd c)) ++ ((if (splitParams q1).2 = [] then (splitParams q1).1 else (splitParams q1).1 ++ ';' :: (splitParams q1).2) ++ '?' :: newq.data ++ (if f2 = [] then [] else '#' :: f2)))) =
        ("", '/' :: '/' :: ((t.takeWhile (fun c => !isNetlocEnd c)) ++ ((if (splitParams q1).2 = [] then (splitParams q1).1 else (splitParams q1).1 ++ ';' :: (splitParams q1).2) ++ '?' :: newq.data ++ (if f2 = [] then [] else '#' :: f2)))) := splitScheme_slash _
    obtain ⟨htw1, htw2⟩ := takeWhile_append_all (fun c => !isNetlocEnd c)
      (t.takeWhile (fun c => !isNetlocEnd c)) ((if (splitParams q1).2 = [] then (splitParams q1).1 else (splitParams q1).1 ++ ';' :: (splitParams q1).2) ++ '?' :: newq.data ++ (if f2 = [] then [] else '#' :: f2))
      (by
        intro x hx
        have h1 := List.mem_takeWhile_imp hx
        exact h1)
      (by
        by_cases hpp0 : (if (splitParams q1).2 = [] then (splitParams q1).1 else (splitParams q1).1 ++ ';' :: (splitParams q1).2) = []
        · rw [List.append_assoc _ ('?' :: newq.data) _, hpp0, List.nil_append,
            List.cons_append, List.head?_cons]
          decide
        · rw [head?_append_left _ _ (by simp [hpp0]), head?_append_left _ _ hpp0,
            hpphead hpp0]
          decide)
    conv_rhs => rw [hP]
    simp only [urlparseList, hs1, netlocSplit_slash2, htw1, htw2, ht1, ht2, ht3, hbadv]
  · have hNL0 : (t.takeWhile (fun c => !isNetlocEnd c)) = [] := by
      by_contra hne
      exact hcnd (Or.inl hne)
    have htk2 : ∀ r, (if (splitParams q1).2 = [] then (splitParams q1).1 else (splitParams q1).1 ++ ';' :: (splitParams q1).2) ≠ '/' :: '/' :: r := by
      intro r hr
      exact hcnd (Or.inr (by rw [hr]; rfl))
    have hasm : assembleUrl { (urlparseList ('/' :: '/' :: t)).1 with query := newq } =
        String.mk ((if (splitParams q1).2 = [] then (splitParams q1).1 else (splitParams q1).1 ++ ';' :: (splitParams q1).2) ++ '?' :: newq.data ++ (if f2 = [] then [] else '#' :: f2)) := by
      rw [hP]
      simp only [assembleUrl]
      by_cases hf2 : f2 = []
      · rw [if_neg (by simp [hf2])]
        rw [if_pos hq1]
        rw [if_neg (by intro hcon; exact hcon rfl)]
        rw [if_neg hcnd]
        rw [if_pos hf2, List.append_nil]
      · rw [if_pos (by simp [hf2])]
        rw [if_pos hq1]
        rw [if_neg (by intro hcon; exact hcon rfl)]
        rw [if_neg hcnd]
        rw [if_neg hf2]
    rw [hasm, urlparsePy_eq]
    rw [show (String.mk ((if (splitParams q1).2 = [] then (splitParams q1).1 else (splitParams q1).1 ++ ';' :: (splitParams q1).2) ++ '?' :: newq.data ++ (if f2 = [] then [] else '#' :: f2))).data = ((if (splitParams q1).2 = [] then (splitParams q1).1 else (splitParams q1).1 ++ ';' :: (splitParams q1).2) ++ '?' :: newq.data ++ (if f2 = [] then [] else '#' :: f2)) from rfl]
    rw [dropWhile_eq_self_of_head isC0OrSpace _ (by
      intro c hc
      by_cases hpp0 : (if (splitParams q1).2 = [] then (splitParams q1).1 else (splitParams q1).1 ++ ';' :: (splitParams q1).2) = []
      · rw [List.append_assoc _ ('?' :: newq.data) _, hpp0, List.nil_append,
          List.cons_append, List.head?_cons] at hc
        rw [← Option.some.inj hc]
        decide
      · rw [head?_append_left _ _ (by simp [hpp0]), head?_append_left _ _ hpp0,
          hpphead hpp0] at hc
        rw [← Option.some.inj hc]
        decide)]
    rw [show removeTabCrLf ((if (splitParams q1).2 = [] then (splitParams q1).1 else (splitParams q1).1 ++ ';' :: (splitParams q1).2) ++ '?' :: newq.data ++ (if f2 = [] then [] else '#' :: f2)) = ((if (splitParams q1).2 = [] then (splitParams q1).1 else (splitParams q1).1 ++ ';' :: (splitParams q1).2) ++ '?' :: newq.data ++ (if f2 = [] then [] else '#' :: f2)) from by
      unfold removeTabCrLf
      apply List.filter_eq_self.mpr
      intro x hx
      have h3 := hLsub x hx
      have h1 : x ≠ '\t' := fun he => h3 (Or.inl he)
      have h2 : x ≠ '\r' := fun he => h3 (Or.inr (Or.inl he))
      have h4 : x ≠ '\n' := fun he => h3 (Or.inr (Or.inr he))
      simp [h1, h2, h4]]
    have hinv : ∀ a b, splitAtFirst ':' (if (splitParams q1).2 = [] then (splitParams q1).1 else (splitParams q1).1 ++ ';' :: (splitParams q1).2) = some (a, b) →
        a = [] ∨ ∃ c0 cs, a = c0 :: cs ∧ (isAsciiAlphaCh c0 && a.all isSchemeChar) = false := by
      intro a b hab
      obtain ⟨hdec, hna⟩ := splitAtFirst_inv ':' _ a b hab
      have hppne : (if (splitParams q1).2 = [] then (splitParams q1).1 else (splitParams q1).1 ++ ';' :: (splitParams q1).2) ≠ [] := by
        rw [hdec]
        simp
      have hh := hpphead hppne
      cases ha : a with
      | nil =>
        rw [ha] at hdec
        rw [hdec] at hh
        rw [List.nil_append, List.head?_cons] at hh
        exact absurd (Option.some.inj hh) (by decide)
      | cons a0 a1 =>
        right
        refine ⟨a0, a1, rfl, ?_⟩
        rw [ha] at hdec
        rw [hdec] at hh
        rw [List.cons_append, List.head?_cons] at hh
        have ha0 : a0 = '/' := Option.some.inj hh
        rw [ha0]
        rw [show isAsciiAlphaCh '/' = false from by decide]
        simp
    have hsch2 : splitScheme ((if (splitParams q1).2 = [] then (splitParams q1).1 else (splitParams q1).1 ++ ';' :: (splitParams q1).2) ++ '?' :: newq.data ++ (if f2 = [] then [] else '#' :: f2)) = ("", (if (splitParams q1).2 = [] then (splitParams q1).1 else (splitParams q1).1 ++ ';' :: (splitParams q1).2) ++ '?' :: newq.data ++ (if f2 = [] then [] else '#' :: f2)) := by
      rw [List.append_assoc _ ('?' :: newq.data) _]
      exact splitScheme_free_tail2 _ _ hinv
        '?' (newq.data ++ (if f2 = [] then [] else '#' :: f2)) rfl (by decide) (by decide)
    have hnet2 : netlocSplit ((if (splitParams q1).2 = [] then (splitParams q1).1 else (splitParams q1).1 ++ ';' :: (splitParams q1).2) ++ '?' :: newq.data ++ (if f2 = [] then [] else '#' :: f2)) = ("", (if (splitParams q1).2 = [] then (splitParams q1).1 else (splitParams q1).1 ++ ';' :: (splitParams q1).2) ++ '?' :: newq.data ++ (if f2 = [] then [] else '#' :: f2)) := by
      apply netlocSplit_no
      rw [List.append_assoc _ ('?' :: newq.data) _]
      exact append_no_slash2 _ _ '?' (newq.data ++ (if f2 = [] then [] else '#' :: f2))
        rfl (by decide) htk2
    conv_rhs => rw [hP]
    simp only [urlparseList, hsch2, hnet2, ht1, ht2, ht3, hNL0]
    rfl

theorem core_A1 (l : List Char) (newq : String) (c0 : Char) (cs t : List Char)
    (hclean : ∀ x ∈ l, ¬(x = '\t' ∨ x = '\r' ∨ x = '\n'))
    (hq1 : newq.data ≠ []) (hq2 : ∀ x ∈ newq.data, x ≠ '#' ∧ ¬ x.toNat ≤ 0x20)
    (hldec : l = (c0 :: cs) ++ ':' :: '/' :: '/' :: t) (hnc : (':' : Char) ∉ c0 :: cs)
    (halpha : isAsciiAlphaCh c0 = true) (hall : (c0 :: cs).all isSchemeChar = true)
    (hss : splitScheme l = (pyLower (String.mk (c0 :: cs)), '/' :: '/' :: t))
    (hbad : (urlparseList l).2 = false) :
    urlparsePy (assembleUrl { (urlparseList l).1 with query := newq }) =
      ({ (urlparseList l).1 with query := newq }, false) := by
  obtain ⟨f1, f2, hFeq, hf_na, hf_dec⟩ := hashSplit_decomp '#' (t.dropWhile (fun c => !isNetlocEnd c))
  obtain ⟨q1, q2, hQeq, hq_na, hq_dec⟩ := hashSplit_decomp '?' f1
  have hq_nh : ('#' : Char) ∉ q1 := fun hm => hf_na (decomp_mem_left '?' f1 q1 q2 hq_dec _ hm)
  have hM_subt : ∀ x ∈ (t.dropWhile (fun c => !isNetlocEnd c)), x ∈ t := by
    intro x hx
    exact mem_of_dropWhile _ t x hx
  have hq_subt : ∀ x ∈ q1, x ∈ t := fun x hx => hM_subt x
    (decomp_mem_left '#' (t.dropWhile (fun c => !isNetlocEnd c)) f1 f2 hf_dec x (decomp_mem_left '?' f1 q1 q2 hq_dec x hx))
  have hf2_subt : ∀ x ∈ f2, x ∈ t := fun x hx =>
    hM_subt x (decomp_mem_right '#' (t.dropWhile (fun c => !isNetlocEnd c)) f1 f2 hf_dec x hx)
  have hNL2 : netlocSplit ('/' :: '/' :: t) = (String.mk (t.takeWhile (fun c => !isNetlocEnd c)), (t.dropWhile (fun c => !isNetlocEnd c))) := netlocSplit_slash2 t
  have hP : urlparseList l = (⟨pyLower (String.mk (c0 :: cs)), String.mk (t.takeWhile (fun c => !isNetlocEnd c)),
      String.mk (splitParams q1).1, String.mk (splitParams q1).2,
      String.mk q2, String.mk f2⟩,
      ((t.takeWhile (fun c => !isNetlocEnd c)).contains '[' != (t.takeWhile (fun c => !isNetlocEnd c)).contains ']')) := by
    simp only [urlparseList, hss, hNL2, hFeq, hQeq]
  have hbadv : ((t.takeWhile (fun c => !isNetlocEnd c)).contains '[' != (t.takeWhile (fun c => !isNetlocEnd c)).contains ']') = false := by
    have h := hbad
    rw [hP] at h
    exact h
  obtain ⟨ht1, ht2, ht3⟩ := tail_parse q1 f2 newq hq_na hq_nh hq2
  have hpphead : (if (splitParams q1).2 = [] then (splitParams q1).1 else (splitParams q1).1 ++ ';' :: (splitParams q1).2) ≠ [] → ((if (splitParams q1).2 = [] then (splitParams q1).1 else (splitParams q1).1 ++ ';' :: (splitParams q1).2)).head? = some '/' := by
    intro hpp0
    rw [rejoin_head q1 hpp0]
    have hq1ne : q1 ≠ [] := by
      cases hppc : (if (splitParams q1).2 = [] then (splitParams q1).1 else (splitParams q1).1 ++ ';' :: (splitParams q1).2) with
      | nil => exact absurd hppc hpp0
      | cons c r =>
        intro hq1e
        have hcm := rejoin_sub q1 c (by rw [hppc]; simp)
        rw [hq1e] at hcm
        exact absurd hcm (List.not_mem_nil c)
    have hf1ne : f1 ≠ [] := by
      rcases hq_dec with hd | ⟨hd, -⟩
      · rw [hd]; simp
      · rw [hd]; exact hq1ne
    have hMne : (t.dropWhile (fun c => !isNetlocEnd c)) ≠ [] := by
      rcases hf_dec with hd | ⟨hd, -⟩
      · rw [hd]; simp
      · rw [hd]; exact hf1ne
    rcases dropWhile_shape (fun c => !isNetlocEnd c) t with hsh | ⟨c, r, hsh, hpc⟩
    · exact absurd hsh hMne
    · have hhq : q1.head? = some c := by
        rw [decomp_head '?' f1 q1 q2 hq_dec hq1ne, decomp_head '#' _ f1 f2 hf_dec hf1ne, hsh]
        rfl
      have hcq : c ∈ q1 := mem_of_head2 q1 c hhq
      have hNE : isNetlocEnd c = true := by
        simp only [Bool.not_eq_false'] at hpc
        exact hpc
      rcases netlocEnd_cases c hNE with hc | hc | hc
      · rw [hhq, hc]
      · exact absurd (hc ▸ hcq) hq_na
      · exact absurd (hc ▸ hcq) hq_nh
  have hLsub : ∀ x ∈ (if (splitParams q1).2 = [] then (splitParams q1).1 else (splitParams q1).1 ++ ';' :: (splitParams q1).2) ++ '?' :: newq.data ++ (if f2 = [] then [] else '#' :: f2), ¬(x = '\t' ∨ x = '\r' ∨ x = '\n') := by
    intro x hx
    rcases List.mem_append.mp hx with hx | hx
    · rcases List.mem_append.mp hx with hx | hx
      · exact hclean x (by rw [hldec]; simp [hq_subt x (rejoin_sub q1 x hx)])
      · rcases List.mem_cons.mp hx with hx | hx
        · rw [hx]; decide
        · exact clean_of_gt32 x (hq2 x hx).2
    · by_cases hf2 : f2 = []
      · rw [if_pos hf2] at hx
        exact absurd hx (List.not_mem_nil x)
      · rw [if_neg hf2] at hx
        rcases List.mem_cons.mp hx with hx | hx
        · rw [hx]; decide
        · exact hclean x (by rw [hldec]; simp [hf2_subt x hx])
  have hall2 : (Char.toLower c0 :: cs.map Char.toLower).all isSchemeChar = true := by
    rw [show (Char.toLower c0 :: cs.map Char.toLower) = (c0 :: cs).map Char.toLower from rfl]
    apply List.all_eq_true.mpr
    intro x hx
    rw [List.mem_map] at hx
    obtain ⟨y, hy, hxy⟩ := hx
    rw [← hxy]
    exact isSchemeChar_toLower y (List.all_eq_true.mp hall y hy)
  have hnc2 : (':' : Char) ∉ Char.toLower c0 :: cs.map Char.toLower := by
    intro hm
    rw [show (Char.toLower c0 :: cs.map Char.toLower) = (c0 :: cs).map Char.toLower
      from rfl] at hm
    rw [List.mem_map] at hm
    obtain ⟨y, hy, hxy⟩ := hm
    exact hnc (by rw [toLower_eq_colon y hxy] at hy; exact hy)
  have hschClean : ∀ x ∈ (pyLower (String.mk (c0 :: cs))).data, ¬(x = '\t' ∨ x = '\r' ∨ x = '\n') := by
    intro x hx
    rw [show (pyLower (String.mk (c0 :: cs))).data = (c0 :: cs).map Char.toLower
      from rfl] at hx
    rw [List.mem_map] at hx
    obtain ⟨y, hy, hxy⟩ := hx
    rw [← hxy]
    exact toLower_notab y (hclean y (by
      rw [hldec]
      rcases List.mem_cons.mp hy with hy | hy
      · simp [hy]
      · simp [hy]))
  by_cases hcnd : (String.mk (t.takeWhile (fun c => !isNetlocEnd c))).data ≠ [] ∨ ((if (splitParams q1).2 = [] then (splitParams q1).1 else (splitParams q1).1 ++ ';' :: (splitParams q1).2)).take 2 = ['/', '/']
  · have hnoprep : ¬((if (splitParams q1).2 = [] then (splitParams q1).1 else (splitParams q1).1 ++ ';' :: (splitParams q1).2) ≠ [] ∧ ((if (splitParams q1).2 = [] then (splitParams q1).1 else (splitParams q1).1 ++ ';' :: (splitParams q1).2)).head? ≠ some '/') := by
      rintro ⟨h1, h2⟩
      exact h2 (hpphead h1)
    have hasm : assembleUrl { (urlparseList l).1 with query := newq } =
        String.mk ((pyLower (String.mk (c0 :: cs))).data ++ ':' :: '/' :: '/' :: ((t.takeWhile (fun c => !isNetlocEnd c)) ++ ((if (splitParams q1).2 = [] then (splitParams q1).1 else (splitParams q1).1 ++ ';' :: (splitParams q1).2) ++ '?' :: newq.data ++ (if f2 = [] then [] else '#' :: f2)))) := by
      rw [hP]
      simp only [assembleUrl]
      by_cases hf2 : f2 = []
      · rw [if_neg (by simp [hf2])]
        rw [if_pos hq1]
        rw [if_pos (by
          show (pyLower (String.mk (c0 :: cs))).data ≠ []
          exact fun hcon => List.noConfusion hcon)]
        rw [if_pos hcnd]
        rw [if_neg hnoprep]
        rw [if_pos hf2, List.append_nil]
        congr 1
        simp only [List.append_assoc, List.cons_append]
      · rw [if_pos (by simp [hf2])]
        rw [if_pos hq1]
        rw [if_pos (by
          show (pyLower (String.mk (c0 :: cs))).data ≠ []
          exact fun hcon => List.noConfusion hcon)]
        rw [if_pos hcnd]
        rw [if_neg hnoprep]
        rw [if_neg hf2]
        congr 1
        simp only [List.append_assoc, List.cons_append]
    rw [hasm, urlparsePy_eq]
    rw [show (String.mk ((pyLower (String.mk (c0 :: cs))).data ++ ':' :: '/' :: '/' :: ((t.takeWhile (fun c => !isNetlocEnd c)) ++ ((if (splitParams q1).2 = [] then (splitParams q1).1 else (splitParams q1).1 ++ ';' :: (splitParams q1).2) ++ '?' :: newq.data ++ (if f2 = [] then [] else '#' :: f2))))).data =
      ((pyLower (String.mk (c0 :: cs))).data ++ ':' :: '/' :: '/' :: ((t.takeWhile (fun c => !isNetlocEnd c)) ++ ((if (splitParams q1).2 = [] then (splitParams q1).1 else (splitParams q1).1 ++ ';' :: (splitParams q1).2) ++ '?' :: newq.data ++ (if f2 = [] then [] else '#' :: f2)))) from rfl]
    rw [dropWhile_eq_self_of_head isC0OrSpace _ (by
      intro c hc
      rw [show (pyLower (String.mk (c0 :: cs))).data = Char.toLower c0 :: cs.map Char.toLower
        from rfl] at hc
      rw [List.cons_append, List.head?_cons] at hc
      have hc2 : c = Char.toLower c0 := (Option.some.inj hc).symm
      rw [hc2]
      exact alpha_not_space _ (isAsciiAlphaCh_toLower c0 halpha))]
    rw [show removeTabCrLf ((pyLower (String.mk (c0 :: cs))).data ++ ':' :: '/' :: '/' :: ((t.takeWhile (fun c => !isNetlocEnd c)) ++ ((if (splitParams q1).2 = [] then (splitParams q1).1 else (splitParams q1).1 ++ ';' :: (splitParams q1).2) ++ '?' :: newq.data ++ (if f2 = [] then [] else '#' :: f2)))) =
        ((pyLower (String.mk (c0 :: cs))).data ++ ':' :: '/' :: '/' :: ((t.takeWhile (fun c => !isNetlocEnd c)) ++ ((if (splitParams q1).2 = [] then (splitParams q1).1 else (splitParams q1).1 ++ ';' :: (splitParams q1).2) ++ '?' :: newq.data ++ (if f2 = [] then [] else '#' :: f2)))) from by
      unfold removeTabCrLf
      apply List.filter_eq_self.mpr
      intro x hx
      have h3 : ¬(x = '\t' ∨ x = '\r' ∨ x = '\n') := by
        rcases List.mem_append.mp hx with hx | hx
        · exact hschClean x hx
        · rcases List.mem_cons.mp hx with hx | hx
          · rw [hx]; decide
          · rcases List.mem_cons.mp hx with hx | hx
            · rw [hx]; decide
            · rcases List.mem_cons.mp hx with hx | hx
              · rw [hx]; decide
              · rcases List.mem_append.mp hx with hx | hx
                · refine hclean x ?_
                  have hxt : x ∈ t := mem_of_takeWhile _ t x hx
                  rw [hldec]
                  simp [hxt]
                · exact hLsub x hx
      have h1 : x ≠ '\t' := fun he => h3 (Or.inl he)
      have h2 : x ≠ '\r' := fun he => h3 (Or.inr (Or.inl he))
      have h4 : x ≠ '\n' := fun he => h3 (Or.inr (Or.inr he))
      simp [h1, h2, h4]]
    have hs1 : splitScheme ((pyLower (String.mk (c0 :: cs))).data ++ ':' :: '/' :: '/' :: ((t.takeWhile (fun c => !isNetlocEnd c)) ++ ((if (splitParams q1).2 = [] then (splitParams q1).1 else (splitParams q1).1 ++ ';' :: (splitParams q1).2) ++ '?' :: newq.data ++ (if f2 = [] then [] else '#' :: f2)))) = (pyLower (String.mk (c0 :: cs)),
        '/' :: '/' :: ((t.takeWhile (fun c => !isNetlocEnd c)) ++ ((if (splitParams q1).2 = [] then (splitParams q1).1 else (splitParams q1).1 ++ ';' :: (splitParams q1).2) ++ '?' :: newq.data ++ (if f2 = [] then [] else '#' :: f2)))) := by
      rw [show (pyLower (String.mk (c0 :: cs))).data = Char.toLower c0 :: cs.map Char.toLower
        from rfl]
      rw [splitScheme_valid (Char.toLower c0) (cs.map Char.toLower) _
        (isAsciiAlphaCh_toLower c0 halpha) hall2 hnc2]
      rw [show String.mk (Char.toLower c0 :: cs.map Char.toLower) =
        pyLower (String.mk (c0 :: cs)) from rfl]
      rw [pyLower_idem]
    obtain ⟨htw1, htw2⟩ := takeWhile_append_all (fun c => !isNetlocEnd c)
      (t.takeWhile (fun c => !isNetlocEnd c)) ((if (splitParams q1).2 = [] then (splitParams q1).1 else (splitParams q1).1 ++ ';' :: (splitParams q1).2) ++ '?' :: newq.data ++ (if f2 = [] then [] else '#' :: f2))
      (by
        intro x hx
        have h1 := List.mem_takeWhile_imp hx
        exact h1)
      (by
        by_cases hpp0 : (if (splitParams q1).2 = [] then (splitParams q1).1 else (splitParams q1).1 ++ ';' :: (splitParams q1).2) = []
        · rw [List.append_assoc _ ('?' :: newq.data) _, hpp0, List.nil_append,
            List.cons_append, List.head?_cons]
          decide
        · rw [head?_append_left _ _ (by simp [hpp0]), head?_append_left _ _ hpp0,
            hpphead hpp0]
          decide)
    conv_rhs => rw [hP]
    simp only [urlparseList, hs1, netlocSplit_slash2, htw1, htw2, ht1, ht2, ht3, hbadv]
  · have hNL0 : (t.takeWhile (fun c => !isNetlocEnd c)) = [] := by
      by_contra hne
      exact hcnd (Or.inl hne)
    have htk2 : ∀ r, (if (splitParams q1).2 = [] then (splitParams q1).1 else (splitParams q1).1 ++ ';' :: (splitParams q1).2) ≠ '/' :: '/' :: r := by
      intro r hr
      exact hcnd (Or.inr (by rw [hr]; rfl))
    have hasm : assembleUrl { (urlparseList l).1 with query := newq } =
        String.mk ((pyLower (String.mk (c0 :: cs))).data ++ ':' :: ((if (splitParams q1).2 = [] then (splitParams q1).1 else (splitParams q1).1 ++ ';' :: (splitParams q1).2) ++ '?' :: newq.data ++ (if f2 = [] then [] else '#' :: f2))) := by
      rw [hP]
      simp only [assembleUrl]
      by_cases hf2 : f2 = []
      · rw [if_neg (by simp [hf2])]
        rw [if_pos hq1]
        rw [if_pos (by
          show (pyLower (String.mk (c0 :: cs))).data ≠ []
          exact fun hcon => List.noConfusion hcon)]
        rw [if_neg hcnd]
        rw [if_pos hf2, List.append_nil]
        congr 1
        simp only [List.append_assoc, List.cons_append]
      · rw [if_pos (by simp [hf2])]
        rw [if_pos hq1]
        rw [if_pos (by
          show (pyLower (String.mk (c0 :: cs))).data ≠ []
          exact fun hcon => List.noConfusion hcon)]
        rw [if_neg hcnd]
        rw [if_neg hf2]
        congr 1
        simp only [List.append_assoc, List.cons_append]
    rw [hasm, urlparsePy_eq]
    rw [show (String.mk ((pyLower (String.mk (c0 :: cs))).data ++ ':' :: ((if (splitParams q1).2 = [] then (splitParams q1).1 else (splitParams q1).1 ++ ';' :: (splitParams q1).2) ++ '?' :: newq.data ++ (if f2 = [] then [] else '#' :: f2)))).data =
      ((pyLower (String.mk (c0 :: cs))).data ++ ':' :: ((if (splitParams q1).2 = [] then (splitParams q1).1 else (splitParams q1).1 ++ ';' :: (splitParams q1).2) ++ '?' :: newq.data ++ (if f2 = [] then [] else '#' :: f2))) from rfl]
    rw [dropWhile_eq_self_of_head isC0OrSpace _ (by
      intro c hc
      rw [show (pyLower (String.mk (c0 :: cs))).data = Char.toLower c0 :: cs.map Char.toLower
        from rfl] at hc
      rw [List.cons_append, List.head?_cons] at hc
      have hc2 : c = Char.toLower c0 := (Option.some.inj hc).symm
      rw [hc2]
      exact alpha_not_space _ (isAsciiAlphaCh_toLower c0 halpha))]
    rw [show removeTabCrLf ((pyLower (String.mk (c0 :: cs))).data ++ ':' :: ((if (splitParams q1).2 = [] then (splitParams q1).1 else (splitParams q1).1 ++ ';' :: (splitParams q1).2) ++ '?' :: newq.data ++ (if f2 = [] then [] else '#' :: f2))) =
        ((pyLower (String.mk (c0 :: cs))).data ++ ':' :: ((if (splitParams q1).2 = [] then (splitParams q1).1 else (splitParams q1).1 ++ ';' :: (splitParams q1).2) ++ '?' :: newq.data ++ (if f2 = [] then [] else '#' :: f2))) from by
      unfold removeTabCrLf
      apply List.filter_eq_self.mpr
      intro x hx
      have h3 : ¬(x = '\t' ∨ x = '\r' ∨ x = '\n') := by
        rcases List.mem_append.mp hx with hx | hx
        · exact hschClean x hx
        · rcases List.mem_cons.mp hx with hx | hx
          · rw [hx]; decide
          · exact hLsub x hx
      have h1 : x ≠ '\t' := fun he => h3 (Or.inl he)
      have h2 : x ≠ '\r' := fun he => h3 (Or.inr (Or.inl he))
      have h4 : x ≠ '\n' := fun he => h3 (Or.inr (Or.inr he))
      simp [h1, h2, h4]]
    have hs1 : splitScheme ((pyLower (String.mk (c0 :: cs))).data ++ ':' ::
        ((if (splitParams q1).2 = [] then (splitParams q1).1
          else (splitParams q1).1 ++ ';' :: (splitParams q1).2) ++ '?' :: newq.data ++
          (if f2 = [] then [] else '#' :: f2))) = (pyLower (String.mk (c0 :: cs)),
        ((if (splitParams q1).2 = [] then (splitParams q1).1
          else (splitParams q1).1 ++ ';' :: (splitParams q1).2) ++ '?' :: newq.data ++
          (if f2 = [] then [] else '#' :: f2))) := by
      rw [show (pyLower (String.mk (c0 :: cs))).data = Char.toLower c0 :: cs.map Char.toLower
        from rfl]
      rw [splitScheme_valid (Char.toLower c0) (cs.map Char.toLower) _
        (isAsciiAlphaCh_toLower c0 halpha) hall2 hnc2]
      rw [show String.mk (Char.toLower c0 :: cs.map Char.toLower) =
        pyLower (String.mk (c0 :: cs)) from rfl]
      rw [pyLower_idem]
    have hnet2 : netlocSplit ((if (splitParams q1).2 = [] then (splitParams q1).1
        else (splitParams q1).1 ++ ';' :: (splitParams q1).2) ++ '?' :: newq.data ++
        (if f2 = [] then [] else '#' :: f2)) = ("", (if (splitParams q1).2 = []
        then (splitParams q1).1 else (splitParams q1).1 ++ ';' :: (splitParams q1).2) ++
        '?' :: newq.data ++ (if f2 = [] then [] else '#' :: f2)) := by
      apply netlocSplit_no
      rw [List.append_assoc _ ('?' :: newq.data) _]
      exact append_no_slash2 _ _ '?' (newq.data ++ (if f2 = [] then [] else '#' :: f2))
        rfl (by decide) htk2
    conv_rhs => rw [hP]
    simp only [urlparseList, hs1, hnet2, ht1, ht2, ht3, hNL0]
    rfl

theorem urlparse_assemble_core (l : List Char) (newq : String)
    (hclean : ∀ x ∈ l, ¬(x = '\t' ∨ x = '\r' ∨ x = '\n'))
    (hhead : ∀ c, l.head? = some c → isC0OrSpace c = false)
    (hq1 : newq.data ≠ []) (hq2 : ∀ x ∈ newq.data, x ≠ '#' ∧ ¬ x.toNat ≤ 0x20)
    (hbad : (urlparseList l).2 = false) :
    urlparsePy (assembleUrl { (urlparseList l).1 with query := newq }) =
      ({ (urlparseList l).1 with query := newq }, false) := by
  rcases splitScheme_shape l with hss | ⟨c0, cs, rest, hldec, hnc, halpha, hall, hss⟩
  · by_cases hsl : ∃ t, l = '/' :: '/' :: t
    · obtain ⟨t, ht⟩ := hsl
      subst ht
      exact core_B1 newq t hclean hq1 hq2 hss hbad
    · exact core_B2 l newq hclean hhead hq1 hq2 hss (fun t he => hsl ⟨t, he⟩)
  · by_cases hsl : ∃ t, rest = '/' :: '/' :: t
    · obtain ⟨t, ht⟩ := hsl
      subst ht
      exact core_A1 l newq c0 cs t hclean hq1 hq2 hldec hnc halpha hall hss hbad
    · exact core_A2 l newq c0 cs rest hclean hq1 hq2 hldec hnc halpha hall hss
        (fun t he => hsl ⟨t, he⟩)

theorem urlparse_assemble (s0 newq : String)
    (hq1 : newq.data ≠ []) (hq2 : ∀ x ∈ newq.data, x ≠ '#' ∧ ¬ x.toNat ≤ 0x20)
    (hbad : (urlparsePy s0).2 = false) :
    urlparsePy (assembleUrl { (urlparsePy s0).1 with query := newq }) =
      ({ (urlparsePy s0).1 with query := newq }, false) := by
  rw [urlparsePy_eq] at hbad ⊢
  apply urlparse_assemble_core
  · intro x hx
    have hp := (List.mem_filter.mp hx).2
    simp only [Bool.not_eq_true', Bool.or_eq_false_iff, beq_eq_false_iff_ne, ne_eq] at hp
    intro hor
    rcases hor with h | h | h
    · exact hp.1.1 h
    · exact hp.1.2 h
    · exact hp.2 h
  · intro c hc
    rcases dropWhile_shape isC0OrSpace s0.data with hsh | ⟨k, r, hsh, hpk⟩
    · rw [hsh] at hc
      exact absurd hc (by simp [removeTabCrLf])
    · rw [hsh] at hc
      have h1 : k ≠ '\t' := fun he => by rw [he] at hpk; exact absurd hpk (by decide)
      have h2 : k ≠ '\r' := fun he => by rw [he] at hpk; exact absurd hpk (by decide)
      have h3 : k ≠ '\n' := fun he => by rw [he] at hpk; exact absurd hpk (by decide)
      rw [show removeTabCrLf (k :: r) = k :: removeTabCrLf r from by
        unfold removeTabCrLf
        rw [List.filter_cons]
        simp [h1, h2, h3]] at hc
      rw [List.head?_cons] at hc
      rw [← Option.some.inj hc]
      exact hpk
  · exact hq1
  · exact hq2
  · exact hbad

theorem joinWith_mem (sep : List Char) (L : List (List Char)) (x : Char)
    (hx : x ∈ joinWith sep L) : x ∈ sep ∨ ∃ p ∈ L, x ∈ p := by
  induction L with
  | nil => exact absurd hx (List.not_mem_nil x)
  | cons p L ih =>
    cases L with
    | nil =>
      right
      exact ⟨p, by simp, hx⟩
    | cons q r =>
      rw [show joinWith sep (p :: q :: r) = p ++ sep ++ joinWith sep (q :: r) from rfl] at hx
      rcases List.mem_append.mp hx with hx | hx
      · rcases List.mem_append.mp hx with hx | hx
        · right; exact ⟨p, by simp, hx⟩
        · left; exact hx
      · rcases ih hx with hx | ⟨p2, hp2, hxp2⟩
        · left; exact hx
        · right; exact ⟨p2, by simp [hp2], hxp2⟩

theorem urlencode_chars (D : List (String × List String)) :
    ∀ x ∈ (urlencode D).data, x ≠ '#' ∧ ¬ x.toNat ≤ 0x20 := by
  intro x hx
  have hx2 : x ∈ joinWith ['&'] ((D.map (fun kv => kv.2.map
      (fun v => (quote_plus kv.1).data ++ '=' :: (quote_plus v).data))).flatten) := hx
  rcases joinWith_mem _ _ x hx2 with hm | ⟨p, hp, hxp⟩
  · rw [List.mem_singleton] at hm
    subst hm
    exact ⟨by decide, by decide⟩
  · rw [List.mem_flatten] at hp
    obtain ⟨l, hl, hpl⟩ := hp
    rw [List.mem_map] at hl
    obtain ⟨kv, -, hkv⟩ := hl
    subst hkv
    rw [List.mem_map] at hpl
    obtain ⟨v, -, hv⟩ := hpl
    subst hv
    rcases List.mem_append.mp hxp with hm | hm
    · have hq := qencOK_ne _ (quote_plus_chars kv.1 _ hm)
      exact ⟨hq.2.2.1, hq.2.2.2.2.2.2.2⟩
    · rcases List.mem_cons.mp hm with hm | hm
      · subst hm
        exact ⟨by decide, by decide⟩
      · have hq := qencOK_ne _ (quote_plus_chars v _ hm)
        exact ⟨hq.2.2.1, hq.2.2.2.2.2.2.2⟩

theorem urlencode_ne_nil (D : List (String × List String))
    (hD : D ≠ []) (hne : ∀ kv ∈ D, kv.2 ≠ []) : (urlencode D).data ≠ [] := by
  obtain ⟨kv0, Dr, hDc⟩ := List.exists_cons_of_ne_nil hD
  have hflat : (D.map (fun kv => kv.2.map
      (fun v => (quote_plus kv.1).data ++ '=' :: (quote_plus v).data))).flatten ≠ [] := by
    rw [hDc]
    obtain ⟨v0, vr, hv0⟩ := List.exists_cons_of_ne_nil (hne kv0 (by rw [hDc]; simp))
    simp only [List.map_cons, List.flatten_cons]
    rw [hv0]
    simp
  obtain ⟨p0, pr, hp0⟩ := List.exists_cons_of_ne_nil hflat
  have hp0ne : p0 ≠ [] := by
    have hmem : p0 ∈ (D.map (fun kv => kv.2.map
        (fun v => (quote_plus kv.1).data ++ '=' :: (quote_plus v).data))).flatten := by
      rw [hp0]; simp
    rw [List.mem_flatten] at hmem
    obtain ⟨l, hl, hpl⟩ := hmem
    rw [List.mem_map] at hl
    obtain ⟨kv, -, hkv⟩ := hl
    subst hkv
    rw [List.mem_map] at hpl
    obtain ⟨v, -, hv⟩ := hpl
    subst hv
    exact piece_ne_empty kv.1 v
  show joinWith ['&'] _ ≠ []
  exact joinWith_ne_empty _ _ p0 (by rw [hp0]; rfl) hp0ne

theorem update_second (u0 campaign_name : String) (hcn : campaign_name ≠ "")
    (hbad : (urlparsePy u0).2 = false) :
    update_click_url (some (assembleUrl { (urlparsePy u0).1 with query := urlencode (updateParams (parse_qs (urlparsePy u0).1.query) campaign_name) })) none campaign_name =
      assembleUrl { (urlparsePy u0).1 with query := urlencode (updateParams (parse_qs (urlparsePy u0).1.query) campaign_name) } := by
  have hq1 : (urlencode (updateParams (parse_qs (urlparsePy u0).1.query) campaign_name)).data ≠ [] := by
    apply urlencode_ne_nil
    · intro hnil
      obtain ⟨vs, hvs, -⟩ := updateParams_lookup_head (parse_qs (urlparsePy u0).1.query)
        campaign_name "utm_source" "tiktok" (by simp [params_to_add])
      rw [hnil] at hvs
      exact Option.noConfusion hvs
    · exact updateParams_vals_ne _ _ (parse_qs_vals_ne _)
  have hq2 := urlencode_chars (updateParams (parse_qs (urlparsePy u0).1.query) campaign_name)
  have hre := urlparse_assemble u0
    (urlencode (updateParams (parse_qs (urlparsePy u0).1.query) campaign_name)) hq1 hq2 hbad
  show assembleUrl { (urlparsePy (assembleUrl { (urlparsePy u0).1 with query := urlencode (updateParams (parse_qs (urlparsePy u0).1.query) campaign_name) })).1 with query := urlencode (updateParams (parse_qs (urlparsePy (assembleUrl { (urlparsePy u0).1 with query := urlencode (updateParams (parse_qs (urlparsePy u0).1.query) campaign_name) })).1.query) campaign_name) } = _
  rw [hre]
  dsimp only
  rw [query_roundtrip ((urlparsePy u0).1.query) campaign_name hcn]
  rw [updateParams_idem]

theorem update_secondE (u0 c : String) (hcn : c ≠ "")
    (hok : ∃ s, update_click_urlE (some u0) none c = Except.ok s) :
    update_click_url (some (assembleUrl { (urlparsePy u0).1 with query := urlencode (updateParams (parse_qs (urlparsePy u0).1.query) c) })) none c =
      assembleUrl { (urlparsePy u0).1 with query := urlencode (updateParams (parse_qs (urlparsePy u0).1.query) c) } := by
  obtain ⟨s, hs⟩ := hok
  have hbad : (urlparsePy u0).2 = false := by
    by_contra hb
    rw [Bool.not_eq_false] at hb
    simp only [update_click_urlE, hb, if_true] at hs
    exact Except.noConfusion hs
  exact update_second u0 c hcn hbad

/-- C4: corrected form of the idempotence claim.  For every original
URL, tracker prefix and campaign name, whenever the first application
of the URL Rewriter raises no exception (the bracket check of
`urlparse` passes) and the campaign name is nonempty, applying the
rewriter a second time to its own output, with a null tracker prefix
and the same campaign name, returns the same string: the six canonical
parameters are overwritten in place, never appended again.  The
campaign-name proviso is necessary: with an empty campaign name the
blank-valued campaign parameters are dropped by the second parse and
re-appended at the end (see the counterexample). -/
theorem C4_idempotent (original_url click_tracker : Option String) (campaign_name : String)
    (hcn : campaign_name ≠ "")
    (hok : ∃ s, update_click_urlE original_url click_tracker campaign_name = Except.ok s) :
    update_click_url (some (update_click_url original_url click_tracker campaign_name))
      none campaign_name =
      update_click_url original_url click_tracker campaign_name := by
  obtain ⟨s, hs⟩ := hok
  cases click_tracker with
  | none =>
    cases original_url with
    | none => exact update_secondE "" campaign_name hcn ⟨s, hs⟩
    | some s0 => exact update_secondE s0 campaign_name hcn ⟨s, hs⟩
  | some t =>
    cases original_url with
    | none => exact update_secondE (t ++ "") campaign_name hcn ⟨s, hs⟩
    | some s0 => exact update_secondE (t ++ s0) campaign_name hcn ⟨s, hs⟩

/-- Counterexample to C4 as stated: with an empty campaign name the
rewriter is not idempotent.  The first application emits blank
`utm_campaign=` / `tf_campaign=` pieces; the second parse drops them
(`keep_blank_values` is off) and the update loop re-appends them at the
end, changing the parameter order. -/
theorem C4_idempotent_counterexample :
    update_click_url (some (update_click_url none none "")) none "" ≠
      update_click_url none none "" := by decide

/-- Witness for C4 on the spec example: a prefixed URL with a nonempty
campaign name, rewritten twice, equals its single rewrite. -/
theorem C4_idempotent_witness :
    ("Spring" : String) ≠ "" ∧
    (∃ s, update_click_urlE (some "http://h/p?a=1") (some "https://t/?u=") "Spring" =
      Except.ok s) ∧
    update_click_url (some (update_click_url (some "http://h/p?a=1")
        (some "https://t/?u=") "Spring")) none "Spring" =
      update_click_url (some "http://h/p?a=1") (some "https://t/?u=") "Spring" :=
  ⟨by decide,
    ⟨update_click_url (some "http://h/p?a=1") (some "https://t/?u=") "Spring", by decide⟩,
    C4_idempotent (some "http://h/p?a=1") (some "https://t/?u=") "Spring" (by decide)
      ⟨update_click_url (some "http://h/p?a=1") (some "https://t/?u=") "Spring", by decide⟩⟩
